import Mathlib

/-!
# Karlyriceditor: the lyrics editor core (`src/editor.cpp`)

A shallow embedding of the time codec (`markToTime`, `infoToMark`), the legacy
importer (`Editor::importFromOldString`), the validator (`Editor::validate`) and
the model converter (`Editor::exportLyrics`, `Editor::importLyrics`).

Conventions of the embedding

* a `QString` is a `List Char`; the editor's document is the text returned by
  `toPlainText()`;
* `int` is a 32-bit and `qint64` a 64-bit two's-complement integer: values are
  `Int`, and every `int` / `qint64` operation of the source is followed by
  `wrap32` / `wrap64`;
* `QChar::isDigit` and the class `\d` of `QRegExp` are the decimal digits of
  Unicode (`isDigit`); `QString::toInt` and `QString::toLongLong` read the
  digits `'0'..'9'` only and fail, returning `0`, on any other digit;
* `tr("...")` messages are the constructors of `ErrorKind`;
* `pSettings`, `m_project->type()` and `CDGGenerator::validateParagraph` are
  explicit arguments.
-/

namespace Karlyriceditor

/-- A `QString`, as the list of its characters. -/
abbrev QString := List Char

/-! ## Machine integers -/

/-- Reduction of an integer to the range of a 32-bit `int`. -/
def wrap32 (x : Int) : Int := (x + 2147483648) % 4294967296 - 2147483648

/-- Reduction of an integer to the range of a `qint64`. -/
def wrap64 (x : Int) : Int :=
  (x + 9223372036854775808) % 18446744073709551616 - 9223372036854775808

/-! ## Qt string helpers -/

/-- `QChar::isSpace`: the control characters 9..13 and the Unicode separators. -/
def isSpace (c : Char) : Bool :=
  let u := c.toNat
  (9 ≤ u && u ≤ 13) || u == 32 || u == 160 || u == 5760 || (8192 ≤ u && u ≤ 8202) ||
    u == 8232 || u == 8233 || u == 8239 || u == 8287 || u == 12288

/-- The code points of the digit zero of every set of decimal digits of Unicode
13.0 (general category `Nd`) in the Basic Multilingual Plane, the range of a
`QChar`:
ASCII, Arabic-Indic, extended Arabic-Indic, NKo, Devanagari, Bengali, Gurmukhi,
Gujarati, Oriya, Tamil, Telugu, Kannada, Malayalam, Sinhala Lith, Thai, Lao,
Tibetan, Myanmar, Myanmar Shan, Khmer, Mongolian, Limbu, New Tai Lue, Tai Tham
Hora, Tai Tham Tham, Balinese, Sundanese, Lepcha, Ol Chiki, Vai, Saurashtra,
Kayah Li, Javanese, Myanmar Tai Laing, Cham, Meetei Mayek and full-width. The
digits one to nine follow each zero. -/
def decimalZeros : List Nat :=
  [0x0030, 0x0660, 0x06F0, 0x07C0, 0x0966, 0x09E6, 0x0A66, 0x0AE6, 0x0B66, 0x0BE6, 0x0C66,
    0x0CE6, 0x0D66, 0x0DE6, 0x0E50, 0x0ED0, 0x0F20, 0x1040, 0x1090, 0x17E0, 0x1810, 0x1946,
    0x19D0, 0x1A80, 0x1A90, 0x1B50, 0x1BB0, 0x1C40, 0x1C50, 0xA620, 0xA8D0, 0xA900, 0xA9D0,
    0xA9F0, 0xAA50, 0xABF0, 0xFF10]

/-- `QChar::isDigit`, which is also the class `\d` of `QRegExp`: the character is
a decimal digit of Unicode, of any script. -/
def isDigit (c : Char) : Bool :=
  decimalZeros.any fun z => z ≤ c.toNat && c.toNat < z + 10

/-- `QString::trimmed`: whitespace removed from both ends. -/
def trimmed (s : QString) : QString :=
  ((s.dropWhile isSpace).reverse.dropWhile isSpace).reverse

/-- `QString::split(sep)` with the default `KeepEmptyParts`. -/
def split (sep : Char) : QString → List QString
  | [] => [[]]
  | c :: cs =>
    if c = sep then [] :: split sep cs
    else
      match split sep cs with
      | [] => [[c]]
      | l :: ls => (c :: l) :: ls

/-- `QString::mid(position, n)`. -/
def mid (s : QString) (position n : Nat) : QString := (s.drop position).take n

/-- `QString::endsWith(QChar)`. -/
def endsWith (s : QString) (c : Char) : Bool := s.getLast? == some c

/-- The value of a string of the decimal digits `'0'..'9'`. -/
def digitsValue (s : QString) : Nat :=
  s.foldl (fun acc c => acc * 10 + (c.toNat - 48)) 0

/-- `QString::toInt` on a capture of `\d+`: the value when the digits are
`'0'..'9'` and it fits an `int`, and `0` (conversion failure) otherwise. -/
def toInt (s : QString) : Int :=
  if s.all Char.isDigit ∧ digitsValue s ≤ 2147483647 then (digitsValue s : Int) else 0

/-- The conversion `%02d` of `sprintf`. -/
def sprintf02d (n : Int) : QString :=
  if n < 0 then '-' :: Nat.toDigits 10 n.natAbs
  else if n < 10 then '0' :: Nat.toDigits 10 n.toNat
  else Nat.toDigits 10 n.toNat

/-! ## TimeCodec -/

/-- `markToTime` (editor.cpp:67). -/
def markToTime (mark : Int) : QString :=
  let min := wrap32 (Int.tdiv mark 60000)
  let sec := wrap32 (Int.tdiv (wrap64 (mark - wrap32 (min * 60000))) 1000)
  let msec := wrap32 (wrap64 (mark - wrap32 (wrap32 (min * 60000) + wrap32 (sec * 1000))))
  sprintf02d min ++ ':' :: sprintf02d sec ++ '.' :: sprintf02d (Int.tdiv msec 10)

/-- The regular expression `^(\d+):(\d+)\.(\d+)$`: the three captures when the
whole text matches. The digit class contains neither `':'` nor `'.'`, so the
first capture is the longest digit prefix and the match is unique. -/
def rxtime (data : QString) : Option (QString × QString × QString) :=
  let c1 := data.takeWhile isDigit
  match data.dropWhile isDigit with
  | ':' :: r1 =>
    let c2 := r1.takeWhile isDigit
    match r1.dropWhile isDigit with
    | '.' :: c3 =>
      if c1 ≠ [] ∧ c2 ≠ [] ∧ c3 ≠ [] ∧ c3.all isDigit then some (c1, c2, c3) else none
    | _ => none
  | _ => none

/-- `infoToMark` (editor.cpp:76): `-1` when the text is not a time. -/
def infoToMark (data : QString) : Int :=
  match rxtime data with
  | none => -1
  | some (c1, c2, c3) =>
    wrap32 (wrap32 (wrap32 (toInt c1 * 60000) + wrap32 (toInt c2 * 1000)) + wrap32 (toInt c3 * 10))

/-! ## Legacy import -/

/-- `QString::replace(before, after)` for a non-empty `before`: every
occurrence found scanning from the left is replaced, and the scan resumes
behind the occurrence. The counter is the number of characters of a matched
occurrence that are still to be skipped. -/
def replaceFrom (before after : QString) : Nat → QString → QString
  | _, [] => []
  | skip + 1, _ :: cs => replaceFrom before after skip cs
  | 0, c :: cs =>
    if before.isPrefixOf (c :: cs) then after ++ replaceFrom before after (before.length - 1) cs
    else c :: replaceFrom before after 0 cs

/-- `QString::replace(before, after)`. -/
def replace (before after s : QString) : QString := replaceFrom before after 0 s

/-- The three replacements of editor.cpp:122-124, in the order of the source. -/
def unescape (saved : QString) : QString :=
  replace ['&', 'a', 'm', 'p', ';'] ['&']
    (replace ['&', 'g', 't', ';'] ['>'] (replace ['&', 'l', 't', ';'] ['<'] saved))

/-- `QString::toLongLong`: surrounding whitespace is skipped, an optional sign
is followed by decimal digits only; `0` when the text is not of this form or the
value does not fit a `qint64`. -/
def toLongLong (s : QString) : Int :=
  match trimmed s with
  | '-' :: ds =>
    if ds ≠ [] ∧ ds.all Char.isDigit ∧ digitsValue ds ≤ 9223372036854775808
    then -(digitsValue ds : Int) else 0
  | '+' :: ds =>
    if ds ≠ [] ∧ ds.all Char.isDigit ∧ digitsValue ds ≤ 9223372036854775807
    then (digitsValue ds : Int) else 0
  | ds =>
    if ds ≠ [] ∧ ds.all Char.isDigit ∧ digitsValue ds ≤ 9223372036854775807
    then (digitsValue ds : Int) else 0

/-- The body of the tag branch (editor.cpp:136-144): the bracketed time made
from the text saved since the last `'<'`. -/
def oldTagTime (saved : QString) : QString :=
  if saved.contains '|' then
    '[' :: markToTime (toLongLong ((split '|' saved).headD [])) ++ [']']
  else
    '[' :: markToTime (toLongLong saved) ++ [']']

/-- The loop of `Editor::importFromOldString` (editor.cpp:116) over the
characters still to be read, with the variables `saved` and `strlyrics`. The
flag `timing` of the source is written and never read, and is left out. -/
def importOldLoop : QString → QString → QString → QString
  | [], saved, strlyrics => strlyrics ++ unescape saved
  | c :: cs, saved, strlyrics =>
    if c = '<' then importOldLoop cs [] (strlyrics ++ unescape saved)
    else if c = '>' then importOldLoop cs [] (strlyrics ++ oldTagTime saved)
    else importOldLoop cs (saved ++ [c]) strlyrics

/-- `Editor::importFromOldString` (editor.cpp:105): the text given to
`setPlainText`. -/
def importFromOldString (lyricstr : QString) : QString := importOldLoop lyricstr [] []

/-! ## Validator -/

/-- The settings object `pSettings`. -/
structure Settings where
  m_editorSupportBlocks : Bool
  m_editorMaxBlock : Int
  m_editorSkipEmptyLines : Bool
  m_editorStopAtLineEnd : Bool
  m_editorStopNextWord : Bool
  m_editorWordChars : Int
  m_editorDoubleTimeMark : Bool
  deriving DecidableEq, Repr

/-- The lyric type of the project, `Project::LyricType`. -/
inductive LyricType
  | LRC1
  | LRC2
  | UStar
  | CDG
  deriving DecidableEq, Repr

/-- The messages of `Editor::validate`, in the order of the source. -/
inductive ErrorKind
  /-- Message "Empty line found. ... blocks are currently disabled in settings" -/
  | emptyLine
  /-- Message "Double empty line found. ..." -/
  | doubleEmptyLine
  /-- Message "Block size exceeded. The block contains more than %1 lines. ..." -/
  | blockSize (limit : Int)
  /-- Message "Missing opening time tag. ..." -/
  | missingOpening
  /-- Message "Missing closing time tag. ..." -/
  | missingClosing
  /-- Message "Placeholders should not be present in the production file." -/
  | placeholder
  /-- Message "Invalid time, number of seconds cannot exceed 59." -/
  | secondsRange
  /-- Message "Time goes backward, previous time value is greater than current value." -/
  | timeBackward
  /-- Message "Invalid time tag. Time tag must be in format [mm:ss.ms] ..." -/
  | invalidTimeTag
  /-- Message "Invalid character in the time tag. ..." -/
  | invalidChar
  /-- Message "Invalid closing bracket usage outside the time block" -/
  | closingBracket
  /-- Message "Time tag is not closed properly" -/
  | notClosed
  /-- A message returned by `CDGGenerator::validateParagraph`. -/
  | paragraph (message : QString)
  deriving DecidableEq, Repr

/-- `ValidatorError`: line, column and message. -/
structure ValidatorError where
  line : Int
  column : Int
  error : ErrorKind
  deriving DecidableEq, Repr

/-- An error appended by `CDGGenerator::validateParagraph` (cdggenerator.cpp is
not among the sources): a line relative to the paragraph, a column and a
message. The message is kept apart from the messages of `Editor::validate` by
the constructor `ErrorKind.paragraph`. -/
structure ParagraphError where
  line : Int
  column : Int
  message : QString
  deriving DecidableEq, Repr

/-- What `Editor::validate` reads besides the text: the settings, the project's
lyric type, and `CDGGenerator::validateParagraph` as a function from the
paragraph text to the errors it appends. -/
structure Context where
  settings : Settings
  type : LyricType
  validateParagraph : QString → List ParagraphError

/-- `Editor::PLACEHOLDER` (editor.cpp:36). -/
def PLACEHOLDER : QString := ['[', '-', '-', ':', '-', '-', ']']

/-- The check of one closed time tag (editor.cpp:398-442): the errors pushed and
the new value of `last_time`. -/
def checkTimeTag (linenumber : Int) (time_tag_start : Nat) (time : QString) (last_time : Int) :
    List ValidatorError × Int :=
  if time = PLACEHOLDER then
    ([⟨linenumber, time_tag_start, .placeholder⟩], last_time)
  else
    match rxtime time with
    | some (_, c2, _) =>
      let timing := infoToMark time
      ((if toInt c2 ≥ 60 then [⟨linenumber, time_tag_start, .secondsRange⟩] else []) ++
        (if timing < last_time then [⟨linenumber, time_tag_start, .timeBackward⟩] else []),
       timing)
    | none => ([⟨linenumber, time_tag_start, .invalidTimeTag⟩], last_time)

/-- The variables of the column loop (editor.cpp:385-388) that outlive one
iteration. -/
structure TagState where
  paragraphtext : QString
  last_time : Int
  in_time_tag : Bool
  time_tag_start : Nat
  deriving DecidableEq, Repr

/-- The column loop (editor.cpp:388-477) from column `col` on, over the
characters of `line` still to be read: the errors pushed, in order, and the
final state. A `break` returns at once. -/
def scanColumns (linenumber : Int) (line : QString) :
    QString → Nat → TagState → List ValidatorError × TagState
  | [], _, st => ([], st)
  | ch :: rest, col, st =>
    if st.in_time_tag then
      if ch = ']' then
        let time := mid line st.time_tag_start (col - st.time_tag_start)
        let r := checkTimeTag linenumber st.time_tag_start time st.last_time
        let k := scanColumns linenumber line rest (col + 1)
          { st with last_time := r.2, in_time_tag := false }
        (r.1 ++ k.1, k.2)
      else if !isDigit ch && ch != ':' && ch != '.' then
        ([⟨linenumber, col, .invalidChar⟩], { st with in_time_tag := false })
      else scanColumns linenumber line rest (col + 1) st
    else if ch = '[' then
      scanColumns linenumber line rest (col + 1)
        { st with in_time_tag := true, time_tag_start := col + 1 }
    else if ch = ']' then
      let k := scanColumns linenumber line rest (col + 1) st
      (⟨linenumber, col, .closingBracket⟩ :: k.1, k.2)
    else
      scanColumns linenumber line rest (col + 1)
        { st with paragraphtext := st.paragraphtext ++ [ch] }

/-- The variables of `Editor::validate` that live across lines
(editor.cpp:277-279). -/
structure DocState where
  linesinblock : Int
  last_time : Int
  paragraphtext : QString
  deriving DecidableEq, Repr

/-- The branch of an empty line (editor.cpp:293-346). -/
def validateEmptyLine (ctx : Context) (linenumber : Int) (st : DocState) :
    List ValidatorError × DocState :=
  let next : DocState := { st with linesinblock := 0, paragraphtext := [] }
  if !ctx.settings.m_editorSupportBlocks then
    ([⟨linenumber, 0, .emptyLine⟩], next)
  else if st.paragraphtext.isEmpty then
    ([⟨linenumber, 0, .doubleEmptyLine⟩], next)
  else if ctx.type = LyricType.CDG then
    ((ctx.validateParagraph st.paragraphtext).map fun err =>
        ⟨wrap32 (err.line + (linenumber - st.linesinblock)), err.column, .paragraph err.message⟩,
     next)
  else ([], next)

/-- The body for a line that is not empty (editor.cpp:348-489). -/
def validateTextLine (ctx : Context) (linenumber : Int) (line : QString) (st : DocState) :
    List ValidatorError × DocState :=
  let linesinblock := st.linesinblock + 1
  let r := scanColumns linenumber line line 0
    { paragraphtext := st.paragraphtext, last_time := st.last_time,
      in_time_tag := false, time_tag_start := 0 }
  ((if ctx.settings.m_editorSupportBlocks && linesinblock > ctx.settings.m_editorMaxBlock
      then [⟨linenumber, 0, .blockSize ctx.settings.m_editorMaxBlock⟩] else []) ++
    (if line.head? ≠ some '[' then [⟨linenumber, 0, .missingOpening⟩] else []) ++
    (if ctx.type ≠ LyricType.LRC1 && !endsWith (trimmed line) ']'
      then [⟨linenumber, 0, .missingClosing⟩] else []) ++
    r.1 ++
    (if r.2.in_time_tag then [⟨linenumber, (line.length : Int) - 1, .notClosed⟩] else []),
   { linesinblock := linesinblock, last_time := r.2.last_time,
     paragraphtext := r.2.paragraphtext ++ ['\n'] })

/-- One iteration of the line loop (editor.cpp:288-490). -/
def validateLine (ctx : Context) (linenumber : Int) (line : QString) (st : DocState) :
    List ValidatorError × DocState :=
  if (trimmed line).isEmpty then validateEmptyLine ctx linenumber st
  else validateTextLine ctx linenumber line st

/-- The line loop from line `linenumber` on: the errors pushed, in order. -/
def validateLines (ctx : Context) : List QString → Int → DocState → List ValidatorError
  | [], _, _ => []
  | line :: rest, linenumber, st =>
    let r := validateLine ctx linenumber line st
    r.1 ++ validateLines ctx rest (linenumber + 1) r.2

/-- `Editor::validate(QList<ValidatorError>&)` (editor.cpp:275) on the text of
the editor: the error list it fills. -/
def validate (ctx : Context) (text : QString) : List ValidatorError :=
  validateLines ctx (split '\n' text) 1 { linesinblock := 0, last_time := 0, paragraphtext := [] }

/-- `Editor::validate()` (editor.cpp:256): whether the error list is empty. -/
def validateOk (ctx : Context) (text : QString) : Bool := (validate ctx text).isEmpty


/-! ## Model converter -/

/-- Modelled from the spec: `Lyrics::Syllable` (lyrics.h is not among the
sources), a timing in milliseconds and a text. -/
structure Syllable where
  timing : Int
  text : QString
  deriving DecidableEq, Repr

/-- Modelled from the spec: `Lyrics::Line`, an ordered sequence of syllables. -/
abbrev Line := List Syllable

/-- Modelled from the spec: `Lyrics::Block`, an ordered sequence of lines. -/
abbrev Block := List Line

/-- Modelled from the spec: the lyrics model, an ordered sequence of blocks; the
empty model, which is what the constructor `Lyrics()` makes, has zero blocks. -/
abbrev Lyrics := List Block

/-- Modelled from the spec: a `Lyrics` object while `exportLyrics` fills it
(lyrics.cpp is not among the sources): the closed blocks, the lines of the
current block, the syllables of the current line, and the current syllable. -/
structure LyricsBuilder where
  blocks : List Block
  block : Block
  line : Line
  timing : Int
  text : QString
  deriving DecidableEq, Repr

/-- Modelled from the spec: `Lyrics::beginLyrics`, nothing is stored yet. -/
def beginLyrics : LyricsBuilder :=
  { blocks := [], block := [], line := [], timing := 0, text := [] }

/-- Modelled from the spec: `Lyrics::curLyricSetTime`. -/
def curLyricSetTime (b : LyricsBuilder) (timems : Int) : LyricsBuilder :=
  { b with timing := timems }

/-- Modelled from the spec: `Lyrics::curLyricAppendText`. -/
def curLyricAppendText (b : LyricsBuilder) (text : QString) : LyricsBuilder :=
  { b with text := b.text ++ text }

/-- Modelled from the spec: `Lyrics::curLyricAdd`, the current syllable ends the
current line and a new syllable is started. -/
def curLyricAdd (b : LyricsBuilder) : LyricsBuilder :=
  { b with line := b.line ++ [⟨b.timing, b.text⟩], timing := 0, text := [] }

/-- Modelled from the spec: `Lyrics::curLyricAddEndOfLine`. A line with
syllables is added to the current block; with no syllable since the last call
(an empty line of the text) the current block is closed. -/
def curLyricAddEndOfLine (b : LyricsBuilder) : LyricsBuilder :=
  if b.line.isEmpty then { b with blocks := b.blocks ++ [b.block], block := [] }
  else { b with block := b.block ++ [b.line], line := [] }

/-- Modelled from the spec: `Lyrics::endLyrics`, a block still open is closed. -/
def endLyrics (b : LyricsBuilder) : Lyrics :=
  if b.block.isEmpty then b.blocks else b.blocks ++ [b.block]

/-- `QString::indexOf(QChar)`: the first position of the character, `-1` when
there is none. -/
def indexOf : QString → Char → Int
  | [], _ => -1
  | c :: cs, ch => if c = ch then 0 else
    let i := indexOf cs ch
    if i < 0 then -1 else i + 1

/-- `QString::left(n)`: the whole string when `n` is negative or not less than
its size. -/
def left (s : QString) (n : Int) : QString :=
  if n < 0 ∨ (s.length : Int) ≤ n then s else s.take n.toNat

/-- `QString::mid(position)` for a position that is not negative. -/
def midFrom (s : QString) (position : Int) : QString := s.drop position.toNat

/-- The inner `foreach` of `Editor::exportLyrics` (editor.cpp:187-197). -/
def exportParts : List QString → LyricsBuilder → LyricsBuilder
  | [], b => b
  | part :: parts, b =>
    let timeoff := indexOf part ']'
    let timing := left part timeoff
    let text := midFrom part (timeoff + 1)
    exportParts parts (curLyricAdd (curLyricAppendText (curLyricSetTime b (infoToMark timing)) text))

/-- The outer `foreach` of `Editor::exportLyrics` (editor.cpp:170-200); `none`
is the `return Lyrics()` of line 183. -/
def exportLines : List QString → LyricsBuilder → Option LyricsBuilder
  | [], b => some b
  | line :: lines, b =>
    if (trimmed line).isEmpty then exportLines lines (curLyricAddEndOfLine b)
    else
      let parts := split '[' line
      if !(parts.headD []).isEmpty then none
      else exportLines lines (curLyricAddEndOfLine (exportParts parts.tail b))

/-- `Editor::exportLyrics` (editor.cpp:158) on the text of the editor. -/
def exportLyrics (ctx : Context) (text : QString) : Lyrics :=
  if !validateOk ctx text then []
  else
    match exportLines (split '\n' text) beginLyrics with
    | none => []
    | some b => endLyrics b

/-- What editor.cpp:227 appends for one syllable. The last operand of the
concatenation is `lentry.timing`, a `qint64`: the overload
`operator+(const QString&, char)` converts it to one character, the low eight
bits of the timing. The text of the syllable is not written. -/
def importSyllable (lentry : Syllable) : QString :=
  '[' :: markToTime lentry.timing ++ [']'] ++ [Char.ofNat (lentry.timing % 256).toNat]

/-- The loop over the syllables of a line and the newline behind them
(editor.cpp:223-230). -/
def importLine : Line → QString
  | [] => ['\n']
  | lentry :: rest => importSyllable lentry ++ importLine rest

/-- The loop over the lines of a block and the newline behind them
(editor.cpp:219-233). -/
def importBlock : Block → QString
  | [] => ['\n']
  | line :: rest => importLine line ++ importBlock rest

/-- `Editor::importLyrics` (editor.cpp:206): the text given to `setPlainText`. -/
def importLyrics : Lyrics → QString
  | [] => []
  | block :: rest => importBlock block ++ importLyrics rest

/-! ## The tags of a document

Two views of the time tags of a text: the tags that the column loop of
`validate` closes, and the bracketed prefixes that `exportLyrics` decodes. -/

/-- A time tag that the column loop closes and that matches the regular
expression: its line, the column just after its `'['`, and its text. -/
structure ScannedTag where
  line : Int
  column : Nat
  time : QString
  deriving DecidableEq, Repr

/-- The well-formed tags met by the column loop (editor.cpp:388-477) from
column `col` on, in the order of the scan: the control flow of `scanColumns`,
keeping the tags for which line 410 succeeds. -/
def scannedTags (linenumber : Int) (line : QString) :
    QString → Nat → Bool → Nat → List ScannedTag
  | [], _, _, _ => []
  | ch :: rest, col, in_time_tag, time_tag_start =>
    if in_time_tag then
      if ch = ']' then
        let time := mid line time_tag_start (col - time_tag_start)
        (if time ≠ PLACEHOLDER ∧ (rxtime time).isSome
          then [⟨linenumber, time_tag_start, time⟩] else []) ++
          scannedTags linenumber line rest (col + 1) false time_tag_start
      else if !isDigit ch && ch != ':' && ch != '.' then []
      else scannedTags linenumber line rest (col + 1) true time_tag_start
    else if ch = '[' then scannedTags linenumber line rest (col + 1) true (col + 1)
    else scannedTags linenumber line rest (col + 1) false time_tag_start

/-- The well-formed tags met by `validate` in the lines from `linenumber` on;
an empty line is left by `continue` before the column loop. -/
def documentScannedTags : List QString → Int → List ScannedTag
  | [], _ => []
  | line :: rest, linenumber =>
    (if (trimmed line).isEmpty then [] else scannedTags linenumber line line 0 false 0) ++
      documentScannedTags rest (linenumber + 1)

/-- The seconds component of a well-formed tag, as `validate` reads it at
editor.cpp:412: `rxtime.cap( 2 ).toInt()`. -/
def secondsOf (time : QString) : Int :=
  match rxtime time with
  | some (_, c2, _) => toInt c2
  | none => 0

/-- The digits of the seconds field of a well-formed tag. -/
def secondsDigits (time : QString) : QString :=
  match rxtime time with
  | some (_, c2, _) => c2
  | none => []

/-- The time regression rule in the words of the spec: along the scanned tags,
an error at each tag whose value is less than the reference value, which then
becomes the value of that tag. -/
def backwardErrors : Int → List ScannedTag → List ValidatorError
  | _, [] => []
  | last_time, t :: ts =>
    (if infoToMark t.time < last_time then [⟨t.line, t.column, .timeBackward⟩] else []) ++
      backwardErrors (infoToMark t.time) ts

/-- The seconds rule in the words of the spec: an error at each scanned tag whose
seconds component is at least 60. -/
def secondsErrors : List ScannedTag → List ValidatorError
  | [] => []
  | t :: ts =>
    (if secondsOf t.time ≥ 60 then [⟨t.line, t.column, .secondsRange⟩] else []) ++
      secondsErrors ts

/-- The bracketed prefixes that `exportLyrics` decodes in one line
(editor.cpp:179-191): the line is split at `'['`, the first part is dropped, and
of each other part the text before its first `']'` is taken. -/
def lineTags (line : QString) : List QString :=
  (split '[' line).tail.map fun part => left part (indexOf part ']')

/-- The bracketed tags of a text, line by line, in document order. -/
def documentTags (text : QString) : List QString :=
  ((split '\n' text).map lineTags).flatten

/-- The value of `last_time` after the scanned tags given. -/
def lastTime : Int → List ScannedTag → Int
  | last_time, [] => last_time
  | _, t :: ts => lastTime (infoToMark t.time) ts

/-- The numbers, counted from `linenumber`, of the lines that are empty after
trimming. -/
def blankLines : List QString → Int → List Int
  | [], _ => []
  | line :: rest, linenumber =>
    (if (trimmed line).isEmpty then [linenumber] else []) ++ blankLines rest (linenumber + 1)

/-- The context of the examples: blocks of at most 8 lines, type LRC1, and a
paragraph hook without errors. -/
def exampleContext : Context :=
  { settings :=
      { m_editorSupportBlocks := true, m_editorMaxBlock := 8, m_editorSkipEmptyLines := false,
        m_editorStopAtLineEnd := false, m_editorStopNextWord := false, m_editorWordChars := 0,
        m_editorDoubleTimeMark := false },
    type := LyricType.LRC1,
    validateParagraph := fun _ => [] }

/-- The context `exampleContext` with blocks of at most 0 lines. -/
def zeroBlockContext : Context :=
  { exampleContext with
    settings := { exampleContext.settings with m_editorMaxBlock := 0 } }

/-- The document `[00:01.00][00:02.00]` / `[00:01.50]` of two lines. -/
def regressionExample : QString :=
  ['[', '0', '0', ':', '0', '1', '.', '0', '0', ']', '[', '0', '0', ':', '0', '2', '.', '0', '0',
    ']', '\n', '[', '0', '0', ':', '0', '1', '.', '5', '0', ']']

/-- The document `[00:60.00]`. -/
def seconds60Example : QString := ['[', '0', '0', ':', '6', '0', '.', '0', '0', ']']

/-- The document `[00:59.99]`. -/
def seconds59Example : QString := ['[', '0', '0', ':', '5', '9', '.', '9', '9', ']']

/-- The document `[00:2147483648.00]`, whose seconds field does not fit an
`int`. -/
def secondsOverflowExample : QString :=
  ['[', '0', '0', ':', '2', '1', '4', '7', '4', '8', '3', '6', '4', '8', '.', '0', '0', ']']

/-- The document `[00:01.00]la[00:02.00]` / `[00:03.00]x` of two lines. -/
def validExample : QString :=
  ['[', '0', '0', ':', '0', '1', '.', '0', '0', ']', 'l', 'a', '[', '0', '0', ':', '0', '2', '.',
    '0', '0', ']', '\n', '[', '0', '0', ':', '0', '3', '.', '0', '0', ']', 'x']

/-- The kinds of error that the column loop (editor.cpp:388-477) pushes. -/
def isColumnError : ErrorKind → Bool
  | .placeholder => true
  | .secondsRange => true
  | .timeBackward => true
  | .invalidTimeTag => true
  | .invalidChar => true
  | .closingBracket => true
  | _ => false

/-- The context `exampleContext` with blocks disabled. -/
def noBlocksContext : Context :=
  { exampleContext with
    settings := { exampleContext.settings with m_editorSupportBlocks := false } }

/-- The document `[00:01.00]a` / empty line / `[00:02.00]b`, two paragraphs. -/
def twoParagraphExample : QString :=
  ['[', '0', '0', ':', '0', '1', '.', '0', '0', ']', 'a', '\n', '\n',
    '[', '0', '0', ':', '0', '2', '.', '0', '0', ']', 'b']

/-- The model of one block with one line with the syllable `la` at 1000 ms. -/
def oneSyllableExample : Lyrics := [[[{ timing := 1000, text := ['l', 'a'] }]]]

/-! ## Blocks, closing tags and the order of the errors -/

/-- The variables of the line loop after the lines given, which are numbered
from `linenumber`. -/
def validateState (ctx : Context) : List QString → Int → DocState → DocState
  | [], _, st => st
  | line :: rest, linenumber, st =>
    validateState ctx rest (linenumber + 1) (validateLine ctx linenumber line st).2

/-- Whether an error is the block-size error (with any limit in its text). -/
def isBlockSize : ErrorKind → Bool
  | .blockSize _ => true
  | _ => false

/-- The closing-tag rule in the words of the spec: for every profile except
LRC1, an error at column 0 of each line that is not empty and that, after
trimming, does not end with `']'`. -/
def missingClosingErrors (type : LyricType) : List QString → Int → List ValidatorError
  | [], _ => []
  | line :: rest, linenumber =>
    (if ¬ (trimmed line).isEmpty ∧ type ≠ LyricType.LRC1 ∧ ¬ endsWith (trimmed line) ']'
      then [⟨linenumber, 0, .missingClosing⟩] else []) ++
      missingClosingErrors type rest (linenumber + 1)

/-- The context `exampleContext` with blocks of at most 2 lines. -/
def twoLineBlockContext : Context :=
  { exampleContext with
    settings := { exampleContext.settings with m_editorMaxBlock := 2 } }

/-- The context `exampleContext` with a negative block limit, `-1`. -/
def negativeBlockContext : Context :=
  { exampleContext with
    settings := { exampleContext.settings with m_editorMaxBlock := -1 } }

/-- The document of the one line `[00:01.00]a`. -/
def oneLineExample : QString := ['[', '0', '0', ':', '0', '1', '.', '0', '0', ']', 'a']

/-- The document `[00:01.00]a` / `[00:02.00]b` / `[00:03.00]c`, one block of
three lines. -/
def threeLineExample : QString :=
  ['[', '0', '0', ':', '0', '1', '.', '0', '0', ']', 'a', '\n',
    '[', '0', '0', ':', '0', '2', '.', '0', '0', ']', 'b', '\n',
    '[', '0', '0', ':', '0', '3', '.', '0', '0', ']', 'c']

/-- A context of type CDG whose paragraph hook reports one error, on the first
line of each paragraph (relative line 0). -/
def cdgContext : Context :=
  { settings := exampleContext.settings,
    type := LyricType.CDG,
    validateParagraph := fun _ => [{ line := 0, column := 0, message := ['c', 'd', 'g'] }] }

/-- The document `[00:01.00]a[00:02.00]` / `x[00:03.00]` / empty line: the
second line does not start with a tag. -/
def cdgExample : QString :=
  ['[', '0', '0', ':', '0', '1', '.', '0', '0', ']', 'a', '[', '0', '0', ':', '0', '2', '.', '0',
    '0', ']', '\n', 'x', '[', '0', '0', ':', '0', '3', '.', '0', '0', ']', '\n']

/-! ## Cursor advancer

The document of the editor is the text of its blocks joined by `'\n'`, and a
cursor position is an index into that text: the position behind the last
character of a block is the index of the `'\n'` that ends it. The cursor has no
selection. -/

/-- `isCRLF` (editor.cpp:62): `QChar::LineSeparator`, `QChar::ParagraphSeparator`
or `'\n'`. -/
def isCRLF (ch : Char) : Bool := ch.toNat == 8232 || ch.toNat == 8233 || ch == '\n'

/-- The text `block.text().mid( blockPos )` of the block from a position on,
given the text of the document from that position on. -/
def blockRest (rest : QString) : QString := rest.takeWhile (fun c => c != '\n')

/-- The length that `isTimingMark` (editor.cpp:566) stores: `strlen(PLACEHOLDER)`
when the text starts with the placeholder, else the matched length of the
regular expression `^\[\d+:\d+\.\d+\]`; `none` when it returns `false`. A digit
run of the match is the longest one, since the character behind it is not a
digit. -/
def timingMarkLength (text : QString) : Option Nat :=
  if PLACEHOLDER.isPrefixOf text then some PLACEHOLDER.length
  else
    match text with
    | '[' :: r0 =>
      match r0.dropWhile isDigit with
      | ':' :: r1 =>
        match r1.dropWhile isDigit with
        | '.' :: r2 =>
          match r2.dropWhile isDigit with
          | ']' :: _ =>
            if r0.takeWhile isDigit ≠ [] ∧ r1.takeWhile isDigit ≠ [] ∧
                r2.takeWhile isDigit ≠ [] then
              some ((r0.takeWhile isDigit).length + (r1.takeWhile isDigit).length +
                (r2.takeWhile isDigit).length + 4)
            else none
          | _ => none
        | _ => none
      | _ => none
    | _ => none

/-- `isTimingMark` (editor.cpp:566) without the length. -/
def isTimingMark (text : QString) : Bool := (timingMarkLength text).isSome

/-- The variables of the cursor loop (editor.cpp:625-626) besides `curPos`. -/
structure CursorScan where
  separator_found : Bool
  tagged_word_ended : Bool
  word_start_offset : Int
  deriving DecidableEq, Repr

/-- The values of the loop variables before the loop. -/
def CursorScan.init : CursorScan :=
  { separator_found := false, tagged_word_ended := false, word_start_offset := -1 }

/-- How an iteration of the cursor loop ends: the loop is left by `break` with
the value of `curPos` given, or `curPos` is incremented and the loop goes on
with the variables given. -/
inductive LoopStep
  | leave (curPos : Int)
  | advance (v : CursorScan)
  deriving DecidableEq, Repr

/-- The character `ch` of an iteration (editor.cpp:635-648): in the flat text a
`'\n'` is the end of a block that has a successor, where `ch` is
`QChar::LineSeparator`. -/
def currentChar (c : Char) : Char := if c = '\n' then Char.ofNat 8232 else c

/-- The word rule of the loop (editor.cpp:684-713) for the character `ch` at
`curPos`. -/
def wordStep (s : Settings) (ch : Char) (curPos : Int) (v : CursorScan) : LoopStep :=
  if s.m_editorStopNextWord then
    if isSpace ch then
      if v.word_start_offset ≠ -1 then
        if curPos - v.word_start_offset > s.m_editorWordChars then .leave v.word_start_offset
        else .advance { v with word_start_offset := -1 }
      else .advance { v with tagged_word_ended := true }
    else if v.tagged_word_ended && v.word_start_offset == -1 then
      .advance { v with word_start_offset := curPos }
    else .advance v
  else .advance v

/-- One iteration of the cursor loop (editor.cpp:650-715) with `curPos` at the
character `c`, which is followed by `rest` in the text of the document, and
which is not the end of the last block. -/
def cursorStep (s : Settings) (start : Int) (c : Char) (rest : QString) (curPos : Int)
    (v : CursorScan) : LoopStep :=
  if isTimingMark (blockRest (c :: rest)) then .leave curPos
  else if v.separator_found then
    if s.m_editorSkipEmptyLines && isCRLF (currentChar c) then .advance v
    else .leave curPos
  else if isCRLF (currentChar c) then
    if decide (start ≠ curPos) && s.m_editorStopAtLineEnd then .leave curPos
    else wordStep s (currentChar c) curPos { v with separator_found := true }
  else wordStep s (currentChar c) curPos v

/-- The cursor loop (editor.cpp:628-716) with `curPos` at the head of the text
given, which is the text of the document from `curPos` on; `start` is
`cur.position()`. The result is the value of `curPos` behind the loop. At the
end of the text the last block is at its end and the loop is left
(editor.cpp:641). -/
def scanCursor (s : Settings) (start : Int) : QString → Int → CursorScan → Int
  | [], curPos, _ => curPos
  | c :: rest, curPos, v =>
    match cursorStep s start c rest curPos v with
    | .leave p => p
    | .advance v' => scanCursor s start rest (curPos + 1) v'

/-- The cursor loop started at position `start` of the text `text`. -/
def cursorScan (s : Settings) (text : QString) (start : Nat) : Int :=
  scanCursor s start (text.drop start) start CursorScan.init

/-- The text of the document and the position of the cursor. -/
structure EditorState where
  text : QString
  position : Nat
  deriving DecidableEq, Repr

/-- The tag that `Editor::insertTimeTag` inserts (editor.cpp:613-616). -/
def timeTag (timing : Int) : QString :=
  if timing = 0 then PLACEHOLDER else '[' :: markToTime timing ++ [']']

/-- The text behind the cursor after the deletion of editor.cpp:601-610: a
timing mark at the cursor is deleted when `timing > 0`. -/
def afterDeletion (timing : Int) (after : QString) : QString :=
  match timingMarkLength (blockRest after) with
  | some length => if timing > 0 then after.drop length else after
  | none => after

/-- The flag `was_time_mark_deleted` (editor.cpp:601-604). -/
def wasTimeMarkDeleted (timing : Int) (after : QString) : Bool :=
  decide (timing > 0) && isTimingMark (blockRest after) &&
    PLACEHOLDER.isPrefixOf (blockRest after)

/-- `Editor::insertTimeTag` (editor.cpp:590): the text and the cursor position
behind the call. -/
def insertTimeTag (s : Settings) (timing : Int) (ed : EditorState) : EditorState :=
  let before := ed.text.take ed.position
  let after := afterDeletion timing (ed.text.drop ed.position)
  let text := before ++ timeTag timing ++ after
  let position := ed.position + (timeTag timing).length
  if s.m_editorDoubleTimeMark && wasTimeMarkDeleted timing (ed.text.drop ed.position) then
    { text := text, position := position }
  else
    { text := text, position := (scanCursor s position after position CursorScan.init).toNat }

/-- The policy of the word-skip example: stop at the next word, words of more
than 3 characters. -/
def wordSkipSettings : Settings :=
  { m_editorSupportBlocks := true, m_editorMaxBlock := 8, m_editorSkipEmptyLines := false,
    m_editorStopAtLineEnd := false, m_editorStopNextWord := true, m_editorWordChars := 3,
    m_editorDoubleTimeMark := false }

/-- The buffer `hi longword more`. -/
def wordSkipExample : QString :=
  ['h', 'i', ' ', 'l', 'o', 'n', 'g', 'w', 'o', 'r', 'd', ' ', 'm', 'o', 'r', 'e']

/-- The buffer `hi longword`, whose long word ends the text. -/
def wordAtEndExample : QString := ['h', 'i', ' ', 'l', 'o', 'n', 'g', 'w', 'o', 'r', 'd']

/-- A timing mark in the words of the spec: the placeholder, or a well-formed tag
`[digits:digits.digits]`, the digits being those of `QChar::isDigit`. -/
def IsTimingMark (mark : QString) : Prop :=
  mark = PLACEHOLDER ∨
    ∃ a b c : QString, a ≠ [] ∧ b ≠ [] ∧ c ≠ [] ∧ a.all isDigit = true ∧
      b.all isDigit = true ∧ c.all isDigit = true ∧
      mark = '[' :: (a ++ ':' :: (b ++ '.' :: (c ++ [']'])))

/-- No timing mark begins inside `seg` when the text `t` follows it: at every
non-empty suffix of `seg` the test `isTimingMark` of the loop is false. -/
def NoMarkWithin (seg t : QString) : Prop :=
  ∀ a b : QString, seg = a ++ b → b ≠ [] → isTimingMark (blockRest (b ++ t)) = false

/-- The text of a run of words, each followed by its white space. -/
def wordRun (G : List (QString × QString)) : QString :=
  match G with
  | [] => []
  | g :: rest => g.1 ++ (g.2 ++ wordRun rest)

/-- The buffer `hi to longword more`, with a short word before the long one. -/
def shortWordExample : QString :=
  ['h', 'i', ' ', 't', 'o', ' ', 'l', 'o', 'n', 'g', 'w', 'o', 'r', 'd', ' ', 'm', 'o', 'r', 'e']

/-- The line `[t1]x1[t2]x2...[tk]xk` of the tags `ti` and the texts `xi`. -/
def renderSyllables : List (QString × QString) → QString
  | [] => []
  | s :: rest => '[' :: (s.1 ++ ']' :: (s.2 ++ renderSyllables rest))

/-- The syllables of a line in the words of the spec: each fragment behind the
first yields one syllable, whose timing is decoded from the bracketed prefix
and whose text is the remainder up to the next tag. -/
def lineSyllables (line : QString) : Line :=
  (split '[' line).tail.map fun part =>
    ⟨infoToMark (left part (indexOf part ']')), midFrom part (indexOf part ']' + 1)⟩

/-- The model of a document in the words of the spec, given the blocks closed so
far and the lines of the current block: each line that is not blank adds its
syllables as one line to the current block, each blank line closes the current
block, and at the end a block that has lines is closed. -/
def documentBlocks : List QString → List Block → Block → Lyrics
  | [], blocks, block => if block.isEmpty then blocks else blocks ++ [block]
  | line :: lines, blocks, block =>
    if (trimmed line).isEmpty then documentBlocks lines (blocks ++ [block]) []
    else documentBlocks lines blocks (block ++ [lineSyllables line])

/-! ## The cursor loop by iterations, double empty lines, white space -/

/-- The loop `while ( 1 )` of `Editor::insertTimeTag` (editor.cpp:628-716),
iteration by iteration, with a bound on their number: every iteration reads the
text of the document at `curPos`, as the source does through `findBlock`. The
value is `none` when the bound is reached before the loop is left. -/
def scanLoop (s : Settings) (text : QString) (start : Int) :
    Nat → Nat → CursorScan → Option Int
  | 0, _, _ => none
  | fuel + 1, curPos, v =>
    match text.drop curPos with
    | [] => some curPos
    | c :: rest =>
      match cursorStep s start c rest curPos v with
      | .leave p => some p
      | .advance v' => scanLoop s text start fuel (curPos + 1) v'

/-- The document of three lines `[00:01.00]a`, an empty line, and another empty
line. -/
def doubleEmptyExample : QString :=
  ['[', '0', '0', ':', '0', '1', '.', '0', '0', ']', 'a', '\n', '\n']

/-- `QStringList::join(sep)`. -/
def join (sep : Char) : List QString → QString
  | [] => []
  | [l] => l
  | l :: l2 :: ls => l ++ sep :: join sep (l2 :: ls)

/-- The variables of `Editor::removeExtraWhitespace` (editor.cpp:553): the list
`lyrics` and the loop variable `lyric`. -/
structure TrimState where
  lyrics : List QString
  lyric : QString
  deriving DecidableEq, Repr

/-- The `foreach` of `Editor::removeExtraWhitespace` (editor.cpp:558-561) over
the elements still to be visited. The loop variable `lyric` is declared by value
(`QString lyric`), so it holds a copy of the element: the assignment
`lyric = lyric.trimmed()` changes the copy and the list `lyrics` stays as it
is. -/
def trimLoop : List QString → TrimState → TrimState
  | [], st => st
  | element :: rest, st => trimLoop rest { st with lyric := trimmed element }

/-- `Editor::removeExtraWhitespace` (editor.cpp:553) on the text of the editor:
the text given to `setPlainText`. -/
def removeExtraWhitespace (text : QString) : QString :=
  let lyrics := split '\n' text
  join '\n' (trimLoop lyrics { lyrics := lyrics, lyric := [] }).lyrics

/-- What the name of `removeExtraWhitespace` promises, in the words of the spec:
the same lines in the same order, each with its leading and trailing white space
removed. -/
def trimmedLines (text : QString) : QString :=
  join '\n' ((split '\n' text).map trimmed)

/-- The one-line text ` a `, with a space on both sides. -/
def paddedExample : QString := [' ', 'a', ' ']

/-- The value of a decimal digit of Unicode: its distance from the zero of its
set of digits; `0` for a character that is no digit. -/
def digitValue (c : Char) : Nat :=
  match decimalZeros.find? (fun z => z ≤ c.toNat && c.toNat < z + 10) with
  | some z => c.toNat - z
  | none => 0

/-- The number that a string of decimal digits of Unicode denotes. -/
def decimalValue (s : QString) : Nat :=
  s.foldl (fun acc c => acc * 10 + digitValue c) 0

/-- The text `1:00.00` written in full-width digits (U+FF10 to U+FF19). -/
def fullWidthTimeExample : QString :=
  [Char.ofNat 0xFF11, ':', Char.ofNat 0xFF10, Char.ofNat 0xFF10, '.', Char.ofNat 0xFF10,
    Char.ofNat 0xFF10]

/-- The document `[00:60.00]` with its digits written in full-width digits. -/
def fullWidthSecondsExample : QString :=
  ['[', Char.ofNat 0xFF10, Char.ofNat 0xFF10, ':', Char.ofNat 0xFF16, Char.ofNat 0xFF10, '.',
    Char.ofNat 0xFF10, Char.ofNat 0xFF10, ']']

/-- Whether an error comes from the paragraph hook
`CDGGenerator::validateParagraph`. -/
def isParagraphError : ErrorKind → Bool
  | .paragraph _ => true
  | _ => false

/-! ## Lemmas: machine integers and digits -/

theorem wrap32_of_range (x : Int) (h0 : -2147483648 ≤ x) (h1 : x < 2147483648) : wrap32 x = x := by
  unfold wrap32; omega

theorem wrap64_of_range (x : Int) (h0 : -9223372036854775808 ≤ x)
    (h1 : x < 9223372036854775808) : wrap64 x = x := by
  unfold wrap64; omega

theorem isDigit_iff (c : Char) : c.isDigit = true ↔ 48 ≤ c.toNat ∧ c.toNat ≤ 57 := by
  simp only [Char.isDigit, Char.toNat, UInt32.le_def, BitVec.le_def, Bool.and_eq_true,
    decide_eq_true_eq, ge_iff_le]
  exact Iff.rfl

theorem isSpace_of_isDigit (c : Char) (h : c.isDigit = true) : isSpace c = false := by
  rw [isDigit_iff] at h
  simp only [isSpace, Bool.or_eq_false_iff, Bool.and_eq_false_iff, decide_eq_false_iff_not, beq_eq_false_iff_ne]
  omega

/-- The digits `'0'..'9'` are decimal digits of Unicode. -/
theorem isDigit_of_ascii (c : Char) (h : c.isDigit = true) : isDigit c = true := by
  rw [isDigit_iff] at h
  simp only [isDigit, decimalZeros, List.any_cons, Bool.or_eq_true, Bool.and_eq_true,
    decide_eq_true_eq]
  left
  omega

theorem all_isDigit_of_ascii (ds : QString) (h : ds.all Char.isDigit = true) :
    ds.all isDigit = true := by
  rw [List.all_eq_true] at h ⊢
  exact fun x hx => isDigit_of_ascii x (h x hx)

theorem digitChar_isDigit (d : Nat) (h : d < 10) :
    (Nat.digitChar d).isDigit = true ∧ (Nat.digitChar d).toNat - 48 = d := by
  interval_cases d <;> decide

theorem digitsValue_append (xs : QString) (c : Char) :
    digitsValue (xs ++ [c]) = digitsValue xs * 10 + (c.toNat - 48) := by
  simp [digitsValue, List.foldl_append]

theorem toDigitsCore_append (fuel : Nat) : ∀ (n : Nat) (ds : QString),
    Nat.toDigitsCore 10 fuel n ds = Nat.toDigitsCore 10 fuel n [] ++ ds := by
  induction fuel with
  | zero => intro n ds; simp [Nat.toDigitsCore]
  | succ f ih =>
    intro n ds
    simp only [Nat.toDigitsCore]
    split
    · simp
    · rw [ih (n / 10) (_ :: ds), ih (n / 10) [_]]; simp

theorem toDigitsCore_spec (fuel : Nat) : ∀ (n : Nat), n < fuel →
      (Nat.toDigitsCore 10 fuel n []).all Char.isDigit = true ∧
      Nat.toDigitsCore 10 fuel n [] ≠ [] ∧
      digitsValue (Nat.toDigitsCore 10 fuel n []) = n := by
  induction fuel with
  | zero => intro n h; omega
  | succ f ih =>
    intro n h
    have hd := digitChar_isDigit (n % 10) (Nat.mod_lt _ (by decide))
    simp only [Nat.toDigitsCore]
    split
    · rename_i h0
      refine ⟨by simp [hd.1], by simp, ?_⟩
      simp only [digitsValue, List.foldl_cons, List.foldl_nil, hd.2]
      omega
    · rename_i h0
      rw [toDigitsCore_append]
      have := ih (n / 10) (by omega)
      refine ⟨by simp [hd.1, this.1], by simp, ?_⟩
      rw [digitsValue_append, this.2.2, hd.2]
      omega

theorem toDigits_spec (n : Nat) :
    (Nat.toDigits 10 n).all Char.isDigit = true ∧ Nat.toDigits 10 n ≠ [] ∧
      digitsValue (Nat.toDigits 10 n) = n :=
  toDigitsCore_spec (n + 1) n (Nat.lt_succ_self n)
theorem sprintf02d_small : ∀ n : Fin 100,
    (sprintf02d (n.val : Int)).all Char.isDigit = true ∧ sprintf02d (n.val : Int) ≠ [] ∧
      digitsValue (sprintf02d (n.val : Int)) = n.val := by
  decide

theorem sprintf02d_of_lt (n : Int) (h0 : 0 ≤ n) (h1 : n < 100) :
    (sprintf02d n).all Char.isDigit = true ∧ sprintf02d n ≠ [] ∧
      (digitsValue (sprintf02d n) : Int) = n := by
  obtain ⟨k, rfl⟩ := Int.eq_ofNat_of_zero_le h0
  have hk : k < 100 := by omega
  have := sprintf02d_small ⟨k, hk⟩
  simpa using this

theorem takeWhile_digits_append (a : QString) (c : Char) (r : QString)
    (ha : a.all isDigit = true) (hc : isDigit c = false) :
    (a ++ c :: r).takeWhile isDigit = a := by
  induction a with
  | nil => simp [List.takeWhile, hc]
  | cons x xs ih =>
    simp only [List.all_cons, Bool.and_eq_true] at ha
    simp [List.takeWhile, ha.1, ih ha.2]

theorem dropWhile_digits_append (a : QString) (c : Char) (r : QString)
    (ha : a.all isDigit = true) (hc : isDigit c = false) :
    (a ++ c :: r).dropWhile isDigit = c :: r := by
  induction a with
  | nil => simp [List.dropWhile, hc]
  | cons x xs ih =>
    simp only [List.all_cons, Bool.and_eq_true] at ha
    simp [List.dropWhile, ha.1, ih ha.2]

/-- A text `digits ':' digits '.' digits` matches, with the three digit strings
as captures. -/
theorem rxtime_of_parts (a b c : QString) (ha : a.all isDigit = true)
    (hb : b.all isDigit = true) (hc : c.all isDigit = true)
    (ha0 : a ≠ []) (hb0 : b ≠ []) (hc0 : c ≠ []) :
    rxtime (a ++ ':' :: (b ++ '.' :: c)) = some (a, b, c) := by
  unfold rxtime
  rw [dropWhile_digits_append a ':' _ ha (by decide),
    takeWhile_digits_append a ':' _ ha (by decide)]
  simp only
  rw [dropWhile_digits_append b '.' _ hb (by decide),
    takeWhile_digits_append b '.' _ hb (by decide)]
  simp [ha0, hb0, hc0, hc]

/-! ## TimeCodec round trip -/

/-- C1: for every time `t` below one hour that is a multiple of 10 ms, decoding
the encoded text gives `t` back: `infoToMark (markToTime t) = t`. -/
theorem infoToMark_markToTime (t : Int) (h0 : 0 ≤ t) (h1 : t < 3600000) (h10 : t % 10 = 0) :
    infoToMark (markToTime t) = t := by
  have hmin : Int.tdiv t 60000 = t / 60000 := Int.tdiv_eq_ediv h0 (by decide)
  have e1 : wrap32 (Int.tdiv t 60000) = t / 60000 := by
    rw [hmin]; exact wrap32_of_range _ (by omega) (by omega)
  have e2 : wrap32 (t / 60000 * 60000) = t / 60000 * 60000 :=
    wrap32_of_range _ (by omega) (by omega)
  have e3 : wrap64 (t - t / 60000 * 60000) = t % 60000 := by
    rw [wrap64_of_range _ (by omega) (by omega)]; omega
  have e4 : Int.tdiv (t % 60000) 1000 = t % 60000 / 1000 := Int.tdiv_eq_ediv (by omega) (by decide)
  have e5 : wrap32 (t % 60000 / 1000) = t % 60000 / 1000 :=
    wrap32_of_range _ (by omega) (by omega)
  have e6 : wrap32 (t % 60000 / 1000 * 1000) = t % 60000 / 1000 * 1000 :=
    wrap32_of_range _ (by omega) (by omega)
  have e7 : wrap32 (t / 60000 * 60000 + t % 60000 / 1000 * 1000) =
      t / 60000 * 60000 + t % 60000 / 1000 * 1000 :=
    wrap32_of_range _ (by omega) (by omega)
  have e8 : wrap64 (t - (t / 60000 * 60000 + t % 60000 / 1000 * 1000)) = t % 1000 := by
    rw [wrap64_of_range _ (by omega) (by omega)]; omega
  have e9 : wrap32 (t % 1000) = t % 1000 := wrap32_of_range _ (by omega) (by omega)
  have e10 : Int.tdiv (t % 1000) 10 = t % 1000 / 10 := Int.tdiv_eq_ediv (by omega) (by decide)
  have hm := sprintf02d_of_lt (t / 60000) (by omega) (by omega)
  have hs := sprintf02d_of_lt (t % 60000 / 1000) (by omega) (by omega)
  have hc := sprintf02d_of_lt (t % 1000 / 10) (by omega) (by omega)
  have hmk : markToTime t = sprintf02d (t / 60000) ++
      ':' :: (sprintf02d (t % 60000 / 1000) ++ '.' :: sprintf02d (t % 1000 / 10)) := by
    unfold markToTime
    simp only [e1, e2, e3, e4, e5, e6, e7, e8, e9, e10, List.append_assoc, List.cons_append]
  rw [hmk]
  unfold infoToMark
  rw [rxtime_of_parts _ _ _ (all_isDigit_of_ascii _ hm.1) (all_isDigit_of_ascii _ hs.1)
    (all_isDigit_of_ascii _ hc.1) hm.2.1 hs.2.1 hc.2.1]
  simp only [toInt]
  have a1 := hm.2.2
  have a2 := hs.2.2
  have a3 := hc.2.2
  have b1 : digitsValue (sprintf02d (t / 60000)) ≤ 2147483647 := by omega
  have b2 : digitsValue (sprintf02d (t % 60000 / 1000)) ≤ 2147483647 := by omega
  have b3 : digitsValue (sprintf02d (t % 1000 / 10)) ≤ 2147483647 := by omega
  rw [if_pos ⟨hm.1, b1⟩, if_pos ⟨hs.1, b2⟩, if_pos ⟨hc.1, b3⟩, a1, a2, a3]
  rw [wrap32_of_range (t / 60000 * 60000) (by omega) (by omega),
    wrap32_of_range (t % 60000 / 1000 * 1000) (by omega) (by omega),
    wrap32_of_range (t % 1000 / 10 * 10) (by omega) (by omega),
    wrap32_of_range _ (by omega) (by omega), wrap32_of_range _ (by omega) (by omega)]
  omega

/-- C1 at `t = 83450`, the time `01:23.45`. -/
theorem infoToMark_markToTime_witness :
    (0 : Int) ≤ 83450 ∧ (83450 : Int) < 3600000 ∧ (83450 : Int) % 10 = 0 ∧
      infoToMark (markToTime 83450) = 83450 :=
  ⟨by decide, by decide, by decide,
    infoToMark_markToTime 83450 (by decide) (by decide) (by decide)⟩

/-! ## Lemmas: Qt string helpers -/

theorem dropWhile_of_head (p : Char → Bool) (l : QString)
    (h : ∀ x, l.head? = some x → p x = false) : l.dropWhile p = l := by
  cases l with
  | nil => rfl
  | cons c cs => simp [List.dropWhile, h c rfl]

theorem trimmed_of_ends (s : QString) (h1 : ∀ x, s.head? = some x → isSpace x = false)
    (h2 : ∀ x, s.getLast? = some x → isSpace x = false) : trimmed s = s := by
  unfold trimmed
  rw [dropWhile_of_head _ s h1, dropWhile_of_head _ s.reverse (by simpa using h2)]
  simp

theorem trimmed_of_digits (ds : QString) (h : ds.all Char.isDigit = true) : trimmed ds = ds := by
  rw [List.all_eq_true] at h
  apply trimmed_of_ends
  · intro x hx
    exact isSpace_of_isDigit x (h x (List.mem_of_mem_head? hx))
  · intro x hx
    exact isSpace_of_isDigit x (h x (List.mem_of_getLast?_eq_some hx))

theorem split_append_sep (sep : Char) (a b : QString) (h : sep ∉ a) :
    split sep (a ++ sep :: b) = a :: split sep b := by
  induction a with
  | nil => simp [split]
  | cons c cs ih =>
    simp only [List.mem_cons, not_or] at h
    have hc : c ≠ sep := fun e => h.1 e.symm
    simp [split, hc, ih h.2]

theorem split_of_not_mem (sep : Char) (a : QString) (h : sep ∉ a) : split sep a = [a] := by
  induction a with
  | nil => simp [split]
  | cons c cs ih =>
    simp only [List.mem_cons, not_or] at h
    have hc : c ≠ sep := fun e => h.1 e.symm
    simp [split, hc, ih h.2]

/-! ## Lemmas: legacy import -/

theorem replaceFrom_plain (b : QString) (a s r : QString) (h : '&' ∉ s) :
    replaceFrom ('&' :: b) a 0 (s ++ r) = s ++ replaceFrom ('&' :: b) a 0 r := by
  induction s with
  | nil => rfl
  | cons c cs ih =>
    simp only [List.mem_cons, not_or] at h
    have hc : ('&' == c) = false := by simpa using h.1
    simp [replaceFrom, List.isPrefixOf, hc, ih h.2]

theorem replace_plain (b a s : QString) (h : '&' ∉ s) : replace ('&' :: b) a s = s := by
  have := replaceFrom_plain b a s [] h
  simpa [replace, replaceFrom] using this

theorem unescape_plain (s : QString) (h : '&' ∉ s) : unescape s = s := by
  unfold unescape
  rw [replace_plain _ _ s h, replace_plain _ _ s h, replace_plain _ _ s h]

theorem importOldLoop_plain (s : QString) (h1 : '<' ∉ s) (h2 : '>' ∉ s) :
    ∀ rest saved out, importOldLoop (s ++ rest) saved out = importOldLoop rest (saved ++ s) out := by
  induction s with
  | nil => intro rest saved out; simp
  | cons c cs ih =>
    intro rest saved out
    simp only [List.mem_cons, not_or] at h1 h2
    have c1 : c ≠ '<' := fun e => h1.1 e.symm
    have c2 : c ≠ '>' := fun e => h2.1 e.symm
    simp [importOldLoop, c1, c2, ih h1.2 h2.2]

theorem not_mem_of_digits (ds : QString) (h : ds.all isDigit = true) (c : Char)
    (hc : isDigit c = false) : c ∉ ds := by
  rw [List.all_eq_true] at h
  intro hm
  have := h c hm
  simp [hc] at this

theorem toLongLong_digits (ds : QString) (h : ds.all Char.isDigit = true) (h0 : ds ≠ [])
    (hv : digitsValue ds ≤ 9223372036854775807) : toLongLong ds = (digitsValue ds : Int) := by
  unfold toLongLong
  rw [trimmed_of_digits ds h]
  cases ds with
  | nil => exact absurd rfl h0
  | cons c cs =>
    have hc : c.isDigit = true := by
      simp only [List.all_cons, Bool.and_eq_true] at h; exact h.1
    have m1 : c ≠ '-' := by rintro rfl; revert hc; decide
    have m2 : c ≠ '+' := by rintro rfl; revert hc; decide
    split
    · rename_i heq; simp only [List.cons.injEq] at heq; exact absurd heq.1 m1
    · rename_i heq; simp only [List.cons.injEq] at heq; exact absurd heq.1 m2
    · rw [if_pos ⟨h0, h, hv⟩]

theorem oldTagTime_digits (ds : QString) (h : ds.all Char.isDigit = true) (h0 : ds ≠ [])
    (hv : digitsValue ds ≤ 9223372036854775807) :
    oldTagTime ds = '[' :: markToTime (digitsValue ds : Int) ++ [']'] := by
  have hb : ds.contains '|' = false := by
    have := not_mem_of_digits ds (all_isDigit_of_ascii _ h) '|' (by decide)
    simpa using this
  unfold oldTagTime
  rw [hb, toLongLong_digits ds h h0 hv]
  simp only [Bool.false_eq_true, if_false]

theorem oldTagTime_digits_duration (ds dd : QString) (h : ds.all Char.isDigit = true)
    (h0 : ds ≠ []) (hv : digitsValue ds ≤ 9223372036854775807) :
    oldTagTime (ds ++ '|' :: dd) = '[' :: markToTime (digitsValue ds : Int) ++ [']'] := by
  have hb : (ds ++ '|' :: dd).contains '|' = true := by simp
  have hs := split_append_sep '|' ds dd (not_mem_of_digits ds (all_isDigit_of_ascii _ h) '|' (by decide))
  unfold oldTagTime
  rw [hb, hs]
  simp only [if_true, List.headD_cons]
  rw [toLongLong_digits ds h h0 hv]

theorem importOldLoop_open (cs saved out : QString) :
    importOldLoop ('<' :: cs) saved out = importOldLoop cs [] (out ++ unescape saved) := rfl

theorem importOldLoop_close (cs saved out : QString) :
    importOldLoop ('>' :: cs) saved out = importOldLoop cs [] (out ++ oldTagTime saved) := rfl

theorem importOldLoop_end (saved out : QString) :
    importOldLoop [] saved out = out ++ unescape saved := rfl

/-- The conversion of one literal tag `<tagtext>` between plain texts. -/
theorem importFromOldString_tag (pre post tagtext : QString)
    (hpre : '<' ∉ pre ∧ '>' ∉ pre ∧ '&' ∉ pre) (hpost : '<' ∉ post ∧ '>' ∉ post ∧ '&' ∉ post)
    (htag : '<' ∉ tagtext ∧ '>' ∉ tagtext) :
    importFromOldString (pre ++ '<' :: (tagtext ++ '>' :: post)) =
      pre ++ (oldTagTime tagtext ++ post) := by
  unfold importFromOldString
  rw [importOldLoop_plain pre hpre.1 hpre.2.1, importOldLoop_open,
    importOldLoop_plain tagtext htag.1 htag.2, importOldLoop_close]
  have := importOldLoop_plain post hpost.1 hpost.2.1 [] [] ([] ++ unescape ([] ++ pre) ++ oldTagTime ([] ++ tagtext))
  rw [List.append_nil] at this
  rw [this, importOldLoop_end]
  simp only [List.nil_append, unescape_plain pre hpre.2.2, unescape_plain post hpost.2.2,
    List.append_assoc]
theorem replaceFrom_lt_match (a r : QString) :
    replaceFrom ['&', 'l', 't', ';'] a 0 ('&' :: 'l' :: 't' :: ';' :: r) =
      a ++ replaceFrom ['&', 'l', 't', ';'] a 0 r := by
  simp [replaceFrom, List.isPrefixOf]

theorem replaceFrom_gt_match (a r : QString) :
    replaceFrom ['&', 'g', 't', ';'] a 0 ('&' :: 'g' :: 't' :: ';' :: r) =
      a ++ replaceFrom ['&', 'g', 't', ';'] a 0 r := by
  simp [replaceFrom, List.isPrefixOf]

theorem replaceFrom_lt_gt (a r : QString) :
    replaceFrom ['&', 'l', 't', ';'] a 0 ('&' :: 'g' :: r) =
      '&' :: 'g' :: replaceFrom ['&', 'l', 't', ';'] a 0 r := rfl

theorem replaceFrom_plain_end (b a s : QString) (h : '&' ∉ s) :
    replaceFrom ('&' :: b) a 0 s = s := by
  have := replaceFrom_plain b a s [] h
  simpa [replaceFrom] using this

/-- Unescaping a number between the entities `&lt;` and `&gt;`, followed by a
plain text. -/
theorem unescape_entity_tag (ds s : QString) (hd : '&' ∉ ds) (hs : '&' ∉ s) :
    unescape ('&' :: 'l' :: 't' :: ';' :: (ds ++ '&' :: 'g' :: 't' :: ';' :: s)) =
      '<' :: (ds ++ '>' :: s) := by
  have e1 : replace ['&', 'l', 't', ';'] ['<']
      ('&' :: 'l' :: 't' :: ';' :: (ds ++ '&' :: 'g' :: 't' :: ';' :: s)) =
      '<' :: (ds ++ '&' :: 'g' :: 't' :: ';' :: s) := by
    unfold replace
    rw [replaceFrom_lt_match, replaceFrom_plain _ _ ds _ hd, replaceFrom_lt_gt,
      replaceFrom_plain_end _ _ ('t' :: ';' :: s) (by simp [hs])]
    rfl
  have e2 : replace ['&', 'g', 't', ';'] ['>'] ('<' :: (ds ++ '&' :: 'g' :: 't' :: ';' :: s)) =
      '<' :: (ds ++ '>' :: s) := by
    unfold replace
    have := replaceFrom_plain ['g', 't', ';'] ['>'] ('<' :: ds) ('&' :: 'g' :: 't' :: ';' :: s)
      (by simp [hd])
    rw [List.cons_append] at this
    rw [this, replaceFrom_gt_match, replaceFrom_plain_end _ _ s hs]
    rfl
  have e3 : replace ['&', 'a', 'm', 'p', ';'] ['&'] ('<' :: (ds ++ '>' :: s)) =
      '<' :: (ds ++ '>' :: s) :=
    replace_plain _ _ _ (by simp [hd, hs])
  unfold unescape
  rw [e1, e2, e3]

/-- C3, as amended: a number between the entities `&lt;` and `&gt;` is not a
tag. For every number `n` and every plain text `s` (no `'<'`, `'>'`, `'&'`),
`importFromOldString` turns `"&lt;" ++ n ++ "&gt;" ++ s` into
`"<" ++ n ++ ">" ++ s`: the entities are unescaped and nothing is converted. It
is the input `"<100>hello"`, with literal brackets, that becomes
`"[00:00.10]hello"`. -/
theorem importFromOldString_entities (n : Nat) (s : QString)
    (hs : '<' ∉ s ∧ '>' ∉ s ∧ '&' ∉ s) :
    importFromOldString ('&' :: 'l' :: 't' :: ';' ::
        (Nat.toDigits 10 n ++ '&' :: 'g' :: 't' :: ';' :: s)) =
      '<' :: (Nat.toDigits 10 n ++ '>' :: s) ∧
    importFromOldString ['<', '1', '0', '0', '>', 'h', 'e', 'l', 'l', 'o'] =
      ['[', '0', '0', ':', '0', '0', '.', '1', '0', ']', 'h', 'e', 'l', 'l', 'o'] := by
  refine ⟨?_, by decide⟩
  have hd := (toDigits_spec n).1
  have d1 := not_mem_of_digits _ (all_isDigit_of_ascii _ hd) '<' (by decide)
  have d2 := not_mem_of_digits _ (all_isDigit_of_ascii _ hd) '>' (by decide)
  have d3 := not_mem_of_digits _ (all_isDigit_of_ascii _ hd) '&' (by decide)
  have p1 : '<' ∉ '&' :: 'l' :: 't' :: ';' :: (Nat.toDigits 10 n ++ '&' :: 'g' :: 't' :: ';' :: s) := by
    simp [d1, hs.1]
  have p2 : '>' ∉ '&' :: 'l' :: 't' :: ';' :: (Nat.toDigits 10 n ++ '&' :: 'g' :: 't' :: ';' :: s) := by
    simp [d2, hs.2.1]
  have := importOldLoop_plain _ p1 p2 [] [] []
  rw [List.append_nil] at this
  unfold importFromOldString
  rw [this, importOldLoop_end, List.nil_append, List.nil_append, unescape_entity_tag _ _ d3 hs.2.2]

/-- C3 at `n = 100` and `s = "hello"`. -/
theorem importFromOldString_entities_witness :
    importFromOldString ('&' :: 'l' :: 't' :: ';' ::
        (Nat.toDigits 10 100 ++ '&' :: 'g' :: 't' :: ';' :: ['h', 'e', 'l', 'l', 'o'])) =
      '<' :: (Nat.toDigits 10 100 ++ '>' :: ['h', 'e', 'l', 'l', 'o']) ∧
    importFromOldString ['<', '1', '0', '0', '>', 'h', 'e', 'l', 'l', 'o'] =
      ['[', '0', '0', ':', '0', '0', '.', '1', '0', ']', 'h', 'e', 'l', 'l', 'o'] :=
  importFromOldString_entities 100 ['h', 'e', 'l', 'l', 'o'] (by decide)

/-- C3, as stated, fails: `"&lt;100&gt;hello"` is converted to `"<100>hello"`,
not to `"[00:00.10]hello"`. -/
theorem importFromOldString_entities_counterexample :
    importFromOldString
        ['&', 'l', 't', ';', '1', '0', '0', '&', 'g', 't', ';', 'h', 'e', 'l', 'l', 'o'] =
      ['<', '1', '0', '0', '>', 'h', 'e', 'l', 'l', 'o'] ∧
    importFromOldString
        ['&', 'l', 't', ';', '1', '0', '0', '&', 'g', 't', ';', 'h', 'e', 'l', 'l', 'o'] ≠
      '[' :: markToTime 100 ++ ']' :: ['h', 'e', 'l', 'l', 'o'] := by
  decide

/-- C4, as amended: for plain texts `pre` and `post` (no `'<'`, `'>'`, `'&'`), a
number `n` of at most 9223372036854775807 (the largest `qint64`) and any number
`d`, the tag `<n>` between `pre` and `post` is converted to
`[markToTime n]`, and the tag `<n|d>` gives the same output. -/
theorem importFromOldString_legacy_tag (pre post : QString) (n d : Nat)
    (hpre : '<' ∉ pre ∧ '>' ∉ pre ∧ '&' ∉ pre) (hpost : '<' ∉ post ∧ '>' ∉ post ∧ '&' ∉ post)
    (hn : n ≤ 9223372036854775807) :
    importFromOldString (pre ++ '<' :: (Nat.toDigits 10 n ++ '>' :: post)) =
      pre ++ ('[' :: markToTime (n : Int) ++ ']' :: post) ∧
    importFromOldString
        (pre ++ '<' :: ((Nat.toDigits 10 n ++ '|' :: Nat.toDigits 10 d) ++ '>' :: post)) =
      pre ++ ('[' :: markToTime (n : Int) ++ ']' :: post) := by
  obtain ⟨hd, hd0, hv⟩ := toDigits_spec n
  have hdd := (toDigits_spec d).1
  have d1 := not_mem_of_digits _ (all_isDigit_of_ascii _ hd) '<' (by decide)
  have d2 := not_mem_of_digits _ (all_isDigit_of_ascii _ hd) '>' (by decide)
  have d3 := not_mem_of_digits _ (all_isDigit_of_ascii _ hdd) '<' (by decide)
  have d4 := not_mem_of_digits _ (all_isDigit_of_ascii _ hdd) '>' (by decide)
  have hv2 : digitsValue (Nat.toDigits 10 n) ≤ 9223372036854775807 := by rw [hv]; exact hn
  have m1 : '<' ∉ Nat.toDigits 10 n ++ '|' :: Nat.toDigits 10 d := by
    intro h
    rcases List.mem_append.1 h with h | h
    · exact d1 h
    · rcases List.mem_cons.1 h with h | h
      · exact absurd h (by decide)
      · exact d3 h
  have m2 : '>' ∉ Nat.toDigits 10 n ++ '|' :: Nat.toDigits 10 d := by
    intro h
    rcases List.mem_append.1 h with h | h
    · exact d2 h
    · rcases List.mem_cons.1 h with h | h
      · exact absurd h (by decide)
      · exact d4 h
  constructor
  · rw [importFromOldString_tag pre post _ hpre hpost ⟨d1, d2⟩,
      oldTagTime_digits _ hd hd0 hv2, hv, List.append_assoc, List.singleton_append]
  · rw [importFromOldString_tag pre post _ hpre hpost ⟨m1, m2⟩,
      oldTagTime_digits_duration _ _ hd hd0 hv2, hv, List.append_assoc, List.singleton_append]

/-- C4 at `pre = "a"`, `post = "b"`, `n = 100`, `d = 30`. -/
theorem importFromOldString_legacy_tag_witness :
    importFromOldString (['a'] ++ '<' :: (Nat.toDigits 10 100 ++ '>' :: ['b'])) =
      ['a'] ++ ('[' :: markToTime ((100 : Nat) : Int) ++ ']' :: ['b']) ∧
    importFromOldString
        (['a'] ++ '<' :: ((Nat.toDigits 10 100 ++ '|' :: Nat.toDigits 10 30) ++ '>' :: ['b'])) =
      ['a'] ++ ('[' :: markToTime ((100 : Nat) : Int) ++ ']' :: ['b']) :=
  importFromOldString_legacy_tag ['a'] ['b'] 100 30 (by decide) (by decide) (by decide)

/-- C4, as stated for every `n`, fails at `n = 9223372036854775808`: the number
does not fit a `qint64`, `toLongLong` gives `0`, and the tag becomes
`[00:00.00]`, which is not `[markToTime n]`. -/
theorem importFromOldString_legacy_tag_counterexample :
    Nat.toDigits 10 9223372036854775808 =
      ['9', '2', '2', '3', '3', '7', '2', '0', '3', '6', '8', '5', '4', '7', '7', '5', '8', '0', '8'] ∧
    importFromOldString ([] ++ '<' :: (['9', '2', '2', '3', '3', '7', '2', '0', '3', '6', '8', '5',
        '4', '7', '7', '5', '8', '0', '8'] ++ '>' :: [])) =
      ['[', '0', '0', ':', '0', '0', '.', '0', '0', ']'] ∧
    importFromOldString ([] ++ '<' :: (['9', '2', '2', '3', '3', '7', '2', '0', '3', '6', '8', '5',
        '4', '7', '7', '5', '8', '0', '8'] ++ '>' :: [])) ≠
      [] ++ ('[' :: markToTime ((9223372036854775808 : Nat) : Int) ++ ']' :: []) := by
  decide

/-! ## Lemmas: the column loop and the scanned tags -/

theorem backwardErrors_append (a b : List ScannedTag) : ∀ last_time,
    backwardErrors last_time (a ++ b) =
      backwardErrors last_time a ++ backwardErrors (lastTime last_time a) b := by
  induction a with
  | nil => intro lt; rfl
  | cons t ts ih => intro lt; simp [backwardErrors, lastTime, ih]

theorem lastTime_append (a b : List ScannedTag) : ∀ last_time,
    lastTime last_time (a ++ b) = lastTime (lastTime last_time a) b := by
  induction a with
  | nil => intro lt; rfl
  | cons t ts ih => intro lt; simp [lastTime, ih]

theorem secondsErrors_append (a b : List ScannedTag) :
    secondsErrors (a ++ b) = secondsErrors a ++ secondsErrors b := by
  induction a with
  | nil => rfl
  | cons t ts ih => simp [secondsErrors, ih]

/-- The tag that closing the text `time` adds to the scanned tags. -/
theorem checkTimeTag_spec (linenumber : Int) (tts : Nat) (time : QString) (last_time : Int) :
    let tags : List ScannedTag :=
      if time ≠ PLACEHOLDER ∧ (rxtime time).isSome then [⟨linenumber, tts, time⟩] else []
    let r := checkTimeTag linenumber tts time last_time
    r.1.filter (fun e => e.error = .timeBackward) = backwardErrors last_time tags ∧
      r.1.filter (fun e => e.error = .secondsRange) = secondsErrors tags ∧
      r.2 = lastTime last_time tags := by
  by_cases hP : time = PLACEHOLDER
  · simp [checkTimeTag, hP, backwardErrors, secondsErrors, lastTime]
  · cases hr : rxtime time with
    | none => simp [checkTimeTag, hP, hr, backwardErrors, secondsErrors, lastTime]
    | some c =>
      obtain ⟨c1, c2, c3⟩ := c
      simp only [checkTimeTag, hP, hr, if_false, ne_eq, not_false_eq_true, Option.isSome_some,
        and_self, if_true, backwardErrors, secondsErrors, lastTime, secondsOf, List.append_nil]
      refine ⟨?_, ?_, trivial⟩
      · by_cases h1 : toInt c2 ≥ 60 <;> by_cases h2 : infoToMark time < last_time <;>
          simp [h1, h2]
      · by_cases h1 : toInt c2 ≥ 60 <;> by_cases h2 : infoToMark time < last_time <;>
          simp [h1, h2]

theorem scanColumns_spec (linenumber : Int) (line : QString) : ∀ (rest : QString) (col : Nat)
    (st : TagState),
    ((scanColumns linenumber line rest col st).1.filter (fun e => e.error = .timeBackward) =
        backwardErrors st.last_time
          (scannedTags linenumber line rest col st.in_time_tag st.time_tag_start) ∧
      (scanColumns linenumber line rest col st).1.filter (fun e => e.error = .secondsRange) =
        secondsErrors (scannedTags linenumber line rest col st.in_time_tag st.time_tag_start)) ∧
      (scanColumns linenumber line rest col st).2.last_time =
        lastTime st.last_time
          (scannedTags linenumber line rest col st.in_time_tag st.time_tag_start) := by
  intro rest
  induction rest with
  | nil => intro col st; simp [scanColumns, scannedTags, backwardErrors, secondsErrors, lastTime]
  | cons ch rest ih =>
    intro col st
    by_cases hin : st.in_time_tag = true
    · by_cases hc : ch = ']'
      · have hk := checkTimeTag_spec linenumber st.time_tag_start
          (mid line st.time_tag_start (col - st.time_tag_start)) st.last_time
        have hi := ih (col + 1)
          { st with
            last_time := (checkTimeTag linenumber st.time_tag_start
              (mid line st.time_tag_start (col - st.time_tag_start)) st.last_time).2,
            in_time_tag := false }
        simp only at hk hi
        simp only [scanColumns, scannedTags, hin, hc, if_true, List.filter_append,
          backwardErrors_append, secondsErrors_append, lastTime_append]
        rw [hk.1, hk.2.1, hi.1.1, hi.1.2, hi.2, hk.2.2]
        exact ⟨⟨rfl, rfl⟩, rfl⟩
      · by_cases hd : (!isDigit ch && ch != ':' && ch != '.') = true
        · simp [scanColumns, scannedTags, hin, hc, hd, backwardErrors, secondsErrors, lastTime]
        · have hi := ih (col + 1) st
          rw [hin] at hi
          simp only [scanColumns, scannedTags, hin, hc, hd, if_true, if_false]
          exact hi
    · have hin2 : st.in_time_tag = false := by simpa using hin
      by_cases hc : ch = '['
      · have hi := ih (col + 1) { st with in_time_tag := true, time_tag_start := col + 1 }
        simp only [scanColumns, scannedTags, hin2, hc, if_true, if_false, Bool.false_eq_true]
        exact hi
      · by_cases hc2 : ch = ']'
        · have hi := ih (col + 1) st
          rw [hin2] at hi
          simp only [scanColumns, scannedTags, hin2, hc, hc2, if_true, if_false,
            Bool.false_eq_true]
          simp only [hc2] at hc
          simp only [hc, if_false]
          refine ⟨⟨?_, ?_⟩, hi.2⟩
          · rw [List.filter_cons_of_neg (by simp)]; exact hi.1.1
          · rw [List.filter_cons_of_neg (by simp)]; exact hi.1.2
        · have hi := ih (col + 1) { st with paragraphtext := st.paragraphtext ++ [ch] }
          simp only [scanColumns, scannedTags, hin2, hc, hc2, if_false, Bool.false_eq_true]
          simp only [hin2] at hi
          exact hi

theorem filter_paragraph_map (p : ErrorKind → Bool) (hp : ∀ m, p (.paragraph m) = false)
    (f : ParagraphError → Int) (l : List ParagraphError) :
    (l.map fun err => (⟨f err, err.column, .paragraph err.message⟩ : ValidatorError)).filter
      (fun e => p e.error) = [] := by
  induction l with
  | nil => rfl
  | cons x xs ih => simp [List.filter, hp, ih]

/-- The errors of the branch of an empty line have one of three kinds. -/
theorem validateEmptyLine_filter (ctx : Context) (linenumber : Int) (st : DocState)
    (p : ErrorKind → Bool) (h1 : p .emptyLine = false) (h2 : p .doubleEmptyLine = false)
    (h3 : ∀ m, p (.paragraph m) = false) :
    (validateEmptyLine ctx linenumber st).1.filter (fun e => p e.error) = [] := by
  unfold validateEmptyLine
  by_cases hb : ctx.settings.m_editorSupportBlocks = true
  · by_cases he : st.paragraphtext.isEmpty = true
    · simp [hb, he, h2]
    · by_cases ht : ctx.type = LyricType.CDG
      · simp only [hb, he, ht, if_true, if_false, Bool.not_true, Bool.false_eq_true]
        exact filter_paragraph_map p h3 _ _
      · simp [hb, he, ht]
  · simp [hb, h1]

theorem validateEmptyLine_state (ctx : Context) (linenumber : Int) (st : DocState) :
    (validateEmptyLine ctx linenumber st).2 =
      { linesinblock := 0, last_time := st.last_time, paragraphtext := [] } := by
  unfold validateEmptyLine
  by_cases hb : ctx.settings.m_editorSupportBlocks = true
  · by_cases he : st.paragraphtext.isEmpty = true
    · simp [hb, he]
    · by_cases ht : ctx.type = LyricType.CDG
      · simp [hb, he, ht]
      · simp [hb, he, ht]
  · simp [hb]

/-- The errors of a line that is not empty, filtered by a kind that only the
column loop reports. -/
theorem validateTextLine_filter (ctx : Context) (linenumber : Int) (line : QString)
    (st : DocState) (p : ErrorKind → Bool) (h1 : ∀ m, p (.blockSize m) = false)
    (h2 : p .missingOpening = false) (h3 : p .missingClosing = false)
    (h4 : p .notClosed = false) :
    (validateTextLine ctx linenumber line st).1.filter (fun e => p e.error) =
      (scanColumns linenumber line line 0
        { paragraphtext := st.paragraphtext, last_time := st.last_time,
          in_time_tag := false, time_tag_start := 0 }).1.filter (fun e => p e.error) := by
  unfold validateTextLine
  simp only [List.filter_append]
  have a1 : ∀ (c : Prop) [Decidable c] (e : ValidatorError), p e.error = false →
      (if c then [e] else []).filter (fun e => p e.error) = [] := by
    intro c _ e he
    by_cases hc : c <;> simp [hc, he]
  rw [a1 _ _ (h1 _), a1 _ _ h2, a1 _ _ h3, a1 _ _ h4]
  simp

theorem validateLines_spec (ctx : Context) : ∀ (lines : List QString) (linenumber : Int)
    (st : DocState),
    (validateLines ctx lines linenumber st).filter (fun e => e.error = .timeBackward) =
        backwardErrors st.last_time (documentScannedTags lines linenumber) ∧
      (validateLines ctx lines linenumber st).filter (fun e => e.error = .secondsRange) =
        secondsErrors (documentScannedTags lines linenumber) := by
  intro lines
  induction lines with
  | nil => intro n st; simp [validateLines, documentScannedTags, backwardErrors, secondsErrors]
  | cons line rest ih =>
    intro n st
    by_cases hb : (trimmed line).isEmpty = true
    · have hi := ih (n + 1) (validateEmptyLine ctx n st).2
      rw [validateEmptyLine_state] at hi
      have f1 := validateEmptyLine_filter ctx n st (fun k => k = .timeBackward)
        (by simp) (by simp) (by simp)
      have f2 := validateEmptyLine_filter ctx n st (fun k => k = .secondsRange)
        (by simp) (by simp) (by simp)
      simp only [validateLines, validateLine, documentScannedTags, hb, if_true,
        List.filter_append, List.nil_append, validateEmptyLine_state]
      rw [f1, f2, hi.1, hi.2]
      exact ⟨rfl, rfl⟩
    · have hs := scanColumns_spec n line line 0
        { paragraphtext := st.paragraphtext, last_time := st.last_time,
          in_time_tag := false, time_tag_start := 0 }
      have hi := ih (n + 1) (validateTextLine ctx n line st).2
      have f1 := validateTextLine_filter ctx n line st (fun k => k = .timeBackward)
        (by simp) (by simp) (by simp) (by simp)
      have f2 := validateTextLine_filter ctx n line st (fun k => k = .secondsRange)
        (by simp) (by simp) (by simp) (by simp)
      have hl : (validateTextLine ctx n line st).2.last_time =
          (scanColumns n line line 0
            { paragraphtext := st.paragraphtext, last_time := st.last_time,
              in_time_tag := false, time_tag_start := 0 }).2.last_time := rfl
      simp only [validateLines, validateLine, documentScannedTags, hb, if_false,
        List.filter_append, backwardErrors_append, secondsErrors_append, Bool.false_eq_true]
      rw [f1, f2, hi.1, hi.2, hl, hs.1.1, hs.1.2, hs.2]
      exact ⟨rfl, rfl⟩

/-! ## Time regression and seconds bound -/

/-- C5: the time-goes-backward errors of `validate` are exactly the errors of the
time regression rule along the well-formed tags the scan meets, in document
order: a tag gets the error, at its line and at the column just after its `'['`,
if and only if its decoded value is less than the decoded value of the tag
scanned before it (`0` for the first tag), and each tag becomes the reference
for the next one whether or not it got the error. In the document
`[00:01.00][00:02.00]` / `[00:01.50]` the error is reported on line 2. -/
theorem validate_timeBackward (ctx : Context) (text : QString) :
    (validate ctx text).filter (fun e => e.error = .timeBackward) =
        backwardErrors 0 (documentScannedTags (split '\n' text) 1) ∧
      (⟨2, 1, .timeBackward⟩ : ValidatorError) ∈ validate ctx regressionExample := by
  refine ⟨(validateLines_spec ctx _ 1 _).1, ?_⟩
  have h := (validateLines_spec ctx (split '\n' regressionExample) 1
    { linesinblock := 0, last_time := 0, paragraphtext := [] }).1
  have hm : (⟨2, 1, .timeBackward⟩ : ValidatorError) ∈
      backwardErrors 0 (documentScannedTags (split '\n' regressionExample) 1) := by decide
  rw [← h] at hm
  exact (List.mem_filter.1 hm).1

theorem validate_single_line (ctx : Context) (line : QString) (h : '\n' ∉ line)
    (hb : (trimmed line).isEmpty = false) :
    validate ctx line =
      (validateTextLine ctx 1 line { linesinblock := 0, last_time := 0, paragraphtext := [] }).1 := by
  unfold validate
  rw [split_of_not_mem _ _ h]
  simp only [validateLines, validateLine, hb, Bool.false_eq_true, if_false, List.append_nil]

/-- C7, as amended: the out-of-range-seconds errors of `validate` are exactly the
errors of the seconds rule along the well-formed tags the scan meets, where the
seconds are read by `toInt`; for a seconds field written in the digits
`'0'..'9'` and of at most 2147483647 that is the rule "seconds at least 60". The
document `[00:60.00]` yields the error, and the document `[00:59.99]` yields no
error when blocks are disabled or the block limit is at least 1. -/
theorem validate_secondsRange (ctx : Context) (text : QString) :
    (validate ctx text).filter (fun e => e.error = .secondsRange) =
        secondsErrors (documentScannedTags (split '\n' text) 1) ∧
      (∀ time : QString, (secondsDigits time).all Char.isDigit = true →
        digitsValue (secondsDigits time) ≤ 2147483647 →
        (secondsOf time ≥ 60 ↔ digitsValue (secondsDigits time) ≥ 60)) ∧
      (⟨1, 1, .secondsRange⟩ : ValidatorError) ∈ validate ctx seconds60Example ∧
      (ctx.settings.m_editorSupportBlocks = false ∨ 1 ≤ ctx.settings.m_editorMaxBlock →
        validate ctx seconds59Example = []) := by
  refine ⟨(validateLines_spec ctx _ 1 _).2, ?_, ?_, ?_⟩
  · intro time hd ht
    unfold secondsOf secondsDigits at *
    cases hr : rxtime time with
    | none => simp [hr, digitsValue]
    | some c =>
      obtain ⟨c1, c2, c3⟩ := c
      simp only [hr] at hd ht ⊢
      unfold toInt
      rw [if_pos ⟨hd, ht⟩]
      omega
  · have h := (validateLines_spec ctx (split '\n' seconds60Example) 1
      { linesinblock := 0, last_time := 0, paragraphtext := [] }).2
    have hm : (⟨1, 1, .secondsRange⟩ : ValidatorError) ∈
        secondsErrors (documentScannedTags (split '\n' seconds60Example) 1) := by decide
    rw [← h] at hm
    exact (List.mem_filter.1 hm).1
  · intro hcfg
    rw [validate_single_line ctx _ (by decide) (by decide)]
    unfold validateTextLine
    have hscan : scanColumns 1 seconds59Example seconds59Example 0
        { paragraphtext := [], last_time := 0, in_time_tag := false, time_tag_start := 0 } =
        ([], { paragraphtext := [], last_time := 59990, in_time_tag := false,
               time_tag_start := 1 }) := by decide
    have hhead : seconds59Example.head? = some '[' := by decide
    have hend : endsWith (trimmed seconds59Example) ']' = true := by decide
    have hblock : (ctx.settings.m_editorSupportBlocks &&
        decide ((0 : Int) + 1 > ctx.settings.m_editorMaxBlock)) = false := by
      rcases hcfg with h | h
      · simp [h]
      · simp only [Bool.and_eq_false_iff, decide_eq_false_iff_not]
        right; omega
    simp only [hscan, hhead, hend, hblock]
    simp

/-- C7 at the context of the examples and the tag `00:60.00`. -/
theorem validate_secondsRange_witness :
    ((secondsDigits ['0', '0', ':', '6', '0', '.', '0', '0']).all Char.isDigit = true ∧
      digitsValue (secondsDigits ['0', '0', ':', '6', '0', '.', '0', '0']) ≤ 2147483647 ∧
      secondsOf ['0', '0', ':', '6', '0', '.', '0', '0'] ≥ 60) ∧
    (1 ≤ exampleContext.settings.m_editorMaxBlock ∧
      validate exampleContext seconds59Example = []) :=
  ⟨⟨by decide, by decide,
      ((validate_secondsRange exampleContext []).2.1 ['0', '0', ':', '6', '0', '.', '0', '0']
        (by decide) (by decide)).2 (by decide)⟩,
    by decide, (validate_secondsRange exampleContext []).2.2.2 (Or.inr (by decide))⟩

/-- C7, as stated, fails three times: the tag `[00:2147483648.00]` has a seconds
component of at least 60 and gets no error at all; the tag `[00:60.00]` written
in full-width digits is well formed for the regular expression, its seconds
field denotes 60, and it gets no error at all, since `toInt` reads only the
digits `'0'..'9'`; and the document `[00:59.99]` gets a block-size error when
blocks are limited to 0 lines. -/
theorem validate_secondsRange_counterexample :
    (documentScannedTags (split '\n' secondsOverflowExample) 1 =
        [⟨1, 1, ['0', '0', ':', '2', '1', '4', '7', '4', '8', '3', '6', '4', '8', '.', '0', '0']⟩] ∧
      digitsValue (secondsDigits
        ['0', '0', ':', '2', '1', '4', '7', '4', '8', '3', '6', '4', '8', '.', '0', '0']) ≥ 60 ∧
      validate exampleContext secondsOverflowExample = []) ∧
    ((documentScannedTags (split '\n' fullWidthSecondsExample) 1).map
        (fun t => (t.line, t.column, decimalValue (secondsDigits t.time))) = [(1, 1, 60)] ∧
      validate exampleContext fullWidthSecondsExample = []) ∧
    validate zeroBlockContext seconds59Example = [⟨1, 0, .blockSize 0⟩] := by
  decide

/-! ## Lemmas: the column loop on a line without errors -/

theorem split_cons_eq (sep c : Char) (cs : QString) :
    split sep (c :: cs) =
      if c = sep then [] :: split sep cs
      else (c :: (split sep cs).headD []) :: (split sep cs).tail := by
  by_cases h : c = sep
  · simp [split, h]
  · simp only [split, h, if_false]
    cases split sep cs with
    | nil => rfl
    | cons l ls => rfl

theorem split_ne_nil (sep : Char) (s : QString) : split sep s ≠ [] := by
  cases s with
  | nil => simp [split]
  | cons c cs =>
    rw [split_cons_eq]
    by_cases h : c = sep <;> simp [h]

theorem indexOf_append (acc r : QString) (ch : Char) (h : ch ∉ acc) :
    indexOf (acc ++ ch :: r) ch = (acc.length : Int) := by
  induction acc with
  | nil => simp [indexOf]
  | cons c cs ih =>
    simp only [List.mem_cons, not_or] at h
    have hc : c ≠ ch := fun e => h.1 e.symm
    have := ih h.2
    have e : indexOf (c :: (cs ++ ch :: r)) ch =
        if indexOf (cs ++ ch :: r) ch < 0 then -1 else indexOf (cs ++ ch :: r) ch + 1 := by
      simp only [indexOf, hc, if_false]
    rw [List.cons_append, e, this]
    have hlen : ¬ ((cs.length : Int) < 0) := by omega
    rw [if_neg hlen]
    rfl

theorem left_indexOf_append (acc r : QString) (ch : Char) (h : ch ∉ acc) :
    left (acc ++ ch :: r) (indexOf (acc ++ ch :: r) ch) = acc := by
  rw [indexOf_append acc r ch h]
  unfold left
  have h1 : ¬ (((acc.length : Int) < 0) ∨ ((acc ++ ch :: r).length : Int) ≤ (acc.length : Int)) := by
    simp only [List.length_append, List.length_cons]
    push_cast
    omega
  rw [if_neg h1]
  simp

theorem drop_succ_of_drop (line rest : QString) (ch : Char) (col : Nat)
    (h : line.drop col = ch :: rest) : line.drop (col + 1) = rest := by
  have : line.drop (col + 1) = (line.drop col).drop 1 := by
    rw [List.drop_drop]
  rw [this, h]; rfl

theorem mid_succ (line rest : QString) (ch : Char) (tts col : Nat)
    (h : line.drop col = ch :: rest) (hle : tts ≤ col) :
    mid line tts (col + 1 - tts) = mid line tts (col - tts) ++ [ch] := by
  unfold mid
  have e : col + 1 - tts = (col - tts) + 1 := by omega
  rw [e, List.take_succ]
  congr 1
  have hd : ((line.drop tts).drop (col - tts)) = ch :: rest := by
    rw [List.drop_drop]
    have : tts + (col - tts) = col := by omega
    rw [this, h]
  have : (line.drop tts)[col - tts]? = some ch := by
    rw [← List.head?_drop, hd]; rfl
  rw [this]; rfl

theorem mid_zero (line : QString) (tts : Nat) : mid line tts (tts - tts) = [] := by
  simp [mid]

theorem checkTimeTag_nil (linenumber : Int) (tts : Nat) (time : QString) (last_time : Int)
    (h : (checkTimeTag linenumber tts time last_time).1 = []) :
    time ≠ PLACEHOLDER ∧ (rxtime time).isSome = true := by
  unfold checkTimeTag at h
  by_cases hP : time = PLACEHOLDER
  · simp [hP] at h
  · cases hr : rxtime time with
    | none => simp [hP, hr] at h
    | some c => exact ⟨hP, rfl⟩

theorem tagChar_ne (ch : Char) (h : ¬ ((!isDigit ch && ch != ':' && ch != '.') = true)) :
    ch ≠ ']' ∧ ch ≠ '[' := by
  constructor
  · rintro rfl; exact h (by decide)
  · rintro rfl; exact h (by decide)

/-- On a line that the column loop passes without error and leaves outside a
tag, the tags met by the loop are the bracketed prefixes that `exportLyrics`
takes from the parts of the line. -/
theorem scanColumns_tags (linenumber : Int) (line : QString) : ∀ (rest : QString) (col : Nat)
    (st : TagState), line.drop col = rest →
    (st.in_time_tag = true → st.time_tag_start ≤ col ∧
      ∀ c ∈ mid line st.time_tag_start (col - st.time_tag_start), c ≠ ']' ∧ c ≠ '[') →
    (scanColumns linenumber line rest col st).1 = [] →
    (scanColumns linenumber line rest col st).2.in_time_tag = false →
    (scannedTags linenumber line rest col st.in_time_tag st.time_tag_start).map (fun t => t.time) =
      if st.in_time_tag = true then
        left (mid line st.time_tag_start (col - st.time_tag_start) ++ (split '[' rest).headD [])
            (indexOf (mid line st.time_tag_start (col - st.time_tag_start) ++
              (split '[' rest).headD []) ']') ::
          (split '[' rest).tail.map (fun part => left part (indexOf part ']'))
      else (split '[' rest).tail.map (fun part => left part (indexOf part ']')) := by
  intro rest
  induction rest with
  | nil =>
    intro col st _ _ _ hfin
    have hin : st.in_time_tag = false := by simpa [scanColumns] using hfin
    simp [scannedTags, split, hin]
  | cons ch rest ih =>
    intro col st hdrop hinv herr hfin
    have hdrop' := drop_succ_of_drop line rest ch col hdrop
    by_cases hin : st.in_time_tag = true
    · obtain ⟨hle, hacc⟩ := hinv hin
      by_cases hc : ch = ']'
      · subst hc
        simp only [scanColumns, hin, if_true] at herr hfin
        have hk := List.append_eq_nil.1 herr
        have hcond := checkTimeTag_nil _ _ _ _ hk.1
        have hi := ih (col + 1) _ hdrop' (by intro h; simp at h) hk.2 hfin
        simp only [Bool.false_eq_true, if_false] at hi
        have hnot : ']' ∉ mid line st.time_tag_start (col - st.time_tag_start) :=
          fun hm => (hacc _ hm).1 rfl
        simp only [scannedTags, hin, if_true, hcond, ne_eq, not_false_eq_true, and_self,
          List.map_append, List.map_cons, List.map_nil, hi, List.singleton_append]
        rw [split_cons_eq]
        simp only [show (']' : Char) ≠ '[' by decide, if_false, List.headD_cons, List.tail_cons,
          left_indexOf_append _ _ _ hnot]
      · by_cases hd : (!isDigit ch && ch != ':' && ch != '.') = true
        · simp [scanColumns, hin, hc, hd] at herr
        · have hd' : (!isDigit ch && ch != ':' && ch != '.') = false := by
            cases hv : (!isDigit ch && ch != ':' && ch != '.')
            · rfl
            · exact absurd hv hd
          simp only [scanColumns, hin, hc, hd', if_true, if_false, Bool.false_eq_true]
            at herr hfin
          have hne := tagChar_ne ch hd
          have hmid := mid_succ line rest ch st.time_tag_start col hdrop hle
          have hi := ih (col + 1) st hdrop'
            (by
              intro _
              refine ⟨by omega, ?_⟩
              rw [hmid]
              intro c hcm
              rcases List.mem_append.1 hcm with h | h
              · exact hacc c h
              · rw [List.mem_singleton] at h; subst h; exact hne)
            herr hfin
          simp only [hin, if_true] at hi
          rw [hmid] at hi
          simp only [scannedTags, hin, hc, hd', if_true, if_false, Bool.false_eq_true, hi]
          rw [split_cons_eq]
          simp only [hne.2, if_false, List.headD_cons, List.tail_cons, List.append_assoc,
            List.singleton_append]
    · have hin2 : st.in_time_tag = false := by simpa using hin
      by_cases hc : ch = '['
      · subst hc
        simp only [scanColumns, hin2, if_true, Bool.false_eq_true, if_false] at herr hfin
        have hi := ih (col + 1) { st with in_time_tag := true, time_tag_start := col + 1 } hdrop'
          (by
            intro _
            refine ⟨le_refl _, ?_⟩
            simp [mid])
          herr hfin
        simp only [if_true] at hi
        simp only [scannedTags, hin2, if_true, Bool.false_eq_true, if_false, hi]
        rw [split_cons_eq]
        simp only [if_true, List.tail_cons]
        have hs := split_ne_nil '[' rest
        cases hsp : split '[' rest with
        | nil => exact absurd hsp hs
        | cons p ps => simp [mid]
      · by_cases hc2 : ch = ']'
        · simp [scanColumns, hin2, hc, hc2] at herr
        · simp only [scanColumns, hin2, hc, hc2, Bool.false_eq_true, if_false] at herr hfin
          have hi := ih (col + 1)
            { paragraphtext := st.paragraphtext ++ [ch], last_time := st.last_time,
              in_time_tag := false, time_tag_start := st.time_tag_start } hdrop'
            (by intro h; simp at h) herr hfin
          simp only [Bool.false_eq_true, if_false] at hi
          simp only [scannedTags, hin2, hc, Bool.false_eq_true, if_false, hi]
          rw [split_cons_eq]
          simp only [hc, if_false, List.tail_cons]

/-! ## Lemmas: a document without errors -/

theorem trimmed_isEmpty_iff (s : QString) :
    (trimmed s).isEmpty = true ↔ ∀ c ∈ s, isSpace c = true := by
  unfold trimmed
  rw [List.isEmpty_iff, List.reverse_eq_nil_iff, List.dropWhile_eq_nil_iff]
  constructor
  · intro h
    have hnil : s.dropWhile isSpace = [] := by
      cases hd : s.dropWhile isSpace with
      | nil => rfl
      | cons x xs =>
        have hx : isSpace x = true := h x (by rw [hd]; simp)
        have := List.head?_dropWhile_not isSpace s
        rw [hd] at this
        simp [hx] at this
    exact List.dropWhile_eq_nil_iff.1 hnil
  · intro h x hx
    rw [List.mem_reverse] at hx
    exact h x (List.dropWhile_subset isSpace hx)

theorem lineTags_of_blank (line : QString) (h : (trimmed line).isEmpty = true) :
    lineTags line = [] := by
  have hs := (trimmed_isEmpty_iff line).1 h
  have hn : '[' ∉ line := fun hm => by
    have := hs _ hm
    revert this; decide
  unfold lineTags
  rw [split_of_not_mem _ _ hn]
  rfl

theorem validateTextLine_nil (ctx : Context) (linenumber : Int) (line : QString) (st : DocState)
    (h : (validateTextLine ctx linenumber line st).1 = []) :
    (scanColumns linenumber line line 0
        { paragraphtext := st.paragraphtext, last_time := st.last_time,
          in_time_tag := false, time_tag_start := 0 }).1 = [] ∧
      (scanColumns linenumber line line 0
        { paragraphtext := st.paragraphtext, last_time := st.last_time,
          in_time_tag := false, time_tag_start := 0 }).2.in_time_tag = false := by
  unfold validateTextLine at h
  simp only [List.append_eq_nil] at h
  refine ⟨h.1.2, ?_⟩
  have h2 := h.2
  by_cases hin : (scanColumns linenumber line line 0
        { paragraphtext := st.paragraphtext, last_time := st.last_time,
          in_time_tag := false, time_tag_start := 0 }).2.in_time_tag = true
  · rw [if_pos hin] at h2
    exact absurd h2 (by simp)
  · simpa using hin

theorem validateLines_tags (ctx : Context) : ∀ (lines : List QString) (linenumber : Int)
    (st : DocState), validateLines ctx lines linenumber st = [] →
    (lines.map lineTags).flatten =
      (documentScannedTags lines linenumber).map (fun t => t.time) := by
  intro lines
  induction lines with
  | nil => intro n st _; rfl
  | cons line rest ih =>
    intro n st h
    simp only [validateLines, List.append_eq_nil] at h
    have hi := ih (n + 1) _ h.2
    by_cases hb : (trimmed line).isEmpty = true
    · simp only [List.map_cons, List.flatten_cons, lineTags_of_blank line hb, List.nil_append,
        documentScannedTags, hb, if_true, hi]
    · have hl := h.1
      simp only [validateLine, hb, Bool.false_eq_true, if_false] at hl
      obtain ⟨h1, h2⟩ := validateTextLine_nil ctx n line st hl
      have ht := scanColumns_tags n line line 0 _ rfl (by intro hh; simp at hh) h1 h2
      simp only [Bool.false_eq_true, if_false] at ht
      simp only [List.map_cons, List.flatten_cons, documentScannedTags, hb, Bool.false_eq_true,
        if_false, List.map_append, hi, ht, lineTags]

theorem scannedTags_wellFormed (linenumber : Int) (line : QString) : ∀ (rest : QString)
    (col : Nat) (b : Bool) (tts : Nat), ∀ t ∈ scannedTags linenumber line rest col b tts,
    (rxtime t.time).isSome = true := by
  intro rest
  induction rest with
  | nil => intro col b tts t ht; simp [scannedTags] at ht
  | cons ch rest ih =>
    intro col b tts t ht
    unfold scannedTags at ht
    by_cases hin : b = true
    · by_cases hc : ch = ']'
      · simp only [hin, hc, if_true, List.mem_append] at ht
        rcases ht with ht | ht
        · by_cases hcond : mid line tts (col - tts) ≠ PLACEHOLDER ∧
              (rxtime (mid line tts (col - tts))).isSome = true
          · rw [if_pos hcond, List.mem_singleton] at ht
            subst ht
            exact hcond.2
          · rw [if_neg hcond] at ht
            simp at ht
        · exact ih _ _ _ t ht
      · by_cases hd : (!isDigit ch && ch != ':' && ch != '.') = true
        · simp [hin, hc, hd] at ht
        · simp only [hin, hc, hd, if_true, if_false] at ht
          exact ih _ _ _ t ht
    · by_cases hc : ch = '['
      · simp only [hin, hc, if_true, if_false] at ht
        exact ih _ _ _ t ht
      · simp only [hin, hc, if_false] at ht
        exact ih _ _ _ t ht

theorem documentScannedTags_wellFormed : ∀ (lines : List QString) (linenumber : Int),
    ∀ t ∈ documentScannedTags lines linenumber, (rxtime t.time).isSome = true := by
  intro lines
  induction lines with
  | nil => intro n t ht; simp [documentScannedTags] at ht
  | cons line rest ih =>
    intro n t ht
    simp only [documentScannedTags, List.mem_append] at ht
    rcases ht with ht | ht
    · by_cases hb : (trimmed line).isEmpty = true
      · simp [hb] at ht
      · simp only [hb, Bool.false_eq_true, if_false] at ht
        exact scannedTags_wellFormed n line _ _ _ _ t ht
    · exact ih _ t ht

theorem chain_of_backwardErrors_nil : ∀ (tags : List ScannedTag) (last_time : Int),
    backwardErrors last_time tags = [] →
    List.Chain (· ≤ ·) last_time (tags.map fun t => infoToMark t.time) := by
  intro tags
  induction tags with
  | nil => intro lt _; exact List.Chain.nil
  | cons t ts ih =>
    intro lt h
    simp only [backwardErrors, List.append_eq_nil] at h
    have hle : lt ≤ infoToMark t.time := by
      by_cases hlt : infoToMark t.time < lt
      · rw [if_pos hlt] at h
        exact absurd h.1 (by simp)
      · omega
    exact List.Chain.cons hle (ih _ h.2)

/-! ## Soundness of validation -/

/-- C6: if `validate` returns an empty error list, every bracketed tag of the
document is a well-formed `digits:digits.digits` tag, and the decoded values of
the tags, in document order, are non-decreasing (and the first is at least
`0`). -/
theorem validate_sound (ctx : Context) (text : QString) (h : validate ctx text = []) :
    (∀ t ∈ documentTags text, (rxtime t).isSome = true) ∧
      List.Chain (· ≤ ·) 0 ((documentTags text).map infoToMark) ∧
      List.Chain' (· ≤ ·) ((documentTags text).map infoToMark) := by
  have htags : documentTags text =
      (documentScannedTags (split '\n' text) 1).map (fun t => t.time) :=
    validateLines_tags ctx _ 1 _ h
  have hback := (validateLines_spec ctx (split '\n' text) 1
    { linesinblock := 0, last_time := 0, paragraphtext := [] }).1
  have hv : validateLines ctx (split '\n' text) 1
      { linesinblock := 0, last_time := 0, paragraphtext := [] } = [] := h
  rw [hv] at hback
  have hchain := chain_of_backwardErrors_nil _ 0 hback.symm
  have hc : List.Chain (· ≤ ·) 0 ((documentTags text).map infoToMark) := by
    rw [htags, List.map_map]
    exact hchain
  refine ⟨?_, hc, ?_⟩
  · intro t ht
    rw [htags, List.mem_map] at ht
    obtain ⟨s, hs, rfl⟩ := ht
    exact documentScannedTags_wellFormed _ _ s hs
  · cases hl : (documentTags text).map infoToMark with
    | nil => exact List.chain'_nil
    | cons a l =>
      rw [hl] at hc
      exact (List.chain_cons.1 hc).2

/-- C6 at the document `[00:01.00]la[00:02.00]` / `[00:03.00]x`. -/
theorem validate_sound_witness :
    validate exampleContext validExample = [] ∧
      (∀ t ∈ documentTags validExample, (rxtime t).isSome = true) ∧
      List.Chain (· ≤ ·) 0 ((documentTags validExample).map infoToMark) ∧
      List.Chain' (· ≤ ·) ((documentTags validExample).map infoToMark) :=
  ⟨by decide, validate_sound exampleContext validExample (by decide)⟩

/-! ## Placeholders -/

theorem split_append_sep_parts (sep : Char) (a b : QString) :
    split sep (a ++ sep :: b) = split sep a ++ split sep b := by
  induction a with
  | nil => simp [split]
  | cons c cs ih =>
    rw [List.cons_append, split_cons_eq, split_cons_eq, ih]
    by_cases h : c = sep
    · simp [h]
    · have hs := split_ne_nil sep cs
      cases hsp : split sep cs with
      | nil => exact absurd hsp hs
      | cons l ls => simp [h]

theorem split_prefix (sep : Char) (u v : QString) (h : sep ∉ u) :
    ∃ q ps, split sep (u ++ v) = (u ++ q) :: ps := by
  induction u with
  | nil =>
    have hs := split_ne_nil sep v
    cases hsp : split sep v with
    | nil => exact absurd hsp hs
    | cons l ls => exact ⟨l, ls, by simpa using hsp⟩
  | cons c cs ih =>
    simp only [List.mem_cons, not_or] at h
    have hc : c ≠ sep := fun e => h.1 e.symm
    obtain ⟨q, ps, hq⟩ := ih h.2
    refine ⟨q, ps, ?_⟩
    rw [List.cons_append, split_cons_eq, hq]
    simp [hc]

theorem mem_split_of_infix (sep : Char) (p b : QString) (h : sep ∉ p) : ∀ a : QString,
    ∃ pre post, (pre ++ (p ++ post)) ∈ split sep (a ++ (p ++ b)) := by
  intro a
  induction a with
  | nil =>
    obtain ⟨q, ps, hq⟩ := split_prefix sep p b h
    exact ⟨[], q, by simp [hq]⟩
  | cons c cs ih =>
    obtain ⟨pre, post, hm⟩ := ih
    rw [List.cons_append, split_cons_eq]
    by_cases hc : c = sep
    · exact ⟨pre, post, by simp [hc, hm]⟩
    · have hs := split_ne_nil sep (cs ++ (p ++ b))
      cases hsp : split sep (cs ++ (p ++ b)) with
      | nil => exact absurd hsp hs
      | cons l ls =>
        rw [hsp] at hm
        rcases List.mem_cons.1 hm with hm | hm
        · exact ⟨c :: pre, post, by simp [hc, hm]⟩
        · exact ⟨pre, post, by simp [hc, hm]⟩

/-- A line that contains the placeholder has the bracketed tag `--:--`. -/
theorem lineTags_placeholder (pre post : QString) :
    ['-', '-', ':', '-', '-'] ∈ lineTags (pre ++ (PLACEHOLDER ++ post)) := by
  have e : pre ++ (PLACEHOLDER ++ post) =
      pre ++ '[' :: (['-', '-', ':', '-', '-', ']'] ++ post) := rfl
  obtain ⟨q, ps, hq⟩ := split_prefix '[' ['-', '-', ':', '-', '-', ']'] post (by decide)
  have hs := split_ne_nil '[' pre
  unfold lineTags
  rw [e, split_append_sep_parts, hq]
  cases hsp : split '[' pre with
  | nil => exact absurd hsp hs
  | cons l ls =>
    simp only [List.cons_append, List.tail_cons, List.map_append, List.map_cons, List.mem_append,
      List.mem_cons]
    right; left
    have := left_indexOf_append ['-', '-', ':', '-', '-'] q ']' (by decide)
    simpa using this.symm

theorem mem_flatten_map (f : QString → List QString) (lines : List QString) (line t : QString)
    (hl : line ∈ lines) (ht : t ∈ f line) : t ∈ (lines.map f).flatten := by
  simp only [List.mem_flatten, List.mem_map]
  exact ⟨f line, ⟨line, hl, rfl⟩, ht⟩

/-- A document that contains the placeholder has errors. -/
theorem validate_placeholder_ne_nil (ctx : Context) (a b : QString) :
    validate ctx (a ++ (PLACEHOLDER ++ b)) ≠ [] := by
  intro h
  obtain ⟨pre, post, hm⟩ := mem_split_of_infix '\n' PLACEHOLDER b (by decide) a
  have htag : ['-', '-', ':', '-', '-'] ∈ documentTags (a ++ (PLACEHOLDER ++ b)) :=
    mem_flatten_map lineTags _ _ _ hm (lineTags_placeholder pre post)
  have htags : documentTags (a ++ (PLACEHOLDER ++ b)) =
      (documentScannedTags (split '\n' (a ++ (PLACEHOLDER ++ b))) 1).map (fun t => t.time) :=
    validateLines_tags ctx _ 1 _ h
  rw [htags, List.mem_map] at htag
  obtain ⟨s, hs, hst⟩ := htag
  have hw := documentScannedTags_wellFormed _ _ s hs
  rw [hst] at hw
  revert hw
  decide

/-- C9: export is all-or-nothing. Whenever `validate` reports an error,
`exportLyrics` returns the empty model, with zero blocks; and every document
that contains the placeholder is such a document. -/
theorem exportLyrics_all_or_nothing (ctx : Context) (text : QString) :
    (validate ctx text ≠ [] → exportLyrics ctx text = [] ∧ (exportLyrics ctx text).length = 0) ∧
      (∀ a b : QString, text = a ++ (PLACEHOLDER ++ b) →
        validate ctx text ≠ [] ∧ exportLyrics ctx text = []) := by
  have key : validate ctx text ≠ [] → exportLyrics ctx text = [] := by
    intro h
    unfold exportLyrics validateOk
    have : (validate ctx text).isEmpty = false := by
      cases hv : validate ctx text with
      | nil => exact absurd hv h
      | cons e es => rfl
    simp [this]
  refine ⟨fun h => ⟨key h, by rw [key h]; rfl⟩, ?_⟩
  intro a b hab
  have hne : validate ctx text ≠ [] := by
    rw [hab]; exact validate_placeholder_ne_nil ctx a b
  exact ⟨hne, key hne⟩

/-- C9 at the document `[00:60.00]`, which has an error, and at the document
that is the placeholder alone. -/
theorem exportLyrics_all_or_nothing_witness :
    (validate exampleContext seconds60Example ≠ [] ∧
      exportLyrics exampleContext seconds60Example = [] ∧
      (exportLyrics exampleContext seconds60Example).length = 0) ∧
    (PLACEHOLDER = [] ++ (PLACEHOLDER ++ []) ∧ validate exampleContext PLACEHOLDER ≠ [] ∧
      exportLyrics exampleContext PLACEHOLDER = []) :=
  ⟨⟨by decide, (exportLyrics_all_or_nothing exampleContext seconds60Example).1 (by decide)⟩,
    by decide, (exportLyrics_all_or_nothing exampleContext PLACEHOLDER).2 [] [] (by decide)⟩

theorem checkTimeTag_no_placeholder (linenumber : Int) (tts : Nat) (time : QString)
    (last_time : Int) (h : time ≠ PLACEHOLDER) :
    (checkTimeTag linenumber tts time last_time).1.filter (fun e => e.error = .placeholder) =
      [] := by
  unfold checkTimeTag
  rw [if_neg h]
  cases hr : rxtime time with
  | none => simp
  | some c =>
    obtain ⟨c1, c2, c3⟩ := c
    by_cases h1 : toInt c2 ≥ 60 <;> by_cases h2 : infoToMark time < last_time <;> simp [h1, h2]

/-- The text between the brackets of a tag never is the placeholder: the
column loop leaves a tag at the first character that is not a digit, `':'` or
`'.'`, so the comparison of editor.cpp:398 cannot succeed. -/
theorem scanColumns_no_placeholder (linenumber : Int) (line : QString) : ∀ (rest : QString)
    (col : Nat) (st : TagState), line.drop col = rest →
    (st.in_time_tag = true → st.time_tag_start ≤ col ∧
      ∀ c ∈ mid line st.time_tag_start (col - st.time_tag_start), c ≠ ']' ∧ c ≠ '[') →
    (scanColumns linenumber line rest col st).1.filter (fun e => e.error = .placeholder) = [] := by
  intro rest
  induction rest with
  | nil => intro col st _ _; rfl
  | cons ch rest ih =>
    intro col st hdrop hinv
    have hdrop' := drop_succ_of_drop line rest ch col hdrop
    by_cases hin : st.in_time_tag = true
    · obtain ⟨hle, hacc⟩ := hinv hin
      by_cases hc : ch = ']'
      · have hne : mid line st.time_tag_start (col - st.time_tag_start) ≠ PLACEHOLDER := by
          intro he
          have hm : '[' ∈ mid line st.time_tag_start (col - st.time_tag_start) := by
            rw [he]; decide
          exact (hacc _ hm).2 rfl
        have hi := ih (col + 1)
          { st with
            last_time := (checkTimeTag linenumber st.time_tag_start
              (mid line st.time_tag_start (col - st.time_tag_start)) st.last_time).2,
            in_time_tag := false } hdrop' (by intro h; simp at h)
        simp only [scanColumns, hin, hc, if_true, List.filter_append,
          checkTimeTag_no_placeholder _ _ _ _ hne, List.nil_append]
        exact hi
      · by_cases hd : (!isDigit ch && ch != ':' && ch != '.') = true
        · simp [scanColumns, hin, hc, hd]
        · have hd' : (!isDigit ch && ch != ':' && ch != '.') = false := by
            cases hv : (!isDigit ch && ch != ':' && ch != '.')
            · rfl
            · exact absurd hv hd
          have hne := tagChar_ne ch hd
          have hmid := mid_succ line rest ch st.time_tag_start col hdrop hle
          have hi := ih (col + 1) st hdrop'
            (by
              intro _
              refine ⟨by omega, ?_⟩
              rw [hmid]
              intro c hcm
              rcases List.mem_append.1 hcm with h | h
              · exact hacc c h
              · rw [List.mem_singleton] at h; subst h; exact hne)
          simp only [scanColumns, hin, hc, hd', if_true, if_false, Bool.false_eq_true]
          exact hi
    · have hin2 : st.in_time_tag = false := by simpa using hin
      by_cases hc : ch = '['
      · have hi := ih (col + 1) { st with in_time_tag := true, time_tag_start := col + 1 } hdrop'
          (by
            intro _
            refine ⟨le_refl _, ?_⟩
            simp [mid])
        simp only [scanColumns, hin2, hc, if_true, Bool.false_eq_true, if_false]
        exact hi
      · by_cases hc2 : ch = ']'
        · have hi := ih (col + 1) st hdrop' (by intro h; exact absurd h hin)
          subst hc2
          simp only [scanColumns, hin2, Bool.false_eq_true, if_false, if_true,
            show (']' : Char) ≠ '[' by decide]
          rw [List.filter_cons_of_neg (by simp)]
          exact hi
        · have hi := ih (col + 1)
            { paragraphtext := st.paragraphtext ++ [ch], last_time := st.last_time,
              in_time_tag := false, time_tag_start := st.time_tag_start } hdrop'
            (by intro h; simp at h)
          simp only [scanColumns, hin2, hc, hc2, Bool.false_eq_true, if_false]
          exact hi

theorem validateLines_no_placeholder (ctx : Context) : ∀ (lines : List QString)
    (linenumber : Int) (st : DocState),
    (validateLines ctx lines linenumber st).filter (fun e => e.error = .placeholder) = [] := by
  intro lines
  induction lines with
  | nil => intro n st; rfl
  | cons line rest ih =>
    intro n st
    simp only [validateLines, List.filter_append, ih, List.append_nil]
    unfold validateLine
    by_cases hb : (trimmed line).isEmpty = true
    · rw [if_pos hb]
      exact validateEmptyLine_filter ctx n st (fun k => k = .placeholder)
        (by simp) (by simp) (by simp)
    · rw [if_neg hb]
      have f := validateTextLine_filter ctx n line st (fun k => k = .placeholder)
        (by simp) (by simp) (by simp) (by simp)
      simp only at f
      rw [f]
      exact scanColumns_no_placeholder n line line 0 _ rfl (by intro h; simp at h)

/-- C8 fails on the code: `validate` never reports the placeholder error,
whatever the document. For the document that is the placeholder alone it
reports an invalid character at column 1, the first `'-'`. -/
theorem validate_never_placeholder (ctx : Context) (text : QString) :
    (validate ctx text).filter (fun e => e.error = .placeholder) = [] ∧
      validate exampleContext PLACEHOLDER = [⟨1, 1, .invalidChar⟩] :=
  ⟨validateLines_no_placeholder ctx _ 1 _, by decide⟩

/-! ## Lemmas: lines and kinds of the errors -/

theorem checkTimeTag_mem (linenumber : Int) (tts : Nat) (time : QString) (last_time : Int) :
    ∀ e ∈ (checkTimeTag linenumber tts time last_time).1,
      e.line = linenumber ∧ isColumnError e.error = true := by
  intro e he
  unfold checkTimeTag at he
  by_cases hP : time = PLACEHOLDER
  · rw [if_pos hP, List.mem_singleton] at he
    subst he; exact ⟨rfl, rfl⟩
  · rw [if_neg hP] at he
    cases hr : rxtime time with
    | none =>
      rw [hr] at he
      simp only [List.mem_singleton] at he
      subst he; exact ⟨rfl, rfl⟩
    | some c =>
      obtain ⟨c1, c2, c3⟩ := c
      rw [hr] at he
      simp only [List.mem_append] at he
      rcases he with he | he
      · by_cases h1 : toInt c2 ≥ 60
        · rw [if_pos h1, List.mem_singleton] at he
          subst he; exact ⟨rfl, rfl⟩
        · rw [if_neg h1] at he; simp at he
      · by_cases h2 : infoToMark time < last_time
        · rw [if_pos h2, List.mem_singleton] at he
          subst he; exact ⟨rfl, rfl⟩
        · rw [if_neg h2] at he; simp at he

theorem scanColumns_mem (linenumber : Int) (line : QString) : ∀ (rest : QString) (col : Nat)
    (st : TagState), ∀ e ∈ (scanColumns linenumber line rest col st).1,
      e.line = linenumber ∧ isColumnError e.error = true := by
  intro rest
  induction rest with
  | nil => intro col st e he; simp [scanColumns] at he
  | cons ch rest ih =>
    intro col st e he
    unfold scanColumns at he
    by_cases hin : st.in_time_tag = true
    · by_cases hc : ch = ']'
      · simp only [hin, hc, if_true, List.mem_append] at he
        rcases he with he | he
        · exact checkTimeTag_mem _ _ _ _ e he
        · exact ih _ _ e he
      · by_cases hd : (!isDigit ch && ch != ':' && ch != '.') = true
        · simp only [hin, hc, hd, if_true, if_false, List.mem_singleton] at he
          subst he; exact ⟨rfl, rfl⟩
        · simp only [hin, hc, hd, if_true, if_false] at he
          exact ih _ _ e he
    · by_cases hc : ch = '['
      · simp only [hin, hc, if_true, if_false] at he
        exact ih _ _ e he
      · by_cases hc2 : ch = ']'
        · subst hc2
          simp only [hin, if_false, if_true, show (']' : Char) ≠ '[' by decide] at he
          rcases List.mem_cons.1 he with he | he
          · rw [he]; exact ⟨rfl, rfl⟩
          · exact ih _ _ e he
        · simp only [hin, hc, hc2, if_false] at he
          exact ih _ _ e he

/-- The errors of a line that is not empty are on that line, and are neither the
empty-line nor the double-empty-line error; with blocks disabled none is the
block-size error. -/
theorem validateTextLine_mem (ctx : Context) (linenumber : Int) (line : QString)
    (st : DocState) : ∀ e ∈ (validateTextLine ctx linenumber line st).1,
      e.line = linenumber ∧ e.error ≠ .emptyLine ∧ e.error ≠ .doubleEmptyLine ∧
        (ctx.settings.m_editorSupportBlocks = false → ∀ m, e.error ≠ .blockSize m) := by
  intro e he
  unfold validateTextLine at he
  simp only [List.mem_append] at he
  have one : ∀ (c : Prop) [Decidable c] (x : ValidatorError),
      e ∈ (if c then [x] else []) → e = x := by
    intro c _ x hx
    by_cases hc : c
    · rw [if_pos hc, List.mem_singleton] at hx; exact hx
    · rw [if_neg hc] at hx; simp at hx
  rcases he with (((he | he) | he) | he) | he
  · by_cases hb : ctx.settings.m_editorSupportBlocks = true
    · have := one _ _ he
      subst this
      exact ⟨rfl, by simp, by simp, fun h => by simp [hb] at h⟩
    · have hb' : ctx.settings.m_editorSupportBlocks = false := by simpa using hb
      simp [hb'] at he
  · have := one _ _ he
    subst this
    exact ⟨rfl, by simp, by simp, fun _ m => by simp⟩
  · have := one _ _ he
    subst this
    exact ⟨rfl, by simp, by simp, fun _ m => by simp⟩
  · obtain ⟨h1, h2⟩ := scanColumns_mem _ _ _ _ _ e he
    refine ⟨h1, ?_, ?_, fun _ m => ?_⟩ <;>
      (intro hk; rw [hk] at h2; simp [isColumnError] at h2)
  · have := one _ _ he
    subst this
    exact ⟨rfl, by simp, by simp, fun _ m => by simp⟩

/-! ## Blocks disabled -/

theorem validateEmptyLine_noBlocks (ctx : Context) (linenumber : Int) (st : DocState)
    (hb : ctx.settings.m_editorSupportBlocks = false) :
    (validateEmptyLine ctx linenumber st).1 = [⟨linenumber, 0, .emptyLine⟩] := by
  simp [validateEmptyLine, hb]

theorem blankLines_ge : ∀ (lines : List QString) (linenumber : Int),
    ∀ k ∈ blankLines lines linenumber, linenumber ≤ k := by
  intro lines
  induction lines with
  | nil => intro n k hk; simp [blankLines] at hk
  | cons line rest ih =>
    intro n k hk
    simp only [blankLines, List.mem_append] at hk
    rcases hk with hk | hk
    · by_cases hb : (trimmed line).isEmpty = true
      · rw [if_pos hb, List.mem_singleton] at hk; omega
      · rw [if_neg hb] at hk; simp at hk
    · have := ih _ k hk; omega

theorem validateLine_noBlocks_mem (ctx : Context) (linenumber : Int) (line : QString)
    (st : DocState) (hb : ctx.settings.m_editorSupportBlocks = false) :
    ∀ e ∈ (validateLine ctx linenumber line st).1, e.line = linenumber ∧
      e.error ≠ .doubleEmptyLine ∧
      (e.error = .emptyLine ↔ (trimmed line).isEmpty = true) := by
  intro e he
  unfold validateLine at he
  by_cases hl : (trimmed line).isEmpty = true
  · rw [if_pos hl, validateEmptyLine_noBlocks ctx linenumber st hb, List.mem_singleton] at he
    subst he
    exact ⟨rfl, by simp, by simp [hl]⟩
  · rw [if_neg hl] at he
    obtain ⟨h1, h2, h3, _⟩ := validateTextLine_mem ctx linenumber line st e he
    exact ⟨h1, h3, by simp [h2, hl]⟩

theorem validateLines_noBlocks_ge (ctx : Context)
    (hb : ctx.settings.m_editorSupportBlocks = false) : ∀ (lines : List QString)
    (linenumber : Int) (st : DocState), ∀ e ∈ validateLines ctx lines linenumber st,
      linenumber ≤ e.line ∧ e.error ≠ .doubleEmptyLine := by
  intro lines
  induction lines with
  | nil => intro n st e he; simp [validateLines] at he
  | cons line rest ih =>
    intro n st e he
    simp only [validateLines, List.mem_append] at he
    rcases he with he | he
    · obtain ⟨h1, h2, _⟩ := validateLine_noBlocks_mem ctx n line st hb e he
      exact ⟨by omega, h2⟩
    · obtain ⟨h1, h2⟩ := ih _ _ e he
      exact ⟨by omega, h2⟩

theorem validateLines_noBlocks (ctx : Context)
    (hb : ctx.settings.m_editorSupportBlocks = false) : ∀ (lines : List QString)
    (linenumber : Int) (st : DocState),
    (∀ k ∈ blankLines lines linenumber,
      (validateLines ctx lines linenumber st).filter (fun e => e.line = k) =
        [⟨k, 0, .emptyLine⟩]) ∧
    (validateLines ctx lines linenumber st).filter (fun e => e.error = .emptyLine) =
      (blankLines lines linenumber).map (fun k => ⟨k, 0, .emptyLine⟩) := by
  intro lines
  induction lines with
  | nil => intro n st; simp [validateLines, blankLines]
  | cons line rest ih =>
    intro n st
    obtain ⟨ih1, ih2⟩ := ih (n + 1) (validateLine ctx n line st).2
    have hrest : (validateLines ctx rest (n + 1) (validateLine ctx n line st).2).filter
        (fun e => e.line = n) = [] := by
      rw [List.filter_eq_nil_iff]
      intro e he
      have := (validateLines_noBlocks_ge ctx hb rest (n + 1) _ e he).1
      simp only [decide_eq_true_eq]
      omega
    have hmem := validateLine_noBlocks_mem ctx n line st hb
    by_cases hl : (trimmed line).isEmpty = true
    · have hhead : (validateLine ctx n line st).1 = [⟨n, 0, .emptyLine⟩] := by
        unfold validateLine
        rw [if_pos hl, validateEmptyLine_noBlocks ctx n st hb]
      constructor
      · intro k hk
        simp only [blankLines, hl, if_true, List.singleton_append, List.mem_cons] at hk
        simp only [validateLines, List.filter_append, hhead]
        rcases hk with hk | hk
        · subst hk
          rw [hrest]
          simp
        · have hge := blankLines_ge rest (n + 1) k hk
          rw [ih1 k hk]
          have : n ≠ k := by omega
          simp [this]
      · simp only [validateLines, List.filter_append, hhead, blankLines, hl, if_true,
          List.singleton_append, List.map_cons]
        rw [List.filter_cons_of_pos (by simp), ih2]
    · have hhead1 : ∀ k, n + 1 ≤ k →
          (validateLine ctx n line st).1.filter (fun e => e.line = k) = [] := by
        intro k hk
        rw [List.filter_eq_nil_iff]
        intro e he
        have := (hmem e he).1
        simp only [decide_eq_true_eq]
        omega
      have hhead2 : (validateLine ctx n line st).1.filter (fun e => e.error = .emptyLine) = [] := by
        rw [List.filter_eq_nil_iff]
        intro e he
        have := (hmem e he).2.2
        simp only [decide_eq_true_eq]
        intro hk
        exact hl (this.1 hk)
      constructor
      · intro k hk
        simp only [blankLines, hl, Bool.false_eq_true, if_false, List.nil_append] at hk
        have hge := blankLines_ge rest (n + 1) k hk
        simp only [validateLines, List.filter_append, hhead1 k hge, List.nil_append]
        exact ih1 k hk
      · simp only [validateLines, List.filter_append, hhead2, List.nil_append, blankLines, hl,
          Bool.false_eq_true, if_false, ih2]

/-- C10: with blocks disabled, `validate` reports for each empty line exactly one
error, the empty-line error at that line and column 0; it reports no
double-empty-line error; the empty-line errors are those of the empty lines, in
order; so a document whose other lines are valid has as many errors as empty
lines. -/
theorem validate_noBlocks (ctx : Context) (text : QString)
    (hb : ctx.settings.m_editorSupportBlocks = false) :
    (∀ k ∈ blankLines (split '\n' text) 1,
      (validate ctx text).filter (fun e => e.line = k) = [⟨k, 0, .emptyLine⟩]) ∧
    (validate ctx text).filter (fun e => e.error = .doubleEmptyLine) = [] ∧
    (validate ctx text).filter (fun e => e.error = .emptyLine) =
      (blankLines (split '\n' text) 1).map (fun k => ⟨k, 0, .emptyLine⟩) ∧
    ((∀ e ∈ validate ctx text, e.error = .emptyLine) →
      (validate ctx text).length = (blankLines (split '\n' text) 1).length) := by
  obtain ⟨h1, h2⟩ := validateLines_noBlocks ctx hb (split '\n' text) 1
    { linesinblock := 0, last_time := 0, paragraphtext := [] }
  refine ⟨h1, ?_, h2, ?_⟩
  · rw [List.filter_eq_nil_iff]
    intro e he
    have := (validateLines_noBlocks_ge ctx hb _ _ _ e he).2
    simpa using this
  · intro hall
    have hself : (validate ctx text).filter (fun e => e.error = .emptyLine) = validate ctx text := by
      rw [List.filter_eq_self]
      intro e he
      simpa using hall e he
    have h2' : (validate ctx text).filter (fun e => e.error = .emptyLine) =
        (blankLines (split '\n' text) 1).map (fun k => ⟨k, 0, .emptyLine⟩) := h2
    rw [hself] at h2'
    rw [h2', List.length_map]

/-- C10 at the two-paragraph document `[00:01.00]a` / empty line /
`[00:02.00]b`, whose only empty line is line 2. -/
theorem validate_noBlocks_witness :
    noBlocksContext.settings.m_editorSupportBlocks = false ∧
    (2 : Int) ∈ blankLines (split '\n' twoParagraphExample) 1 ∧
    (validate noBlocksContext twoParagraphExample).filter (fun e => e.line = 2) =
      [⟨2, 0, .emptyLine⟩] ∧
    (∀ e ∈ validate noBlocksContext twoParagraphExample, e.error = .emptyLine) ∧
    (validate noBlocksContext twoParagraphExample).length =
      (blankLines (split '\n' twoParagraphExample) 1).length :=
  ⟨rfl, by decide,
    (validate_noBlocks noBlocksContext twoParagraphExample rfl).1 2 (by decide),
    by decide,
    (validate_noBlocks noBlocksContext twoParagraphExample rfl).2.2.2 (by decide)⟩

/-! ## Model round trip -/

theorem split_snoc_sep (sep : Char) (u : QString) :
    split sep (u ++ [sep]) = split sep u ++ [[]] := by
  have := split_append_sep_parts sep u []
  simpa [split] using this

theorem importLine_ends (line : Line) : ∃ t, importLine line = t ++ ['\n'] := by
  induction line with
  | nil => exact ⟨[], rfl⟩
  | cons s rest ih =>
    obtain ⟨t, ht⟩ := ih
    exact ⟨importSyllable s ++ t, by simp [importLine, ht]⟩

theorem importBlock_ends (block : Block) :
    ∃ t, importBlock block = t ++ ['\n'] ∧ (t = [] ∨ ∃ u, t = u ++ ['\n']) := by
  induction block with
  | nil => exact ⟨[], rfl, Or.inl rfl⟩
  | cons l rest ih =>
    obtain ⟨t, ht, hcase⟩ := ih
    obtain ⟨v, hv⟩ := importLine_ends l
    refine ⟨importLine l ++ t, by simp [importBlock, ht], Or.inr ?_⟩
    rcases hcase with h | ⟨u, hu⟩
    · exact ⟨v, by simp [h, hv]⟩
    · exact ⟨importLine l ++ u, by simp [hu]⟩

/-- The text of a model with at least one block ends with two line breaks, or
is one line break. -/
theorem importLyrics_ends (lyrics : Lyrics) (h : lyrics ≠ []) :
    ∃ t, importLyrics lyrics = t ++ ['\n'] ∧ (t = [] ∨ ∃ u, t = u ++ ['\n']) := by
  induction lyrics with
  | nil => exact absurd rfl h
  | cons b rest ih =>
    obtain ⟨t, ht, hcase⟩ := importBlock_ends b
    cases rest with
    | nil => exact ⟨t, by simp [importLyrics, ht], hcase⟩
    | cons b2 rest2 =>
      obtain ⟨t2, ht2, hcase2⟩ := ih (by simp)
      refine ⟨importBlock b ++ t2, ?_, Or.inr ?_⟩
      · simp only [importLyrics] at ht2 ⊢
        rw [ht2]; simp
      · rcases hcase2 with h2 | ⟨u2, hu2⟩
        · exact ⟨t, by simp [h2, ht]⟩
        · exact ⟨importBlock b ++ u2, by simp [hu2]⟩

theorem validateLines_append_ne_nil (ctx : Context) (b : List QString)
    (hb : ∀ n st, validateLines ctx b n st ≠ []) : ∀ (a : List QString) (n : Int) (st : DocState),
    validateLines ctx (a ++ b) n st ≠ [] := by
  intro a
  induction a with
  | nil => intro n st; exact hb n st
  | cons l rest ih =>
    intro n st h
    simp only [List.cons_append, validateLines, List.append_eq_nil] at h
    exact ih _ _ h.2

theorem validateEmptyLine_of_empty_paragraph (ctx : Context) (n : Int) (st : DocState)
    (h : st.paragraphtext = []) : (validateEmptyLine ctx n st).1 ≠ [] := by
  unfold validateEmptyLine
  by_cases hb : ctx.settings.m_editorSupportBlocks = true
  · simp [hb, h]
  · simp [hb]

/-- Two empty lines one after the other always give an error. -/
theorem validateLines_two_empty (ctx : Context) (n : Int) (st : DocState) :
    validateLines ctx [[], []] n st ≠ [] := by
  intro h
  have e : (trimmed ([] : QString)).isEmpty = true := rfl
  simp only [validateLines, validateLine, e, if_true, List.append_nil, List.append_eq_nil] at h
  exact validateEmptyLine_of_empty_paragraph ctx (n + 1) (validateEmptyLine ctx n st).2
    (by rw [validateEmptyLine_state]) h.2

theorem validate_importLyrics_ne_nil (ctx : Context) (lyrics : Lyrics) (h : lyrics ≠ []) :
    validate ctx (importLyrics lyrics) ≠ [] := by
  obtain ⟨t, ht, hcase⟩ := importLyrics_ends lyrics h
  unfold validate
  rw [ht, split_snoc_sep]
  rcases hcase with h0 | ⟨u, hu⟩
  · rw [h0]
    exact validateLines_two_empty ctx 1 _
  · rw [hu, split_snoc_sep, List.append_assoc]
    exact validateLines_append_ne_nil ctx [[], []] (validateLines_two_empty ctx) _ _ _

/-- C2 fails on the code: for every model with at least one block, the text
made by `importLyrics` does not validate, so `exportLyrics` returns the empty
model and not the original one. Besides, `importLyrics` does not write the text
of a syllable: two syllables with the same timing give the same text. -/
theorem exportLyrics_importLyrics (ctx : Context) (lyrics : Lyrics) (h : lyrics ≠ []) :
    validate ctx (importLyrics lyrics) ≠ [] ∧
      exportLyrics ctx (importLyrics lyrics) = [] ∧
      exportLyrics ctx (importLyrics lyrics) ≠ lyrics ∧
      (∀ (timing : Int) (x y : QString),
        importSyllable { timing := timing, text := x } =
          importSyllable { timing := timing, text := y }) := by
  have hv := validate_importLyrics_ne_nil ctx lyrics h
  have he : exportLyrics ctx (importLyrics lyrics) = [] := by
    unfold exportLyrics validateOk
    have : (validate ctx (importLyrics lyrics)).isEmpty = false := by
      cases hx : validate ctx (importLyrics lyrics) with
      | nil => exact absurd hx hv
      | cons e es => rfl
    simp [this]
  exact ⟨hv, he, by rw [he]; exact fun e => h e.symm, fun _ _ _ => rfl⟩

/-- C2 at the model of one syllable `la` at 1000 ms: the text is
`[00:01.00]` followed by the character 232 and two line breaks, and the export
is empty. -/
theorem exportLyrics_importLyrics_witness :
    oneSyllableExample ≠ [] ∧
    importLyrics oneSyllableExample =
      ['[', '0', '0', ':', '0', '1', '.', '0', '0', ']', Char.ofNat 232, '\n', '\n'] ∧
    validate exampleContext (importLyrics oneSyllableExample) ≠ [] ∧
      exportLyrics exampleContext (importLyrics oneSyllableExample) = [] ∧
      exportLyrics exampleContext (importLyrics oneSyllableExample) ≠ oneSyllableExample ∧
      (∀ (timing : Int) (x y : QString),
        importSyllable { timing := timing, text := x } =
          importSyllable { timing := timing, text := y }) :=
  ⟨by decide, by decide, exportLyrics_importLyrics exampleContext oneSyllableExample (by decide)⟩

/-! ## Lemmas: the line loop -/

theorem validateLines_append (ctx : Context) : ∀ (a b : List QString) (n : Int) (st : DocState),
    validateLines ctx (a ++ b) n st =
      validateLines ctx a n st ++
        validateLines ctx b (n + a.length) (validateState ctx a n st) := by
  intro a
  induction a with
  | nil => intro b n st; simp [validateLines, validateState]
  | cons l rest ih =>
    intro b n st
    have e : n + ((rest.length + 1 : Nat) : Int) = n + 1 + (rest.length : Int) := by
      push_cast; omega
    rw [List.cons_append]
    simp only [validateLines, validateState, List.length_cons]
    rw [ih, e, List.append_assoc]

/-- An error of the branch of an empty line is on that line, or comes from the
paragraph hook, in which case the type is CDG. -/
theorem validateEmptyLine_mem (ctx : Context) (n : Int) (st : DocState) :
    ∀ e ∈ (validateEmptyLine ctx n st).1,
      (e.line = n ∧ (e.error = .emptyLine ∨ e.error = .doubleEmptyLine)) ∨
        (ctx.type = LyricType.CDG ∧ ∃ m, e.error = .paragraph m) := by
  intro e he
  unfold validateEmptyLine at he
  by_cases hb : ctx.settings.m_editorSupportBlocks = true
  · by_cases hp : st.paragraphtext.isEmpty = true
    · simp only [hb, hp, Bool.not_true, Bool.false_eq_true, if_false, if_true,
        List.mem_singleton] at he
      subst he
      exact Or.inl ⟨rfl, Or.inr rfl⟩
    · by_cases ht : ctx.type = LyricType.CDG
      · simp only [hb, hp, ht, Bool.not_true, Bool.false_eq_true, if_false, if_true,
          List.mem_map] at he
        obtain ⟨x, _, rfl⟩ := he
        exact Or.inr ⟨ht, x.message, rfl⟩
      · simp [hb, hp, ht] at he
  · have hb' : ctx.settings.m_editorSupportBlocks = false := by simpa using hb
    simp only [hb', Bool.not_false, if_true, List.mem_singleton] at he
    subst he
    exact Or.inl ⟨rfl, Or.inl rfl⟩

/-- An error of one iteration of the line loop is on the line of the iteration,
unless it comes from the paragraph hook. -/
theorem validateLine_mem (ctx : Context) (n : Int) (line : QString) (st : DocState) :
    ∀ e ∈ (validateLine ctx n line st).1,
      e.line = n ∨ (ctx.type = LyricType.CDG ∧ ∃ m, e.error = .paragraph m) := by
  intro e he
  unfold validateLine at he
  by_cases hl : (trimmed line).isEmpty = true
  · rw [if_pos hl] at he
    rcases validateEmptyLine_mem ctx n st e he with h | h
    · exact Or.inl h.1
    · exact Or.inr h
  · rw [if_neg hl] at he
    exact Or.inl (validateTextLine_mem ctx n line st e he).1

theorem validateLines_mem (ctx : Context) : ∀ (lines : List QString) (n : Int) (st : DocState),
    ∀ e ∈ validateLines ctx lines n st,
      (n ≤ e.line ∧ e.line < n + lines.length) ∨
        (ctx.type = LyricType.CDG ∧ ∃ m, e.error = .paragraph m) := by
  intro lines
  induction lines with
  | nil => intro n st e he; simp [validateLines] at he
  | cons l rest ih =>
    intro n st e he
    simp only [validateLines, List.mem_append] at he
    rcases he with he | he
    · rcases validateLine_mem ctx n l st e he with h | h
      · left; simp only [List.length_cons]; push_cast; omega
      · exact Or.inr h
    · rcases ih _ _ e he with h | h
      · left; simp only [List.length_cons]; push_cast; omega
      · exact Or.inr h

/-! ## The order of the errors -/

theorem validateLines_pairwise (ctx : Context) (ht : ctx.type ≠ LyricType.CDG) :
    ∀ (lines : List QString) (n : Int) (st : DocState),
    List.Pairwise (fun a b : ValidatorError => a.line ≤ b.line) (validateLines ctx lines n st) := by
  intro lines
  induction lines with
  | nil => intro n st; simp [validateLines]
  | cons l rest ih =>
    intro n st
    simp only [validateLines]
    rw [List.pairwise_append]
    refine ⟨?_, ih _ _, ?_⟩
    · rw [List.pairwise_iff_forall_sublist]
      intro a b hab
      have ha := hab.subset (List.mem_cons_self _ _)
      have hb := hab.subset (List.mem_cons_of_mem _ (List.mem_singleton_self _))
      rcases validateLine_mem ctx n l st a ha with h1 | h1
      · rcases validateLine_mem ctx n l st b hb with h2 | h2
        · omega
        · exact absurd h2.1 ht
      · exact absurd h1.1 ht
    · intro a ha b hb
      rcases validateLine_mem ctx n l st a ha with h1 | h1
      · rcases validateLines_mem ctx rest (n + 1) _ b hb with h2 | h2
        · omega
        · exact absurd h2.1 ht
      · exact absurd h1.1 ht

/-! ## The closing-tag rule -/

theorem scanColumns_filter_other (linenumber : Int) (line rest : QString) (col : Nat)
    (st : TagState) (p : ErrorKind → Bool) (hp : ∀ k, isColumnError k = true → p k = false) :
    (scanColumns linenumber line rest col st).1.filter (fun e => p e.error) = [] := by
  rw [List.filter_eq_nil_iff]
  intro e he
  have := (scanColumns_mem linenumber line rest col st e he).2
  simp [hp _ this]

theorem validateTextLine_filter_closing (ctx : Context) (n : Int) (line : QString)
    (st : DocState) :
    (validateTextLine ctx n line st).1.filter (fun e => e.error = .missingClosing) =
      if ctx.type ≠ LyricType.LRC1 ∧ ¬ endsWith (trimmed line) ']'
        then [⟨n, 0, .missingClosing⟩] else [] := by
  unfold validateTextLine
  simp only [List.filter_append]
  have a1 : ∀ (c : Prop) [Decidable c] (e : ValidatorError), e.error ≠ .missingClosing →
      (if c then [e] else []).filter (fun e => e.error = .missingClosing) = [] := by
    intro c _ e he
    by_cases hc : c <;> simp [hc, he]
  rw [a1 _ ⟨n, 0, .blockSize ctx.settings.m_editorMaxBlock⟩ (by simp),
    a1 _ ⟨n, 0, .missingOpening⟩ (by simp),
    a1 _ ⟨n, (line.length : Int) - 1, .notClosed⟩ (by simp),
    scanColumns_filter_other _ _ _ _ _ (fun k => k = .missingClosing)
      (by intro k hk; cases k <;> simp [isColumnError] at hk ⊢)]
  by_cases h1 : ctx.type = LyricType.LRC1
  · simp [h1]
  · by_cases h2 : endsWith (trimmed line) ']' = true
    · simp [h1, h2]
    · simp [h1, h2]

theorem validateLines_filter_closing (ctx : Context) : ∀ (lines : List QString) (n : Int)
    (st : DocState),
    (validateLines ctx lines n st).filter (fun e => e.error = .missingClosing) =
      missingClosingErrors ctx.type lines n := by
  intro lines
  induction lines with
  | nil => intro n st; rfl
  | cons l rest ih =>
    intro n st
    simp only [validateLines, missingClosingErrors, List.filter_append, ih]
    congr 1
    unfold validateLine
    by_cases hl : (trimmed l).isEmpty = true
    · rw [if_pos hl]
      have := validateEmptyLine_filter ctx n st (fun k => k = .missingClosing)
        (by simp) (by simp) (by simp)
      simp only at this
      rw [this]
      simp [hl]
    · rw [if_neg hl, validateTextLine_filter_closing]
      simp [hl]

/-- C15: the missing-closing-tag errors of `validate` are exactly those of the
closing-tag rule: one error, at column 0, for each line that is not empty when
the profile is not LRC1 and the trimmed line does not end with `']'`; under
LRC1 the error is never reported. -/
theorem validate_missingClosing (ctx : Context) (text : QString) :
    (validate ctx text).filter (fun e => e.error = .missingClosing) =
        missingClosingErrors ctx.type (split '\n' text) 1 ∧
      (ctx.type = LyricType.LRC1 →
        (validate ctx text).filter (fun e => e.error = .missingClosing) = []) := by
  have h := validateLines_filter_closing ctx (split '\n' text) 1
    { linesinblock := 0, last_time := 0, paragraphtext := [] }
  refine ⟨h, ?_⟩
  intro ht
  have h' : (validate ctx text).filter (fun e => e.error = .missingClosing) =
      missingClosingErrors ctx.type (split '\n' text) 1 := h
  rw [h', ht]
  generalize split '\n' text = lines
  generalize (1 : Int) = n
  induction lines generalizing n with
  | nil => rfl
  | cons l rest ih => simp [missingClosingErrors, ih]

/-- C15 at the three-line document under LRC1. -/
theorem validate_missingClosing_witness :
    exampleContext.type = LyricType.LRC1 ∧
    (validate exampleContext threeLineExample).filter (fun e => e.error = .missingClosing) =
      [] :=
  ⟨rfl, (validate_missingClosing exampleContext threeLineExample).2 rfl⟩

/-! ## The block size limit -/

theorem validateTextLine_filter_blockSize (ctx : Context) (n : Int) (line : QString)
    (st : DocState) :
    (validateTextLine ctx n line st).1.filter (fun e => isBlockSize e.error) =
      if ctx.settings.m_editorSupportBlocks = true ∧
          st.linesinblock + 1 > ctx.settings.m_editorMaxBlock
        then [⟨n, 0, .blockSize ctx.settings.m_editorMaxBlock⟩] else [] := by
  unfold validateTextLine
  simp only [List.filter_append]
  have a1 : ∀ (c : Prop) [Decidable c] (e : ValidatorError), isBlockSize e.error = false →
      (if c then [e] else []).filter (fun e => isBlockSize e.error) = [] := by
    intro c _ e he
    by_cases hc : c <;> simp [hc, he]
  rw [a1 _ ⟨n, 0, .missingOpening⟩ rfl, a1 _ ⟨n, 0, .missingClosing⟩ rfl,
    a1 _ ⟨n, (line.length : Int) - 1, .notClosed⟩ rfl,
    scanColumns_filter_other _ _ _ _ _ isBlockSize
      (by intro k hk; cases k <;> simp [isColumnError, isBlockSize] at hk ⊢)]
  by_cases h1 : ctx.settings.m_editorSupportBlocks = true
  · by_cases h2 : st.linesinblock + 1 > ctx.settings.m_editorMaxBlock
    · simp [h1, h2, isBlockSize]
    · simp [h1, h2]
  · simp [h1]

theorem validateTextLine_linesinblock (ctx : Context) (n : Int) (line : QString)
    (st : DocState) : (validateTextLine ctx n line st).2.linesinblock = st.linesinblock + 1 :=
  rfl

/-- The block-size errors of a run of lines that are not empty: the lines whose
position in the block, counted from the `c0` lines before the run, is beyond
the limit. -/
theorem validateLines_block (ctx : Context) (hb : ctx.settings.m_editorSupportBlocks = true)
    (base c0 : Int) : ∀ (block : List QString) (k : Nat) (st : DocState),
    (∀ l ∈ block, (trimmed l).isEmpty = false) → st.linesinblock = c0 + k →
    (validateLines ctx block (base + k) st).filter (fun e => isBlockSize e.error) =
      ((List.range' k block.length).filter
          (fun i : Nat => decide (ctx.settings.m_editorMaxBlock < c0 + (i : Int) + 1))).map
        (fun i : Nat => ⟨base + (i : Int), 0, .blockSize ctx.settings.m_editorMaxBlock⟩) := by
  intro block
  induction block with
  | nil => intro k st _ _; rfl
  | cons l rest ih =>
    intro k st hne hc
    have hl : (trimmed l).isEmpty = false := hne l (List.mem_cons_self _ _)
    have hrest := ih (k + 1) (validateTextLine ctx (base + k) l st).2
      (fun x hx => hne x (List.mem_cons_of_mem _ hx))
      (by rw [validateTextLine_linesinblock, hc]; push_cast; omega)
    have e1 : base + (k : Int) + 1 = base + ((k + 1 : Nat) : Int) := by push_cast; omega
    simp only [validateLines, validateLine, hl, Bool.false_eq_true, if_false, List.filter_append,
      validateTextLine_filter_blockSize, hb, true_and, List.length_cons, List.range'_succ,
      List.filter_cons, e1, hrest, hc]
    by_cases hm : ctx.settings.m_editorMaxBlock < c0 + (k : Int) + 1
    · have hm' : c0 + (k : Int) + 1 > ctx.settings.m_editorMaxBlock := hm
      simp [hm, hm']
    · have hm' : ¬ (c0 + (k : Int) + 1 > ctx.settings.m_editorMaxBlock) := hm
      simp [hm, hm']

theorem validateState_after_empty (ctx : Context) : ∀ (pre : List QString) (n : Int)
    (st : DocState), pre ≠ [] → (∀ l ∈ pre.getLast?, (trimmed l).isEmpty = true) →
    (validateState ctx pre n st).linesinblock = 0 := by
  intro pre
  induction pre with
  | nil => intro n st h _; exact absurd rfl h
  | cons l rest ih =>
    intro n st _ hlast
    cases rest with
    | nil =>
      have hl : (trimmed l).isEmpty = true := hlast l rfl
      simp only [validateState, validateLine, hl, if_true, validateEmptyLine_state]
    | cons l2 rest2 =>
      have hlast' : ∀ x ∈ (l2 :: rest2).getLast?, (trimmed x).isEmpty = true := by
        intro x hx
        apply hlast x
        simpa [List.getLast?_cons_cons] using hx
      have := ih (n + 1) (validateLine ctx n l st).2 (by simp) hlast'
      simpa [validateState] using this

theorem validateState_linesinblock (ctx : Context) (pre : List QString) (n : Int)
    (st : DocState) (h : st.linesinblock = 0)
    (hlast : ∀ l ∈ pre.getLast?, (trimmed l).isEmpty = true) :
    (validateState ctx pre n st).linesinblock = 0 := by
  cases pre with
  | nil => exact h
  | cons l rest => exact validateState_after_empty ctx (l :: rest) n st (by simp) hlast

theorem range_filter_beyond_length (m : Int) (hm : 0 ≤ m) : ∀ n : Nat,
    ((List.range n).filter (fun i : Nat => decide (m < (i : Int) + 1))).length = ((n : Int) - m).toNat := by
  intro n
  induction n with
  | zero => simp; omega
  | succ k ih =>
    rw [List.range_succ, List.filter_append, List.length_append, ih]
    by_cases h : m < (k : Int) + 1
    · simp only [List.filter_cons, h, decide_True, if_true, List.filter_nil, List.length_singleton]
      push_cast
      omega
    · simp only [List.filter_cons, h, decide_False, Bool.false_eq_true, if_false, List.filter_nil,
        List.length_nil]
      push_cast
      omega

theorem validateLines_filter_blockSize_noBlocks (ctx : Context)
    (hb : ctx.settings.m_editorSupportBlocks = false) : ∀ (lines : List QString) (n : Int)
    (st : DocState), (validateLines ctx lines n st).filter (fun e => isBlockSize e.error) = [] := by
  intro lines
  induction lines with
  | nil => intro n st; rfl
  | cons l rest ih =>
    intro n st
    simp only [validateLines, List.filter_append, ih, List.append_nil]
    unfold validateLine
    by_cases hl : (trimmed l).isEmpty = true
    · rw [if_pos hl]
      exact validateEmptyLine_filter ctx n st isBlockSize rfl rfl (fun _ => rfl)
    · rw [if_neg hl, validateTextLine_filter_blockSize]
      simp [hb]

/-- C11, as amended. Let the lines of the document be `pre ++ block ++ post`,
where `pre` is empty or ends with an empty line and no line of `block` is empty,
and let `m` be the block limit. With blocks enabled, the block-size errors on
the lines of `block` are: one error, at column 0, on each line of the block
beyond the `m`-th; for `m ≥ 0` these are `max(0, n - m)` errors, `n` being the
number of lines of `block`. With blocks disabled no block-size error is
reported at all. -/
theorem validate_blockSize (ctx : Context) (text : QString) (pre block post : List QString)
    (hs : split '\n' text = pre ++ (block ++ post))
    (hpre : ∀ l ∈ pre.getLast?, (trimmed l).isEmpty = true)
    (hblock : ∀ l ∈ block, (trimmed l).isEmpty = false) :
    (ctx.settings.m_editorSupportBlocks = true →
      (validate ctx text).filter (fun e => isBlockSize e.error &&
          decide ((pre.length : Int) + 1 ≤ e.line) &&
          decide (e.line < (pre.length : Int) + 1 + block.length)) =
        ((List.range block.length).filter
            (fun i : Nat => decide (ctx.settings.m_editorMaxBlock < (i : Int) + 1))).map
          (fun i : Nat =>
            ⟨(pre.length : Int) + 1 + (i : Int), 0, .blockSize ctx.settings.m_editorMaxBlock⟩) ∧
      (0 ≤ ctx.settings.m_editorMaxBlock →
        ((validate ctx text).filter (fun e => isBlockSize e.error &&
          decide ((pre.length : Int) + 1 ≤ e.line) &&
          decide (e.line < (pre.length : Int) + 1 + block.length))).length =
        ((block.length : Int) - ctx.settings.m_editorMaxBlock).toNat)) ∧
    (ctx.settings.m_editorSupportBlocks = false →
      (validate ctx text).filter (fun e => isBlockSize e.error) = []) := by
  refine ⟨fun hb => ?_, fun hb => validateLines_filter_blockSize_noBlocks ctx hb _ _ _⟩
  have hmain : (validate ctx text).filter (fun e => isBlockSize e.error &&
          decide ((pre.length : Int) + 1 ≤ e.line) &&
          decide (e.line < (pre.length : Int) + 1 + block.length)) =
        ((List.range block.length).filter
            (fun i : Nat => decide (ctx.settings.m_editorMaxBlock < (i : Int) + 1))).map
          (fun i : Nat =>
            ⟨(pre.length : Int) + 1 + (i : Int), 0, .blockSize ctx.settings.m_editorMaxBlock⟩) := by
    unfold validate
    rw [hs, validateLines_append, validateLines_append, List.filter_append, List.filter_append]
    have h1 : (validateLines ctx pre 1
        { linesinblock := 0, last_time := 0, paragraphtext := [] }).filter
        (fun e => isBlockSize e.error && decide ((pre.length : Int) + 1 ≤ e.line) &&
          decide (e.line < (pre.length : Int) + 1 + block.length)) = [] := by
      rw [List.filter_eq_nil_iff]
      intro e he
      rcases validateLines_mem ctx pre 1 _ e he with h | ⟨_, m, hm⟩
      · have : ¬ ((pre.length : Int) + 1 ≤ e.line) := by omega
        simp [this]
      · simp [hm, isBlockSize]
    have h3 : (validateLines ctx post (1 + (pre.length : Int) + block.length)
        (validateState ctx block (1 + (pre.length : Int))
          (validateState ctx pre 1
            { linesinblock := 0, last_time := 0, paragraphtext := [] }))).filter
        (fun e => isBlockSize e.error && decide ((pre.length : Int) + 1 ≤ e.line) &&
          decide (e.line < (pre.length : Int) + 1 + block.length)) = [] := by
      rw [List.filter_eq_nil_iff]
      intro e he
      rcases validateLines_mem ctx post _ _ e he with h | ⟨_, m, hm⟩
      · have : ¬ (e.line < (pre.length : Int) + 1 + block.length) := by omega
        simp [this]
      · simp [hm, isBlockSize]
    have h2 : (validateLines ctx block (1 + (pre.length : Int))
          (validateState ctx pre 1
            { linesinblock := 0, last_time := 0, paragraphtext := [] })).filter
        (fun e => isBlockSize e.error && decide ((pre.length : Int) + 1 ≤ e.line) &&
          decide (e.line < (pre.length : Int) + 1 + block.length)) =
        (validateLines ctx block (1 + (pre.length : Int))
          (validateState ctx pre 1
            { linesinblock := 0, last_time := 0, paragraphtext := [] })).filter
        (fun e => isBlockSize e.error) := by
      apply List.filter_congr
      intro e he
      rcases validateLines_mem ctx block _ _ e he with h | ⟨_, m, hm⟩
      · have a : (pre.length : Int) + 1 ≤ e.line := by omega
        have b : e.line < (pre.length : Int) + 1 + block.length := by omega
        simp [a, b]
      · simp [hm, isBlockSize]
    rw [h1, h3, h2, List.nil_append, List.append_nil]
    have hst := validateState_linesinblock ctx pre 1
      { linesinblock := 0, last_time := 0, paragraphtext := [] } rfl hpre
    have hblk := validateLines_block ctx hb ((pre.length : Int) + 1) 0 block 0 _ hblock
      (by rw [hst]; simp)
    have e0 : (pre.length : Int) + 1 + ((0 : Nat) : Int) = 1 + (pre.length : Int) := by
      push_cast; omega
    rw [e0] at hblk
    rw [hblk, List.range_eq_range']
    simp only [zero_add]
  refine ⟨hmain, fun hm => ?_⟩
  rw [hmain, List.length_map]
  exact range_filter_beyond_length _ hm _

/-- C11 at the document of one block of three lines with the limit 2: exactly one
block-size error, on the third line. -/
theorem validate_blockSize_witness :
    split '\n' threeLineExample = [] ++ (split '\n' threeLineExample ++ []) ∧
    twoLineBlockContext.settings.m_editorSupportBlocks = true ∧
    (0 : Int) ≤ twoLineBlockContext.settings.m_editorMaxBlock ∧
    (validate twoLineBlockContext threeLineExample).filter (fun e => isBlockSize e.error) =
      [⟨3, 0, .blockSize 2⟩] ∧
    ((validate twoLineBlockContext threeLineExample).filter (fun e => isBlockSize e.error &&
          decide ((([] : List QString).length : Int) + 1 ≤ e.line) &&
          decide (e.line < (([] : List QString).length : Int) + 1 +
            (split '\n' threeLineExample).length))).length =
        (((split '\n' threeLineExample).length : Int) -
          twoLineBlockContext.settings.m_editorMaxBlock).toNat :=
  ⟨by decide, rfl, by decide, by decide,
    ((validate_blockSize twoLineBlockContext threeLineExample [] (split '\n' threeLineExample) []
      (by decide) (by decide) (by decide)).1 rfl).2 (by decide)⟩

/-- C11, as stated, fails for a negative limit: with `m = -1` a block of one line
gets one block-size error, and `max(0, 1 - m)` is 2. -/
theorem validate_blockSize_counterexample :
    negativeBlockContext.settings.m_editorSupportBlocks = true ∧
    negativeBlockContext.settings.m_editorMaxBlock = -1 ∧
    split '\n' oneLineExample = [oneLineExample] ∧
    validate negativeBlockContext oneLineExample = [⟨1, 0, .blockSize (-1)⟩] ∧
    ((validate negativeBlockContext oneLineExample).filter (fun e => isBlockSize e.error)).length
      ≠ (max 0 ((1 : Int) - negativeBlockContext.settings.m_editorMaxBlock)).toNat := by
  decide

/-! ## The decoder -/

theorem all_takeWhile (p : Char → Bool) (l : QString) : (l.takeWhile p).all p = true := by
  rw [List.all_eq_true]
  intro x hx
  exact List.mem_takeWhile_imp hx

/-- The regular expression matches exactly the texts `digits ':' digits '.'
digits`, and its captures are the three digit strings. -/
theorem rxtime_eq_some_iff (data a b c : QString) :
    rxtime data = some (a, b, c) ↔
      data = a ++ ':' :: (b ++ '.' :: c) ∧ a ≠ [] ∧ b ≠ [] ∧ c ≠ [] ∧
        a.all isDigit = true ∧ b.all isDigit = true ∧ c.all isDigit = true := by
  constructor
  · intro h
    unfold rxtime at h
    have e1 := List.takeWhile_append_dropWhile isDigit data
    split at h
    · rename_i r1 hr1
      have e2 := List.takeWhile_append_dropWhile isDigit r1
      split at h
      · rename_i c3 hr3
        simp only at h
        split at h
        · rename_i hc
          simp only [Option.some.injEq, Prod.mk.injEq] at h
          obtain ⟨ha, hb, hc3⟩ := h
          subst ha hb hc3
          refine ⟨?_, hc.1, hc.2.1, hc.2.2.1, all_takeWhile _ _, all_takeWhile _ _, hc.2.2.2⟩
          rw [hr1] at e1
          rw [hr3] at e2
          rw [e2, e1]
        · exact absurd h (by simp)
      · exact absurd h (by simp)
    · exact absurd h (by simp)
  · rintro ⟨rfl, ha0, hb0, hc0, ha, hb, hc⟩
    exact rxtime_of_parts a b c ha hb hc ha0 hb0 hc0

theorem infoToMark_ne_iff (data : QString) :
    infoToMark data ≠ -1 ↔ (rxtime data).isSome = true := by
  unfold infoToMark
  cases hr : rxtime data with
  | none => simp
  | some t =>
    obtain ⟨c1, c2, c3⟩ := t
    simp only [Option.isSome_some, iff_true]
    unfold wrap32
    omega

/-- C17, as amended: `infoToMark` succeeds (the regular expression matches, and
the value returned is not `-1`) exactly on the texts that in full are
`digits ':' digits '.' digits`, where a digit is any character of
`QChar::isDigit`, and returns `-1` on every other text, so a success is never
confused with the failure value. On success, when the three fields are written
in the digits `'0'..'9'` and `minutes*60000 + seconds*1000 + centiseconds*10`
is at most 2147483647, the result is that sum, which is not negative. -/
theorem infoToMark_spec (data : QString) :
    (infoToMark data ≠ -1 ↔
      ∃ a b c : QString, data = a ++ ':' :: (b ++ '.' :: c) ∧ a ≠ [] ∧ b ≠ [] ∧ c ≠ [] ∧
        a.all isDigit = true ∧ b.all isDigit = true ∧ c.all isDigit = true) ∧
    ((rxtime data).isSome = true ↔ infoToMark data ≠ -1) ∧
    (∀ a b c : QString, data = a ++ ':' :: (b ++ '.' :: c) → a ≠ [] → b ≠ [] → c ≠ [] →
      a.all Char.isDigit = true → b.all Char.isDigit = true → c.all Char.isDigit = true →
      digitsValue a * 60000 + digitsValue b * 1000 + digitsValue c * 10 ≤ 2147483647 →
      infoToMark data =
          (digitsValue a : Int) * 60000 + (digitsValue b : Int) * 1000 + (digitsValue c : Int) * 10 ∧
        0 ≤ infoToMark data) := by
  refine ⟨?_, (infoToMark_ne_iff data).symm, ?_⟩
  · rw [infoToMark_ne_iff]
    constructor
    · intro h
      cases hr : rxtime data with
      | none => rw [hr] at h; simp at h
      | some t =>
        obtain ⟨a, b, c⟩ := t
        exact ⟨a, b, c, (rxtime_eq_some_iff data a b c).1 hr⟩
    · rintro ⟨a, b, c, h⟩
      rw [(rxtime_eq_some_iff data a b c).2 h]
      rfl
  · intro a b c hd ha0 hb0 hc0 ha hb hc hsum
    have hr := (rxtime_eq_some_iff data a b c).2 ⟨hd, ha0, hb0, hc0,
      all_isDigit_of_ascii a ha, all_isDigit_of_ascii b hb, all_isDigit_of_ascii c hc⟩
    have hval : infoToMark data =
        (digitsValue a : Int) * 60000 + (digitsValue b : Int) * 1000 +
          (digitsValue c : Int) * 10 := by
      unfold infoToMark
      rw [hr]
      simp only [toInt]
      have b1 : digitsValue a ≤ 2147483647 := by omega
      have b2 : digitsValue b ≤ 2147483647 := by omega
      have b3 : digitsValue c ≤ 2147483647 := by omega
      rw [if_pos ⟨ha, b1⟩, if_pos ⟨hb, b2⟩, if_pos ⟨hc, b3⟩]
      unfold wrap32
      omega
    refine ⟨hval, ?_⟩
    rw [hval]
    omega

/-- C17 at the text `01:23.45`. -/
theorem infoToMark_spec_witness :
    (['0', '1', ':', '2', '3', '.', '4', '5'] : QString) =
        ['0', '1'] ++ ':' :: (['2', '3'] ++ '.' :: ['4', '5']) ∧
    digitsValue ['0', '1'] * 60000 + digitsValue ['2', '3'] * 1000 + digitsValue ['4', '5'] * 10
        ≤ 2147483647 ∧
    infoToMark ['0', '1', ':', '2', '3', '.', '4', '5'] =
          (digitsValue ['0', '1'] : Int) * 60000 + (digitsValue ['2', '3'] : Int) * 1000 +
            (digitsValue ['4', '5'] : Int) * 10 ∧
        0 ≤ infoToMark ['0', '1', ':', '2', '3', '.', '4', '5'] :=
  ⟨by decide, by decide,
    (infoToMark_spec ['0', '1', ':', '2', '3', '.', '4', '5']).2.2 ['0', '1'] ['2', '3']
      ['4', '5'] (by decide) (by decide) (by decide) (by decide) (by decide) (by decide)
      (by decide) (by decide)⟩

/-- C17, as stated, fails in two ways. The fields are read with `toInt` and
combined in `int` arithmetic: for `2147483648:00.00` the minutes do not fit an
`int`, read as `0`, and the result is `0`; for `35792:00.00` the product
overflows and the result is negative. And the digits of the regular expression
are those of every script, of which `toInt` reads only `'0'..'9'`: the text
`1:00.00` in full-width digits, which denotes one minute, matches and decodes to
`0`, not to `60000` and not to `-1`. -/
theorem infoToMark_spec_counterexample :
    infoToMark ['2', '1', '4', '7', '4', '8', '3', '6', '4', '8', ':', '0', '0', '.', '0', '0'] = 0 ∧
    (digitsValue ['2', '1', '4', '7', '4', '8', '3', '6', '4', '8'] : Int) * 60000 +
        (digitsValue ['0', '0'] : Int) * 1000 + (digitsValue ['0', '0'] : Int) * 10 =
      128849018880000 ∧
    infoToMark ['3', '5', '7', '9', '2', ':', '0', '0', '.', '0', '0'] = -2147447296 ∧
    fullWidthTimeExample.all (fun ch => isDigit ch || ch == ':' || ch == '.') = true ∧
    fullWidthTimeExample.all (fun ch => ch.isDigit || ch == ':' || ch == '.') = false ∧
    (rxtime fullWidthTimeExample).map (fun t => (decimalValue t.1, decimalValue t.2.1,
      decimalValue t.2.2)) = some (1, 0, 0) ∧
    infoToMark fullWidthTimeExample = 0 := by
  decide

/-! ## Lemmas: timing marks -/

theorem blockRest_append (p r : QString) (h : '\n' ∉ p) :
    blockRest (p ++ r) = p ++ blockRest r := by
  induction p with
  | nil => rfl
  | cons c cs ih =>
    simp only [List.mem_cons, not_or] at h
    have hc : (c != '\n') = true := by
      simp only [bne_iff_ne, ne_eq]
      exact fun e => h.1 e.symm
    simp only [blockRest, List.cons_append, List.takeWhile_cons, hc, if_true] at ih ⊢
    rw [ih h.2]

theorem blockRest_prefix (t : QString) : ∃ r, t = blockRest t ++ r :=
  ⟨t.dropWhile (fun c => c != '\n'), (List.takeWhile_append_dropWhile _ _).symm⟩

theorem IsTimingMark.not_mem_newline {mark : QString} (h : IsTimingMark mark) : '\n' ∉ mark := by
  rcases h with rfl | ⟨a, b, c, _, _, _, ha, hb, hc, rfl⟩
  · decide
  · have na := not_mem_of_digits a ha '\n' (by decide)
    have nb := not_mem_of_digits b hb '\n' (by decide)
    have nc := not_mem_of_digits c hc '\n' (by decide)
    simp [na, nb, nc]

theorem takeWhile_digits_all (a r : QString) (ha : a.all isDigit = true)
    (hr : ∀ x, r.head? = some x → isDigit x = false) :
    (a ++ r).takeWhile isDigit = a ∧ (a ++ r).dropWhile isDigit = r := by
  cases r with
  | nil =>
    rw [List.all_eq_true] at ha
    simp only [List.append_nil]
    exact ⟨List.takeWhile_eq_self_iff.2 ha, List.dropWhile_eq_nil_iff.2 ha⟩
  | cons x xs =>
    exact ⟨takeWhile_digits_append a x xs ha (hr x rfl),
      dropWhile_digits_append a x xs ha (hr x rfl)⟩

/-- A text that begins with a timing mark is recognised, with the length of the
mark. -/
theorem timingMarkLength_of_mark (mark r : QString) (h : IsTimingMark mark) :
    timingMarkLength (mark ++ r) = some mark.length := by
  rcases h with rfl | ⟨a, b, c, ha0, hb0, hc0, ha, hb, hc, rfl⟩
  · have : PLACEHOLDER.isPrefixOf (PLACEHOLDER ++ r) = true := by
      simp [PLACEHOLDER, List.isPrefixOf]
    simp only [timingMarkLength, this, if_true]
  · have hnp : PLACEHOLDER.isPrefixOf ('[' :: (a ++ ':' :: (b ++ '.' :: (c ++ [']']))) ++ r)
        = false := by
      cases a with
      | nil => exact absurd rfl ha0
      | cons x xs =>
        have hx : isDigit x = true := by
          simp only [List.all_cons, Bool.and_eq_true] at ha; exact ha.1
        have : x ≠ '-' := by rintro rfl; revert hx; decide
        simp [PLACEHOLDER, List.isPrefixOf, this.symm]
    have e : '[' :: (a ++ ':' :: (b ++ '.' :: (c ++ [']']))) ++ r =
        '[' :: (a ++ ':' :: (b ++ '.' :: (c ++ ']' :: r))) := by simp
    rw [e] at hnp ⊢
    have t1 := takeWhile_digits_append a ':' (b ++ '.' :: (c ++ ']' :: r)) ha (by decide)
    have d1 := dropWhile_digits_append a ':' (b ++ '.' :: (c ++ ']' :: r)) ha (by decide)
    have t2 := takeWhile_digits_append b '.' (c ++ ']' :: r) hb (by decide)
    have d2 := dropWhile_digits_append b '.' (c ++ ']' :: r) hb (by decide)
    have t3 := takeWhile_digits_append c ']' r hc (by decide)
    have d3 := dropWhile_digits_append c ']' r hc (by decide)
    unfold timingMarkLength
    rw [if_neg (by rw [hnp]; simp)]
    simp only [d1, d2, d3, t1, t2, t3, ha0, hb0, hc0, ne_eq, not_false_eq_true, and_self, if_true,
      Option.some.injEq, List.length_cons, List.length_append, List.length_nil]
    omega

/-- A text that is recognised begins with a timing mark of the length given. -/
theorem mark_of_timingMarkLength (t : QString) (len : Nat) (h : timingMarkLength t = some len) :
    ∃ mark r, IsTimingMark mark ∧ t = mark ++ r ∧ len = mark.length := by
  unfold timingMarkLength at h
  by_cases hp : PLACEHOLDER.isPrefixOf t = true
  · rw [if_pos hp] at h
    obtain ⟨r, hr⟩ := List.isPrefixOf_iff_prefix.1 hp
    exact ⟨PLACEHOLDER, r, Or.inl rfl, hr.symm, by simpa using h.symm⟩
  · rw [if_neg hp] at h
    split at h
    · rename_i r0
      have e0 := List.takeWhile_append_dropWhile isDigit r0
      split at h
      · rename_i r1 h1
        have e1 := List.takeWhile_append_dropWhile isDigit r1
        split at h
        · rename_i r2 h2
          have e2 := List.takeWhile_append_dropWhile isDigit r2
          split at h
          · rename_i r3 h3
            split at h
            · rename_i hne
              refine ⟨'[' :: (r0.takeWhile isDigit ++ ':' :: (r1.takeWhile isDigit ++
                '.' :: (r2.takeWhile isDigit ++ [']']))), r3,
                Or.inr ⟨_, _, _, hne.1, hne.2.1, hne.2.2, all_takeWhile _ _, all_takeWhile _ _,
                  all_takeWhile _ _, rfl⟩, ?_, ?_⟩
              · rw [h1] at e0
                rw [h2] at e1
                rw [h3] at e2
                conv_lhs => rw [← e0, ← e1, ← e2]
                simp
              · simp only [Option.some.injEq] at h
                simp only [List.length_cons, List.length_append, List.length_nil]
                omega
            · exact absurd h (by simp)
          · exact absurd h (by simp)
        · exact absurd h (by simp)
      · exact absurd h (by simp)
    · exact absurd h (by simp)

/-! ## Insertion of a time tag -/

theorem insertTimeTag_text_eq (s : Settings) (timing : Int) (ed : EditorState) :
    (insertTimeTag s timing ed).text =
      ed.text.take ed.position ++ timeTag timing ++
        afterDeletion timing (ed.text.drop ed.position) := by
  unfold insertTimeTag
  simp only
  split <;> rfl

theorem afterDeletion_of_mark (timing : Int) (mark rest : QString) (hm : IsTimingMark mark)
    (ht : timing > 0) : afterDeletion timing (mark ++ rest) = rest := by
  unfold afterDeletion
  rw [blockRest_append mark rest hm.not_mem_newline, timingMarkLength_of_mark mark _ hm]
  simp only [ht, if_true, List.drop_left]

theorem afterDeletion_of_zero (after : QString) : afterDeletion 0 after = after := by
  unfold afterDeletion
  cases timingMarkLength (blockRest after) with
  | none => rfl
  | some len => simp

theorem afterDeletion_of_no_mark (timing : Int) (after : QString)
    (h : ¬ ∃ mark rest, IsTimingMark mark ∧ after = mark ++ rest) :
    afterDeletion timing after = after := by
  unfold afterDeletion
  cases hl : timingMarkLength (blockRest after) with
  | none => rfl
  | some len =>
    exfalso
    obtain ⟨mark, r, hm, hr, _⟩ := mark_of_timingMarkLength _ _ hl
    obtain ⟨r', hr'⟩ := blockRest_prefix after
    exact h ⟨mark, r ++ r', hm, by rw [hr', hr, List.append_assoc]⟩

/-- C18: with the document `before ++ after` and the cursor between the two
parts, `insertTimeTag` leaves the document as follows. If `timing > 0` and
`after` starts with a timing mark (the placeholder or a well-formed tag), the
mark is replaced: `before ++ "[" ++ markToTime timing ++ "]" ++ rest`, where
`rest` is `after` without the mark. If `timing = 0`, nothing is deleted:
`before ++ "[--:--]" ++ after`. If `after` does not start with a timing mark,
the new tag is inserted and nothing is deleted. -/
theorem insertTimeTag_text (s : Settings) (timing : Int) (before after : QString) :
    (∀ mark rest : QString, IsTimingMark mark → after = mark ++ rest → timing > 0 →
      (insertTimeTag s timing { text := before ++ after, position := before.length }).text =
        before ++ ('[' :: markToTime timing ++ [']']) ++ rest) ∧
    (timing = 0 →
      (insertTimeTag s timing { text := before ++ after, position := before.length }).text =
        before ++ PLACEHOLDER ++ after) ∧
    ((¬ ∃ mark rest, IsTimingMark mark ∧ after = mark ++ rest) →
      (insertTimeTag s timing { text := before ++ after, position := before.length }).text =
        before ++ timeTag timing ++ after) := by
  have base := insertTimeTag_text_eq s timing { text := before ++ after, position := before.length }
  simp only [List.take_left, List.drop_left] at base
  refine ⟨?_, ?_, ?_⟩
  · intro mark rest hm ha ht
    have h0 : timing ≠ 0 := by omega
    rw [base, ha, afterDeletion_of_mark timing mark rest hm ht]
    unfold timeTag
    rw [if_neg h0]
  · intro h0
    rw [base, h0, afterDeletion_of_zero]
    unfold timeTag
    rw [if_pos rfl]
  · intro hno
    rw [base, afterDeletion_of_no_mark timing after hno]

/-- C18 at the line `la[--:--]lu` with the cursor behind `la` and the time
1500 ms, and at the line `lalu` with the same cursor and timing 0. -/
theorem insertTimeTag_text_witness :
    (IsTimingMark PLACEHOLDER ∧ (1500 : Int) > 0 ∧
      (insertTimeTag wordSkipSettings 1500
          { text := ['l', 'a'] ++ (PLACEHOLDER ++ ['l', 'u']),
            position := (['l', 'a'] : QString).length }).text =
        ['l', 'a'] ++ ('[' :: markToTime 1500 ++ [']']) ++ ['l', 'u']) ∧
    (insertTimeTag wordSkipSettings 0
          { text := ['l', 'a'] ++ ['l', 'u'], position := (['l', 'a'] : QString).length }).text =
        ['l', 'a'] ++ PLACEHOLDER ++ ['l', 'u'] ∧
    ((¬ ∃ mark rest, IsTimingMark mark ∧ ([] : QString) = mark ++ rest) ∧
      (insertTimeTag wordSkipSettings 1500
          { text := ['l', 'a'] ++ [], position := (['l', 'a'] : QString).length }).text =
        ['l', 'a'] ++ timeTag 1500 ++ []) :=
  have hnil : ¬ ∃ mark rest, IsTimingMark mark ∧ ([] : QString) = mark ++ rest := by
    rintro ⟨mark, rest, hm, he⟩
    have : mark = [] := (List.append_eq_nil.1 he.symm).1
    subst this
    rcases hm with h | ⟨a, b, c, _, _, _, _, _, _, h⟩
    · exact absurd h (by decide)
    · exact absurd h (by simp)
  ⟨⟨Or.inl rfl, by decide,
      (insertTimeTag_text wordSkipSettings 1500 ['l', 'a'] (PLACEHOLDER ++ ['l', 'u'])).1
        PLACEHOLDER ['l', 'u'] (Or.inl rfl) rfl (by decide)⟩,
    (insertTimeTag_text wordSkipSettings 0 ['l', 'a'] ['l', 'u']).2.1 rfl,
    hnil, (insertTimeTag_text wordSkipSettings 1500 ['l', 'a'] []).2.2 hnil⟩

/-! ## The double-time-mark policy -/

/-- C14: with the double-time-mark policy on, `timing > 0` and the placeholder at
the cursor, the cursor is left at the end of the inserted tag: the insertion
offset plus the length of `"[" ++ markToTime timing ++ "]"`. The other policies
and the text behind the placeholder play no part. -/
theorem insertTimeTag_doubleTimeMark (s : Settings) (timing : Int) (ed : EditorState)
    (rest : QString) (hd : s.m_editorDoubleTimeMark = true) (ht : timing > 0)
    (hp : ed.text.drop ed.position = PLACEHOLDER ++ rest) :
    (insertTimeTag s timing ed).position =
      ed.position + ('[' :: markToTime timing ++ [']']).length := by
  have hm : IsTimingMark PLACEHOLDER := Or.inl rfl
  have hb : blockRest (ed.text.drop ed.position) = PLACEHOLDER ++ blockRest rest := by
    rw [hp, blockRest_append PLACEHOLDER rest hm.not_mem_newline]
  have hw : wasTimeMarkDeleted timing (ed.text.drop ed.position) = true := by
    unfold wasTimeMarkDeleted isTimingMark
    rw [hb, timingMarkLength_of_mark PLACEHOLDER _ hm]
    have : PLACEHOLDER.isPrefixOf (PLACEHOLDER ++ blockRest rest) = true := by
      simp [PLACEHOLDER, List.isPrefixOf]
    simp only [ht, this, decide_True, Option.isSome_some, Bool.and_self]
  have h0 : timing ≠ 0 := by omega
  unfold insertTimeTag
  simp only [hd, hw, Bool.and_self, if_true]
  unfold timeTag
  rw [if_neg h0]

/-- C14 at the line `[--:--]la la` with the cursor at its start. -/
theorem insertTimeTag_doubleTimeMark_witness :
    ({ wordSkipSettings with m_editorDoubleTimeMark := true } : Settings).m_editorDoubleTimeMark
      = true ∧ (1500 : Int) > 0 ∧
    (insertTimeTag { wordSkipSettings with m_editorDoubleTimeMark := true } 1500
        { text := PLACEHOLDER ++ ['l', 'a', ' ', 'l', 'a'], position := 0 }).position =
      0 + ('[' :: markToTime 1500 ++ [']']).length :=
  ⟨rfl, by decide,
    insertTimeTag_doubleTimeMark { wordSkipSettings with m_editorDoubleTimeMark := true } 1500
      { text := PLACEHOLDER ++ ['l', 'a', ' ', 'l', 'a'], position := 0 } ['l', 'a', ' ', 'l', 'a']
      rfl (by decide) rfl⟩

/-! ## Lemmas: the cursor loop -/

theorem wordStep_cases (s : Settings) (ch : Char) (curPos : Int) (v : CursorScan) :
    (wordStep s ch curPos v = .leave v.word_start_offset ∧ v.word_start_offset ≠ -1) ∨
    ∃ v', wordStep s ch curPos v = .advance v' ∧ v'.separator_found = v.separator_found ∧
      (v'.word_start_offset = v.word_start_offset ∨ v'.word_start_offset = -1 ∨
        v'.word_start_offset = curPos) := by
  unfold wordStep
  split
  · split
    · split
      · rename_i hw
        split
        · exact Or.inl ⟨rfl, hw⟩
        · exact Or.inr ⟨_, rfl, rfl, Or.inr (Or.inl rfl)⟩
      · exact Or.inr ⟨_, rfl, rfl, Or.inl rfl⟩
    · split
      · exact Or.inr ⟨_, rfl, rfl, Or.inr (Or.inr rfl)⟩
      · exact Or.inr ⟨_, rfl, rfl, Or.inl rfl⟩
  · exact Or.inr ⟨_, rfl, rfl, Or.inl rfl⟩

/-- One iteration of the cursor loop: the loop is left with `curPos`, or it is
left with the start of the word recorded, or the text at `curPos` is no timing
mark and the loop goes on. -/
theorem cursorStep_cases (s : Settings) (start : Int) (c : Char) (rest : QString) (curPos : Int)
    (v : CursorScan) :
    cursorStep s start c rest curPos v = .leave curPos ∨
    (cursorStep s start c rest curPos v = .leave v.word_start_offset ∧
      v.word_start_offset ≠ -1) ∨
    (isTimingMark (blockRest (c :: rest)) = false ∧
      ∃ v', cursorStep s start c rest curPos v = .advance v' ∧
        (v'.word_start_offset = v.word_start_offset ∨ v'.word_start_offset = -1 ∨
          v'.word_start_offset = curPos)) := by
  unfold cursorStep
  split
  · exact Or.inl rfl
  · rename_i hmark
    have hm : isTimingMark (blockRest (c :: rest)) = false := by simpa using hmark
    split
    · split
      · exact Or.inr (Or.inr ⟨hm, v, rfl, Or.inl rfl⟩)
      · exact Or.inl rfl
    · split
      · split
        · exact Or.inl rfl
        · rcases wordStep_cases s (currentChar c) curPos { v with separator_found := true } with
            h | ⟨v', h, _, hw⟩
          · exact Or.inr (Or.inl h)
          · exact Or.inr (Or.inr ⟨hm, v', h, hw⟩)
      · rcases wordStep_cases s (currentChar c) curPos v with h | ⟨v', h, _, hw⟩
        · exact Or.inr (Or.inl h)
        · exact Or.inr (Or.inr ⟨hm, v', h, hw⟩)

theorem scanCursor_cons (s : Settings) (start : Int) (c : Char) (rest : QString) (curPos : Int)
    (v : CursorScan) :
    scanCursor s start (c :: rest) curPos v =
      match cursorStep s start c rest curPos v with
      | .leave p => p
      | .advance v' => scanCursor s start rest (curPos + 1) v' := by
  rw [scanCursor]

/-- The cursor loop never passes the start of a timing mark. -/
theorem scanCursor_no_mark (s : Settings) (start : Int) : ∀ (rest : QString) (curPos : Int)
    (v : CursorScan), 0 ≤ curPos → v.word_start_offset ≤ curPos → ∀ k : Nat,
    curPos + k < scanCursor s start rest curPos v →
    isTimingMark (blockRest (rest.drop k)) = false := by
  intro rest
  induction rest with
  | nil =>
    intro curPos v _ _ k hk
    simp only [scanCursor] at hk
    omega
  | cons c rest ih =>
    intro curPos v h0 hw k hk
    rw [scanCursor_cons] at hk
    rcases cursorStep_cases s start c rest curPos v with h | ⟨h, _⟩ | ⟨hm, v', h, hv'⟩
    · rw [h] at hk; simp only at hk; omega
    · rw [h] at hk; simp only at hk; omega
    · cases k with
      | zero => exact hm
      | succ k' =>
        rw [h] at hk
        simp only at hk
        have hw' : v'.word_start_offset ≤ curPos + 1 := by
          rcases hv' with e | e | e <;> omega
        have := ih (curPos + 1) v' (by omega) hw' k' (by push_cast at hk; omega)
        simpa using this

/-- C13: the cursor scan never walks into a mark. If the scan started at the
offset `start` returns the offset `r`, no offset `p` with `start ≤ p < r` is the
beginning of a timing mark (the placeholder or a well-formed tag): the text of
the buffer from `p` on does not start with one, and `isTimingMark` is false
there. -/
theorem cursorScan_never_into_mark (s : Settings) (text : QString) (start p : Nat)
    (hp : start ≤ p) (hr : (p : Int) < cursorScan s text start) :
    isTimingMark (blockRest (text.drop p)) = false ∧
      ¬ ∃ mark rest, IsTimingMark mark ∧ text.drop p = mark ++ rest := by
  have h := scanCursor_no_mark s start (text.drop start) start CursorScan.init
    (by omega) (by simp [CursorScan.init]; omega) (p - start)
    (by
      unfold cursorScan at hr
      have : ((start : Int) + ((p - start : Nat) : Int)) = (p : Int) := by omega
      rw [this]; exact hr)
  have hd : (text.drop start).drop (p - start) = text.drop p := by
    rw [List.drop_drop]
    congr 1
    omega
  rw [hd] at h
  refine ⟨h, ?_⟩
  rintro ⟨mark, rest, hm, he⟩
  rw [he, blockRest_append mark rest hm.not_mem_newline] at h
  unfold isTimingMark at h
  rw [timingMarkLength_of_mark mark _ hm] at h
  simp at h

/-- C13 at the buffer `hi longword more` scanned from offset 0, whose result is
3, for the offset 2. -/
theorem cursorScan_never_into_mark_witness :
    (0 : Nat) ≤ 2 ∧ ((2 : Nat) : Int) < cursorScan wordSkipSettings wordSkipExample 0 ∧
    isTimingMark (blockRest (wordSkipExample.drop 2)) = false ∧
      ¬ ∃ mark rest, IsTimingMark mark ∧ wordSkipExample.drop 2 = mark ++ rest :=
  ⟨by decide, by decide,
    cursorScan_never_into_mark wordSkipSettings wordSkipExample 0 2 (by decide) (by decide)⟩

/-! ## Stop at line end -/

theorem isCRLF_currentChar (c : Char) : isCRLF (currentChar c) = isCRLF c := by
  unfold currentChar
  by_cases h : c = '\n'
  · subst h; decide
  · rw [if_neg h]

theorem currentChar_of_not_isCRLF (c : Char) (h : isCRLF c = false) : currentChar c = c := by
  unfold currentChar
  have : c ≠ '\n' := by rintro rfl; revert h; decide
  rw [if_neg this]

theorem takeWhile_not_isCRLF_le (t : QString) :
    (t.takeWhile (fun c => !isCRLF c)).length ≤ (blockRest t).length := by
  induction t with
  | nil => simp [blockRest]
  | cons c cs ih =>
    by_cases h : isCRLF c = true
    · simp [List.takeWhile_cons, h]
    · have h' : isCRLF c = false := by simpa using h
      have hn : (c != '\n') = true := by
        simp only [bne_iff_ne, ne_eq]
        rintro rfl; revert h'; decide
      simp only [blockRest, List.takeWhile_cons, h', Bool.not_false, if_true, hn,
        List.length_cons] at ih ⊢
      omega

/-- With the stop-at-line-end policy, before any separator was met, the loop
does not pass the first line separator. -/
theorem scanCursor_stopAtLineEnd (s : Settings) (start : Int)
    (hs : s.m_editorStopAtLineEnd = true) : ∀ (rest : QString) (curPos : Int) (v : CursorScan),
    v.separator_found = false → 0 ≤ start → start ≤ curPos →
    (start = curPos → ∀ c ∈ rest.head?, isCRLF c = false) →
    v.word_start_offset ≤ curPos →
    scanCursor s start rest curPos v ≤
      curPos + ((rest.takeWhile (fun c => !isCRLF c)).length : Int) := by
  intro rest
  induction rest with
  | nil => intro curPos v _ _ _ _ _; simp [scanCursor]
  | cons c rest ih =>
    intro curPos v hsep h0 hle hfirst hw
    rw [scanCursor_cons]
    by_cases hc : isCRLF c = true
    · have hne : start ≠ curPos := by
        intro e
        have := hfirst e c rfl
        rw [hc] at this
        exact absurd this (by simp)
      have hstep : cursorStep s start c rest curPos v = .leave curPos := by
        unfold cursorStep
        split
        · rfl
        · simp only [hsep, Bool.false_eq_true, if_false, isCRLF_currentChar, hc, if_true, hne,
            ne_eq, not_false_eq_true, decide_True, hs, Bool.and_self]
      rw [hstep]
      simp only
      have : (0 : Int) ≤ (((c :: rest).takeWhile (fun c => !isCRLF c)).length : Int) := by
        omega
      omega
    · have hc' : isCRLF c = false := by simpa using hc
      have hlen : ((c :: rest).takeWhile (fun c => !isCRLF c)).length =
          (rest.takeWhile (fun c => !isCRLF c)).length + 1 := by
        simp [List.takeWhile_cons, hc']
      rw [hlen]
      have hstep : cursorStep s start c rest curPos v = .leave curPos ∨
          cursorStep s start c rest curPos v = wordStep s c curPos v := by
        unfold cursorStep
        split
        · exact Or.inl rfl
        · simp only [hsep, Bool.false_eq_true, if_false, isCRLF_currentChar, hc',
            currentChar_of_not_isCRLF c hc']
          exact Or.inr trivial
      rcases hstep with h | h
      · rw [h]; simp only; push_cast; omega
      · rw [h]
        rcases wordStep_cases s c curPos v with ⟨h1, _⟩ | ⟨v', h1, hs1, hw1⟩
        · rw [h1]; simp only; push_cast; omega
        · rw [h1]
          simp only
          have := ih (curPos + 1) v' (by rw [hs1, hsep]) h0 (by omega) (by intro e; omega)
            (by rcases hw1 with e | e | e <;> omega)
          push_cast
          omega

/-- C19: with the stop-at-line-end policy on, for every buffer and every start
offset whose character is not a line separator (the start is not at the end of
its line), the cursor scan returns an offset that is not behind the first line
separator at or behind the start, hence not behind the end of the line that
contains the start: the cursor does not cross onto a later line, whatever the
other policies are. -/
theorem cursorScan_stopAtLineEnd (s : Settings) (text : QString) (start : Nat) (c : Char)
    (rest : QString) (hs : s.m_editorStopAtLineEnd = true) (h : text.drop start = c :: rest)
    (hc : isCRLF c = false) :
    cursorScan s text start ≤
        start + (((text.drop start).takeWhile (fun c => !isCRLF c)).length : Int) ∧
      cursorScan s text start ≤ start + ((blockRest (text.drop start)).length : Int) := by
  have h1 := scanCursor_stopAtLineEnd s start hs (text.drop start) start CursorScan.init rfl
    (by omega) (le_refl _)
    (by
      intro _ x hx
      rw [h] at hx
      simp only [List.head?_cons, Option.mem_def, Option.some.injEq] at hx
      rw [← hx]; exact hc)
    (by simp [CursorScan.init]; omega)
  have h2 := takeWhile_not_isCRLF_le (text.drop start)
  unfold cursorScan
  constructor
  · exact h1
  · omega

/-- C19 at the buffer `ab` / `cd` scanned from offset 0: the result is 2, the end
of the first line. -/
theorem cursorScan_stopAtLineEnd_witness :
    ({ wordSkipSettings with m_editorStopAtLineEnd := true } : Settings).m_editorStopAtLineEnd
      = true ∧
    (['a', 'b', '\n', 'c', 'd'] : QString).drop 0 = 'a' :: ['b', '\n', 'c', 'd'] ∧
    isCRLF 'a' = false ∧
    cursorScan { wordSkipSettings with m_editorStopAtLineEnd := true }
      ['a', 'b', '\n', 'c', 'd'] 0 = 2 ∧
    cursorScan { wordSkipSettings with m_editorStopAtLineEnd := true }
        ['a', 'b', '\n', 'c', 'd'] 0 ≤
      (0 : Nat) + ((blockRest ((['a', 'b', '\n', 'c', 'd'] : QString).drop 0)).length : Int) :=
  ⟨rfl, rfl, by decide, by decide,
    (cursorScan_stopAtLineEnd { wordSkipSettings with m_editorStopAtLineEnd := true }
      ['a', 'b', '\n', 'c', 'd'] 0 'a' ['b', '\n', 'c', 'd'] rfl rfl (by decide)).2⟩

/-! ## Word skip -/

theorem isCRLF_of_not_isSpace (c : Char) (h : isSpace c = false) : isCRLF c = false := by
  cases hc : isCRLF c with
  | false => rfl
  | true =>
    exfalso
    unfold isCRLF at hc
    simp only [Bool.or_eq_true, beq_iff_eq] at hc
    have : isSpace c = true := by
      rcases hc with (hc | hc) | hc
      · simp [isSpace, hc]
      · simp [isSpace, hc]
      · subst hc; decide
    rw [h] at this; cases this

theorem ne_bracket_of_isSpace (c : Char) (h : isSpace c = true) : c ≠ '[' := by
  rintro rfl; revert h; decide

theorem isTimingMark_of_head_ne (c : Char) (t : QString) (h : c ≠ '[') :
    isTimingMark (blockRest (c :: t)) = false := by
  have h2 : ∀ r : QString, timingMarkLength (c :: r) = none := by
    intro r
    have hp : PLACEHOLDER.isPrefixOf (c :: r) = false := by
      simp [PLACEHOLDER, List.isPrefixOf, Ne.symm h]
    unfold timingMarkLength
    rw [hp]
    simp only [Bool.false_eq_true, if_false]
    split
    · rename_i e; simp only [List.cons.injEq] at e; exact absurd e.1 h
    · rfl
  unfold isTimingMark blockRest
  rw [List.takeWhile_cons]
  split
  · rw [h2]; rfl
  · rfl

theorem NoMarkWithin.tail {c : Char} {w t : QString} (h : NoMarkWithin (c :: w) t) :
    NoMarkWithin w t := by
  intro a b e hb
  exact h (c :: a) b (by rw [e]; rfl) hb

theorem NoMarkWithin.head {c : Char} {w t : QString} (h : NoMarkWithin (c :: w) t) :
    isTimingMark (blockRest (c :: (w ++ t))) = false :=
  h [] (c :: w) rfl (by simp)

theorem NoMarkWithin.left {s1 s2 t : QString} (h : NoMarkWithin (s1 ++ s2) t) :
    NoMarkWithin s1 (s2 ++ t) := by
  intro a b e hb
  have := h a (b ++ s2) (by rw [e, List.append_assoc]) (by simp [hb])
  rwa [List.append_assoc] at this

theorem NoMarkWithin.right {s1 s2 t : QString} (h : NoMarkWithin (s1 ++ s2) t) :
    NoMarkWithin s2 t := by
  intro a b e hb
  exact h (s1 ++ a) b (by rw [e, List.append_assoc]) hb

/-- An iteration at a character that is no line separator, before any separator
was met and where no timing mark begins, applies the word rule. -/
theorem cursorStep_plain (s : Settings) (start : Int) (c : Char) (rest : QString) (curPos : Int)
    (v : CursorScan) (hm : isTimingMark (blockRest (c :: rest)) = false)
    (hsep : v.separator_found = false) (hc : isCRLF c = false) :
    cursorStep s start c rest curPos v = wordStep s c curPos v := by
  unfold cursorStep
  rw [hm, hsep, isCRLF_currentChar, hc, currentChar_of_not_isCRLF c hc]
  simp only [Bool.false_eq_true, if_false]

/-- A run of characters that are no white space leaves the variables of the loop
as they are, unless a word is about to start. -/
theorem scanCursor_nonspace_run (s : Settings) (start : Int) : ∀ (w t : QString) (p : Int)
    (v : CursorScan), v.separator_found = false →
    (v.tagged_word_ended && v.word_start_offset == -1) = false →
    (∀ x ∈ w, isSpace x = false) → NoMarkWithin w t →
    scanCursor s start (w ++ t) p v = scanCursor s start t (p + (w.length : Int)) v := by
  intro w
  induction w with
  | nil => intro t p v _ _ _ _; simp
  | cons c w ih =>
    intro t p v hsep hv hw hm
    have hc := hw c (List.mem_cons_self _ _)
    rw [List.cons_append, scanCursor_cons,
      cursorStep_plain s start c (w ++ t) p v hm.head hsep (isCRLF_of_not_isSpace c hc)]
    have hstep : wordStep s c p v = .advance v := by
      unfold wordStep
      rw [hc, hv]
      simp only [Bool.false_eq_true, if_false, ite_self]
    rw [hstep]
    simp only
    rw [ih t (p + 1) v hsep hv (fun x hx => hw x (List.mem_cons_of_mem _ hx)) hm.tail]
    congr 1
    simp only [List.length_cons]
    push_cast
    omega

/-- A word that begins behind white space is recorded with its start offset. -/
theorem scanCursor_word (s : Settings) (start : Int) (hs : s.m_editorStopNextWord = true)
    (w t : QString) (p : Int) (hp : 0 ≤ p) (hne : w ≠ [])
    (hw : ∀ x ∈ w, isSpace x = false) (hm : NoMarkWithin w t) :
    scanCursor s start (w ++ t) p ⟨false, true, -1⟩ =
      scanCursor s start t (p + (w.length : Int)) ⟨false, true, p⟩ := by
  cases w with
  | nil => exact absurd rfl hne
  | cons c w =>
    have hc := hw c (List.mem_cons_self _ _)
    rw [List.cons_append, scanCursor_cons,
      cursorStep_plain s start c (w ++ t) p _ hm.head rfl (isCRLF_of_not_isSpace c hc)]
    have hstep : wordStep s c p ⟨false, true, -1⟩ = .advance ⟨false, true, p⟩ := by
      unfold wordStep
      rw [hs, hc]
      simp
    rw [hstep]
    simp only
    have hv : ((⟨false, true, p⟩ : CursorScan).tagged_word_ended &&
        (⟨false, true, p⟩ : CursorScan).word_start_offset == -1) = false := by
      simp only [Bool.true_and, beq_eq_false_iff_ne, ne_eq]
      omega
    rw [scanCursor_nonspace_run s start w t (p + 1) _ rfl hv
      (fun x hx => hw x (List.mem_cons_of_mem _ hx)) hm.tail]
    congr 1
    simp only [List.length_cons]
    push_cast
    omega

/-- White space that is no line separator, while no word is recorded, only sets
the flag that the tagged word has ended. -/
theorem scanCursor_space_run (s : Settings) (start : Int) (hs : s.m_editorStopNextWord = true) :
    ∀ (sp t : QString) (p : Int) (b : Bool),
    (∀ x ∈ sp, isSpace x = true ∧ isCRLF x = false) →
    scanCursor s start (sp ++ t) p ⟨false, b, -1⟩ =
      scanCursor s start t (p + (sp.length : Int)) ⟨false, b || !sp.isEmpty, -1⟩ := by
  intro sp
  induction sp with
  | nil => intro t p b _; simp
  | cons c sp ih =>
    intro t p b hsp
    have hc := hsp c (List.mem_cons_self _ _)
    rw [List.cons_append, scanCursor_cons,
      cursorStep_plain s start c (sp ++ t) p _
        (isTimingMark_of_head_ne c _ (ne_bracket_of_isSpace c hc.1)) rfl hc.2]
    have hstep : wordStep s c p ⟨false, b, -1⟩ = .advance ⟨false, true, -1⟩ := by
      unfold wordStep
      rw [hs, hc.1]
      simp
    rw [hstep]
    simp only
    rw [ih t (p + 1) true (fun x hx => hsp x (List.mem_cons_of_mem _ hx))]
    simp only [List.length_cons, Bool.true_or, List.isEmpty_cons, Bool.not_false, Bool.or_true]
    congr 1
    push_cast
    omega

/-- White space behind a word of at most `m_editorWordChars` characters forgets
the word. -/
theorem scanCursor_short_word_end (s : Settings) (start : Int)
    (hs : s.m_editorStopNextWord = true) (c : Char) (t : QString) (p q : Int) (hq : q ≠ -1)
    (hc : isSpace c = true) (hcr : isCRLF c = false) (hlen : p - q ≤ s.m_editorWordChars) :
    scanCursor s start (c :: t) p ⟨false, true, q⟩ =
      scanCursor s start t (p + 1) ⟨false, true, -1⟩ := by
  rw [scanCursor_cons, cursorStep_plain s start c t p _
    (isTimingMark_of_head_ne c _ (ne_bracket_of_isSpace c hc)) rfl hcr]
  have hstep : wordStep s c p ⟨false, true, q⟩ = .advance ⟨false, true, -1⟩ := by
    unfold wordStep
    rw [hs, hc]
    simp only [if_true, ne_eq, hq, not_false_eq_true]
    rw [if_neg (by omega)]
  rw [hstep]

/-- White space behind a word of more than `m_editorWordChars` characters rolls
the cursor back to the start of the word, unless the white space is a line
separator and the policy stops at the line end. -/
theorem scanCursor_long_word_end (s : Settings) (start : Int)
    (hs : s.m_editorStopNextWord = true) (c : Char) (t : QString) (p q : Int) (hq : q ≠ -1)
    (hc : isSpace c = true) (hcr : isCRLF c = true → s.m_editorStopAtLineEnd = false)
    (hlen : s.m_editorWordChars < p - q) :
    scanCursor s start (c :: t) p ⟨false, true, q⟩ = q := by
  rw [scanCursor_cons]
  have hm := isTimingMark_of_head_ne c t (ne_bracket_of_isSpace c hc)
  have hsp : isSpace (currentChar c) = true := by
    unfold currentChar
    split
    · decide
    · exact hc
  have hword : ∀ b : Bool, wordStep s (currentChar c) p ⟨b, true, q⟩ = .leave q := by
    intro b
    unfold wordStep
    rw [hs, hsp]
    simp only [if_true, ne_eq, hq, not_false_eq_true]
    rw [if_pos (by omega)]
  have hstep : cursorStep s start c t p ⟨false, true, q⟩ = .leave q := by
    unfold cursorStep
    rw [hm]
    simp only [Bool.false_eq_true, if_false]
    split
    · rename_i hcrlf
      rw [isCRLF_currentChar] at hcrlf
      rw [hcr hcrlf]
      simp only [Bool.and_false, Bool.false_eq_true, if_false]
      exact hword true
    · exact hword false
  rw [hstep]

/-- A run of words of at most `m_editorWordChars` characters, each followed by
white space that is no line separator, is passed over. -/
theorem scanCursor_wordRun (s : Settings) (start : Int) (hs : s.m_editorStopNextWord = true) :
    ∀ (G : List (QString × QString)) (t : QString) (p : Int), 0 ≤ p →
    (∀ g ∈ G, g.1 ≠ [] ∧ (∀ x ∈ g.1, isSpace x = false) ∧
      (g.1.length : Int) ≤ s.m_editorWordChars ∧ g.2 ≠ [] ∧
      ∀ x ∈ g.2, isSpace x = true ∧ isCRLF x = false) →
    NoMarkWithin (wordRun G) t →
    scanCursor s start (wordRun G ++ t) p ⟨false, true, -1⟩ =
      scanCursor s start t (p + ((wordRun G).length : Int)) ⟨false, true, -1⟩ := by
  intro G
  induction G with
  | nil => intro t p _ _ _; simp [wordRun]
  | cons g G ih =>
    intro t p hp hG hm
    obtain ⟨hne, hw, hlen, hsne, hsp⟩ := hG g (List.mem_cons_self _ _)
    have hm1 : NoMarkWithin g.1 (g.2 ++ (wordRun G ++ t)) := by
      have := NoMarkWithin.left hm
      rwa [List.append_assoc] at this
    have hm2 : NoMarkWithin (wordRun G) t := (NoMarkWithin.right hm).right
    have e : wordRun (g :: G) ++ t = g.1 ++ (g.2 ++ (wordRun G ++ t)) := by
      simp only [wordRun, List.append_assoc]
    rw [e, scanCursor_word s start hs g.1 _ p hp hne hw hm1]
    cases hg2 : g.2 with
    | nil => exact absurd hg2 hsne
    | cons c sp =>
      rw [hg2] at hsp
      have hc := hsp c (List.mem_cons_self _ _)
      rw [List.cons_append, scanCursor_short_word_end s start hs c _ _ p (by omega) hc.1 hc.2
        (by omega),
        scanCursor_space_run s start hs sp _ _ true
          (fun x hx => hsp x (List.mem_cons_of_mem _ hx)),
        Bool.true_or, ih t _ (by omega) (fun g hg => hG g (List.mem_cons_of_mem _ hg)) hm2]
      congr 1
      simp only [wordRun, hg2, List.length_append, List.length_cons]
      push_cast
      omega

theorem noMarkWithin_of_spec (seg t : QString)
    (h : ∀ pre mark suf : QString, IsTimingMark mark → seg ++ t = pre ++ (mark ++ suf) →
      seg.length ≤ pre.length) : NoMarkWithin seg t := by
  intro a b e hb
  cases hm : isTimingMark (blockRest (b ++ t)) with
  | false => rfl
  | true =>
    exfalso
    unfold isTimingMark at hm
    obtain ⟨len, hlen⟩ := Option.isSome_iff_exists.1 hm
    obtain ⟨mark, r, hmk, hr, _⟩ := mark_of_timingMarkLength _ len hlen
    obtain ⟨r', hr'⟩ := blockRest_prefix (b ++ t)
    have e2 : b ++ t = mark ++ (r ++ r') := by
      rw [← List.append_assoc, ← hr]; exact hr'
    have h1 := h a mark (r ++ r') hmk (by rw [e, List.append_assoc, e2])
    have h2 : seg.length = a.length + b.length := by rw [e, List.length_append]
    have h3 : 0 < b.length := List.length_pos.2 hb
    omega

theorem IsTimingMark.mem_bracket {mark : QString} (h : IsTimingMark mark) : '[' ∈ mark := by
  rcases h with rfl | ⟨a, b, c, _, _, _, _, _, _, rfl⟩
  · decide
  · exact List.mem_cons_self _ _

theorem not_mark_of_not_mem (t : QString) (h : '[' ∉ t) (pre mark suf : QString)
    (hm : IsTimingMark mark) (e : t = pre ++ (mark ++ suf)) : False := by
  apply h
  rw [e]
  exact List.mem_append_right _ (List.mem_append_left _ hm.mem_bracket)

/-- C12 (amended): with the stop-at-next-word policy, let the text from the start
offset on be `w0 ++ sp0 ++ wordRun G ++ long ++ c :: rest`, where `w0` (the rest
of the word at the cursor) has no white space, `sp0` is a non-empty run of white
space, `G` is a run of words of at most `m_editorWordChars` characters, each
followed by white space, `long` is a word of more than `m_editorWordChars`
characters, and `c` is a white-space character behind it; no white space before
`c` is a line separator, `c` is one only if the stop-at-line-end policy is off,
and no timing mark begins before `c`. Then the cursor scan returns the start
offset of `long`. -/
theorem cursorScan_wordSkip (s : Settings) (text : QString) (start : Nat) (w0 sp0 : QString)
    (G : List (QString × QString)) (long : QString) (c : Char) (rest : QString)
    (hs : s.m_editorStopNextWord = true)
    (ht : text.drop start = w0 ++ (sp0 ++ (wordRun G ++ (long ++ c :: rest))))
    (hw0 : ∀ x ∈ w0, isSpace x = false)
    (hsp0 : sp0 ≠ [] ∧ ∀ x ∈ sp0, isSpace x = true ∧ isCRLF x = false)
    (hG : ∀ g ∈ G, g.1 ≠ [] ∧ (∀ x ∈ g.1, isSpace x = false) ∧
      (g.1.length : Int) ≤ s.m_editorWordChars ∧ g.2 ≠ [] ∧
      ∀ x ∈ g.2, isSpace x = true ∧ isCRLF x = false)
    (hlong : long ≠ [] ∧ (∀ x ∈ long, isSpace x = false) ∧
      s.m_editorWordChars < (long.length : Int))
    (hc : isSpace c = true ∧ (isCRLF c = true → s.m_editorStopAtLineEnd = false))
    (hmark : ∀ pre mark suf : QString, IsTimingMark mark →
      text.drop start = pre ++ (mark ++ suf) →
      (w0 ++ (sp0 ++ (wordRun G ++ long))).length ≤ pre.length) :
    cursorScan s text start =
      (start : Int) + (w0.length : Int) + (sp0.length : Int) + ((wordRun G).length : Int) := by
  have hm : NoMarkWithin (w0 ++ (sp0 ++ (wordRun G ++ long))) (c :: rest) := by
    apply noMarkWithin_of_spec
    intro pre mark suf hmk e
    apply hmark pre mark suf hmk
    rw [ht, ← e]
    simp only [List.append_assoc]
  have hm0 : NoMarkWithin w0 (sp0 ++ (wordRun G ++ (long ++ c :: rest))) := by
    have := NoMarkWithin.left hm
    simpa only [List.append_assoc] using this
  have hmG : NoMarkWithin (wordRun G) (long ++ c :: rest) := by
    have := NoMarkWithin.left (NoMarkWithin.right (NoMarkWithin.right hm))
    exact this
  have hmL : NoMarkWithin long (c :: rest) :=
    NoMarkWithin.right (NoMarkWithin.right (NoMarkWithin.right hm))
  have hsp0e : sp0.isEmpty = false := by
    cases sp0 with
    | nil => exact absurd rfl hsp0.1
    | cons _ _ => rfl
  unfold cursorScan
  rw [ht]
  change scanCursor s start _ start ⟨false, false, -1⟩ = _
  rw [scanCursor_nonspace_run s start w0 _ start ⟨false, false, -1⟩ rfl rfl hw0 hm0,
    scanCursor_space_run s start hs sp0 _ _ false hsp0.2, hsp0e,
    Bool.not_false, Bool.false_or,
    scanCursor_wordRun s start hs G _ _ (by omega) hG hmG,
    scanCursor_word s start hs long _ _ (by omega) hlong.1 hlong.2.1 hmL,
    scanCursor_long_word_end s start hs c rest _ _ (by omega) hc.1 hc.2 (by omega)]

/-- C12 at the buffer `hi longword more` with at most 3 characters per short
word, scanned from offset 0: the result is offset 3, the start of `longword`;
and at the buffer `hi to longword more`, where the short word `to` is passed
over: the result is offset 6. -/
theorem cursorScan_wordSkip_witness :
    wordSkipSettings.m_editorStopNextWord = true ∧
    wordSkipExample.drop 0 = ['h', 'i'] ++ ([' '] ++ (wordRun [] ++
      (['l', 'o', 'n', 'g', 'w', 'o', 'r', 'd'] ++ ' ' :: ['m', 'o', 'r', 'e']))) ∧
    cursorScan wordSkipSettings wordSkipExample 0 = 3 ∧
    shortWordExample.drop 0 = ['h', 'i'] ++ ([' '] ++ (wordRun [(['t', 'o'], [' '])] ++
      (['l', 'o', 'n', 'g', 'w', 'o', 'r', 'd'] ++ ' ' :: ['m', 'o', 'r', 'e']))) ∧
    cursorScan wordSkipSettings shortWordExample 0 = 6 :=
  ⟨rfl, rfl,
    (cursorScan_wordSkip wordSkipSettings wordSkipExample 0 ['h', 'i'] [' '] []
      ['l', 'o', 'n', 'g', 'w', 'o', 'r', 'd'] ' ' ['m', 'o', 'r', 'e'] rfl rfl
      (by decide) (by decide) (by decide) (by decide) (by decide)
      (fun pre mark suf hm e =>
        (not_mark_of_not_mem _ (by decide) pre mark suf hm e).elim)).trans (by decide),
    rfl,
    (cursorScan_wordSkip wordSkipSettings shortWordExample 0 ['h', 'i'] [' ']
      [(['t', 'o'], [' '])]
      ['l', 'o', 'n', 'g', 'w', 'o', 'r', 'd'] ' ' ['m', 'o', 'r', 'e'] rfl rfl
      (by decide) (by decide) (by decide) (by decide) (by decide)
      (fun pre mark suf hm e =>
        (not_mark_of_not_mem _ (by decide) pre mark suf hm e).elim)).trans (by decide)⟩

/-- C12 as stated fails when the long word ends the text: in `hi longword`, with
at most 3 characters per short word, there is no timing mark and no line
separator, the first word behind the first white space is `longword` at offset
3, and the scan from offset 0 returns 11, the end of the text. -/
theorem cursorScan_wordSkip_counterexample :
    wordSkipSettings.m_editorStopNextWord = true ∧ wordSkipSettings.m_editorWordChars = 3 ∧
    wordAtEndExample = ['h', 'i'] ++ [' '] ++ ['l', 'o', 'n', 'g', 'w', 'o', 'r', 'd'] ∧
    '[' ∉ wordAtEndExample ∧ (∀ x ∈ wordAtEndExample, isCRLF x = false) ∧
    cursorScan wordSkipSettings wordAtEndExample 0 = 11 ∧
    cursorScan wordSkipSettings wordAtEndExample 0 ≠ 3 := by
  decide

/-! ## Lemmas: the fragments of a line -/

theorem split_join (sep : Char) : ∀ s : QString,
    s = (split sep s).headD [] ++ ((split sep s).tail.map (fun part => sep :: part)).flatten := by
  intro s
  induction s with
  | nil => simp [split]
  | cons c cs ih =>
    rw [split_cons_eq]
    cases hs : split sep cs with
    | nil => exact absurd hs (split_ne_nil sep cs)
    | cons p ps =>
      rw [hs] at ih
      simp only [List.headD_cons, List.tail_cons] at ih
      by_cases h : c = sep
      · simp only [h, if_true, List.headD_cons, List.tail_cons, List.nil_append, List.map_cons,
          List.flatten_cons, List.cons_append]
        rw [← ih]
      · simp only [h, if_false, List.headD_cons, List.tail_cons, List.cons_append]
        rw [← ih]

theorem not_mem_of_mem_split (sep : Char) : ∀ (s part : QString), part ∈ split sep s →
    sep ∉ part := by
  intro s
  induction s with
  | nil =>
    intro part hp
    simp only [split, List.mem_singleton] at hp
    subst hp; simp
  | cons c cs ih =>
    intro part hp
    rw [split_cons_eq] at hp
    cases hs : split sep cs with
    | nil => exact absurd hs (split_ne_nil sep cs)
    | cons p ps =>
      rw [hs] at hp ih
      by_cases h : c = sep
      · simp only [h, if_true, List.mem_cons] at hp
        rcases hp with rfl | hp
        · simp
        · exact ih part (List.mem_cons.2 hp)
      · simp only [h, if_false, List.headD_cons, List.tail_cons, List.mem_cons] at hp
        rcases hp with rfl | hp
        · have := ih p (List.mem_cons_self _ _)
          simp only [List.mem_cons, not_or]
          exact ⟨fun e => h e.symm, this⟩
        · exact ih part (List.mem_cons_of_mem _ hp)

theorem first_occurrence (ch : Char) : ∀ part : QString, ch ∈ part →
    ∃ acc r, part = acc ++ ch :: r ∧ ch ∉ acc := by
  intro part
  induction part with
  | nil => intro h; simp at h
  | cons c cs ih =>
    intro h
    by_cases hc : c = ch
    · exact ⟨[], cs, by rw [hc]; rfl, by simp⟩
    · have hm : ch ∈ cs := by
        rcases List.mem_cons.1 h with e | e
        · exact absurd e.symm hc
        · exact e
      obtain ⟨acc, r, e, hn⟩ := ih hm
      refine ⟨c :: acc, r, by rw [e]; rfl, ?_⟩
      simp only [List.mem_cons, not_or]
      exact ⟨fun e => hc e.symm, hn⟩

theorem midFrom_indexOf_append (acc r : QString) (ch : Char) (h : ch ∉ acc) :
    midFrom (acc ++ ch :: r) (indexOf (acc ++ ch :: r) ch + 1) = r := by
  rw [indexOf_append acc r ch h]
  unfold midFrom
  have : ((acc.length : Int) + 1).toNat = acc.length + 1 := by omega
  rw [this]
  have : acc ++ ch :: r = (acc ++ [ch]) ++ r := by simp
  rw [this]
  have : acc.length + 1 = (acc ++ [ch]).length := by simp
  rw [this, List.drop_left]

theorem rxtime_no_bracket (t : QString) (h : (rxtime t).isSome = true) :
    '[' ∉ t ∧ ']' ∉ t := by
  obtain ⟨⟨a, b, c⟩, ht⟩ := Option.isSome_iff_exists.1 h
  obtain ⟨rfl, _, _, _, ha, hb, hc⟩ := (rxtime_eq_some_iff t a b c).1 ht
  have n1 := fun x hx => not_mem_of_digits a ha x hx
  have n2 := fun x hx => not_mem_of_digits b hb x hx
  have n3 := fun x hx => not_mem_of_digits c hc x hx
  constructor
  · simp [n1 '[' (by decide), n2 '[' (by decide), n3 '[' (by decide)]
  · simp [n1 ']' (by decide), n2 ']' (by decide), n3 ']' (by decide)]

/-- The fragments of the line `[t1]x1...[tk]xk` behind a text without `'['`. -/
theorem split_renderSyllables : ∀ (syls : List (QString × QString)) (u : QString), '[' ∉ u →
    (∀ s ∈ syls, '[' ∉ s.1 ∧ '[' ∉ s.2) →
    split '[' (u ++ renderSyllables syls) = u :: syls.map (fun s => s.1 ++ ']' :: s.2) := by
  intro syls
  induction syls with
  | nil =>
    intro u hu _
    simp only [renderSyllables, List.append_nil, List.map_nil]
    exact split_of_not_mem _ _ hu
  | cons s rest ih =>
    intro u hu hs
    have h1 := hs s (List.mem_cons_self _ _)
    have hu' : '[' ∉ s.1 ++ ']' :: s.2 := by
      simp only [List.mem_append, List.mem_cons, not_or]
      exact ⟨h1.1, by decide, h1.2⟩
    have e : s.1 ++ ']' :: (s.2 ++ renderSyllables rest) =
        (s.1 ++ ']' :: s.2) ++ renderSyllables rest := by simp
    rw [renderSyllables, split_append_sep _ _ _ hu, e,
      ih _ hu' (fun x hx => hs x (List.mem_cons_of_mem _ hx))]
    rfl

/-- The line `[t1]x1...[tk]xk` contributes the syllables `(decode(ti), xi)`, in
order, and its first fragment is empty. -/
theorem lineSyllables_render (syls : List (QString × QString))
    (hs : ∀ s ∈ syls, '[' ∉ s.1 ∧ ']' ∉ s.1 ∧ '[' ∉ s.2) :
    (split '[' (renderSyllables syls)).headD [] = [] ∧
      lineSyllables (renderSyllables syls) = syls.map fun s => ⟨infoToMark s.1, s.2⟩ := by
  have h := split_renderSyllables syls [] (by simp) (fun s h => ⟨(hs s h).1, (hs s h).2.2⟩)
  rw [List.nil_append] at h
  unfold lineSyllables
  rw [h]
  refine ⟨rfl, ?_⟩
  simp only [List.tail_cons, List.map_map]
  apply List.map_congr_left
  intro s hmem
  simp only [Function.comp]
  rw [left_indexOf_append _ _ _ (hs s hmem).2.1, midFrom_indexOf_append _ _ _ (hs s hmem).2.1]

/-- On a line that the column loop passes without error and leaves outside a
tag, every fragment behind a `'['` contains a `']'`. -/
theorem scanColumns_closed (linenumber : Int) (line : QString) : ∀ (rest : QString) (col : Nat)
    (st : TagState), (scanColumns linenumber line rest col st).1 = [] →
    (scanColumns linenumber line rest col st).2.in_time_tag = false →
    (st.in_time_tag = true → ']' ∈ (split '[' rest).headD []) ∧
      ∀ part ∈ (split '[' rest).tail, ']' ∈ part := by
  intro rest
  induction rest with
  | nil =>
    intro col st _ hfin
    have hin : st.in_time_tag = false := by simpa [scanColumns] using hfin
    simp [split, hin]
  | cons ch rest ih =>
    intro col st herr hfin
    rw [split_cons_eq]
    cases hs : split '[' rest with
    | nil => exact absurd hs (split_ne_nil _ rest)
    | cons p ps =>
      unfold scanColumns at herr hfin
      by_cases hin : st.in_time_tag = true
      · by_cases hc : ch = ']'
        · simp only [hin, hc, if_true, List.append_eq_nil] at herr hfin
          have := ih _ _ herr.2 hfin
          rw [hs] at this
          have hne : ¬ (']' = '[') := by decide
          simp only [hc, hne, if_false, List.headD_cons, List.tail_cons, List.mem_cons,
            true_or, implies_true, true_and]
          exact this.2
        · by_cases hd : (!isDigit ch && ch != ':' && ch != '.') = true
          · simp [hin, hc, hd] at herr
          · simp only [hin, hc, hd, if_true, if_false] at herr hfin
            have := ih _ _ herr hfin
            rw [hs] at this
            have hne : ch ≠ '[' := (tagChar_ne ch hd).2
            simp only [hne, if_false, List.headD_cons, List.tail_cons, List.mem_cons]
            exact ⟨fun _ => Or.inr (this.1 hin), this.2⟩
      · by_cases hc : ch = '['
        · simp only [hin, hc, if_true, if_false] at herr hfin
          have := ih _ _ herr hfin
          rw [hs] at this
          simp only [hc, if_true, List.headD_cons, List.tail_cons, List.mem_cons]
          refine ⟨fun h => absurd h hin, ?_⟩
          rintro part (rfl | hp)
          · exact this.1 rfl
          · exact this.2 part hp
        · by_cases hc2 : ch = ']'
          · simp [hin, hc, hc2] at herr
          · simp only [hin, hc, hc2, if_false] at herr hfin
            have := ih _ _ herr hfin
            rw [hs] at this
            simp only [hc, if_false, List.headD_cons, List.tail_cons]
            exact ⟨fun h => absurd h hin, this.2⟩

/-- In a document without errors every line that is not blank passes the checks
of `validateTextLine` without error, in some state of the line loop. -/
theorem validateLines_nil_line (ctx : Context) : ∀ (lines : List QString) (n : Int)
    (st : DocState), validateLines ctx lines n st = [] →
    ∀ line ∈ lines, (trimmed line).isEmpty = false →
      ∃ (m : Int) (st' : DocState), (validateTextLine ctx m line st').1 = [] := by
  intro lines
  induction lines with
  | nil => intro n st _ line hl; simp at hl
  | cons l rest ih =>
    intro n st h line hl hb
    simp only [validateLines, List.append_eq_nil] at h
    rcases List.mem_cons.1 hl with rfl | hl
    · have h1 := h.1
      simp only [validateLine, hb, Bool.false_eq_true, if_false] at h1
      exact ⟨n, st, h1⟩
    · exact ih _ _ h.2 line hl hb

/-- What a line without errors looks like to `exportLyrics`. -/
theorem validateTextLine_fragments (ctx : Context) (n : Int) (line : QString) (st : DocState)
    (h : (validateTextLine ctx n line st).1 = []) :
    (split '[' line).headD [] = [] ∧ (split '[' line).tail ≠ [] ∧
      ∀ part ∈ (split '[' line).tail,
        ']' ∈ part ∧ (rxtime (left part (indexOf part ']'))).isSome = true := by
  obtain ⟨h1, h2⟩ := validateTextLine_nil ctx n line st h
  have hclosed := (scanColumns_closed n line line 0 _ h1 h2).2
  have htags := scanColumns_tags n line line 0 _ rfl (by intro hh; simp at hh) h1 h2
  simp only [Bool.false_eq_true, if_false] at htags
  have hhead : line.head? = some '[' := by
    unfold validateTextLine at h
    simp only [List.append_eq_nil] at h
    by_contra hne
    have := h.1.1.1.2
    rw [if_pos hne] at this
    exact absurd this (by simp)
  refine ⟨?_, ?_, ?_⟩
  · cases line with
    | nil => simp at hhead
    | cons c cs =>
      simp only [List.head?_cons, Option.some.injEq] at hhead
      rw [split_cons_eq, if_pos hhead]
      rfl
  · cases line with
    | nil => simp at hhead
    | cons c cs =>
      simp only [List.head?_cons, Option.some.injEq] at hhead
      rw [split_cons_eq, if_pos hhead]
      exact split_ne_nil _ _
  · intro part hp
    refine ⟨hclosed part hp, ?_⟩
    have hm : left part (indexOf part ']') ∈
        (split '[' line).tail.map (fun part => left part (indexOf part ']')) :=
      List.mem_map.2 ⟨part, hp, rfl⟩
    rw [← htags, List.mem_map] at hm
    obtain ⟨t, ht, hte⟩ := hm
    rw [← hte]
    exact scannedTags_wellFormed n line _ _ _ _ t ht

/-- The inner loop of `exportLyrics` adds one syllable per fragment to the
current line. -/
theorem exportParts_line : ∀ (parts : List QString) (blocks : List Block) (block : Block)
    (line : Line),
    exportParts parts ⟨blocks, block, line, 0, []⟩ =
      ⟨blocks, block, line ++ parts.map (fun part =>
        (⟨infoToMark (left part (indexOf part ']')), midFrom part (indexOf part ']' + 1)⟩ :
          Syllable)), 0, []⟩ := by
  intro parts
  induction parts with
  | nil => intro blocks block line; simp [exportParts]
  | cons part parts ih =>
    intro blocks block line
    simp only [exportParts, curLyricAdd, curLyricAppendText, curLyricSetTime, List.nil_append,
      List.map_cons]
    rw [ih]
    simp

/-- When every line that is not blank starts with a tag, the outer loop of
`exportLyrics` never aborts, and the model it builds is `documentBlocks`. -/
theorem exportLines_documentBlocks : ∀ (lines : List QString) (blocks : List Block)
    (block : Block),
    (∀ line ∈ lines, (trimmed line).isEmpty = false →
      (split '[' line).headD [] = [] ∧ (split '[' line).tail ≠ []) →
    ∃ b, exportLines lines ⟨blocks, block, [], 0, []⟩ = some b ∧
      endLyrics b = documentBlocks lines blocks block := by
  intro lines
  induction lines with
  | nil =>
    intro blocks block _
    exact ⟨_, rfl, rfl⟩
  | cons line lines ih =>
    intro blocks block h
    have hrest := fun l hl => h l (List.mem_cons_of_mem _ hl)
    by_cases hb : (trimmed line).isEmpty = true
    · obtain ⟨b, hb1, hb2⟩ := ih (blocks ++ [block]) [] hrest
      refine ⟨b, ?_, ?_⟩
      · simp only [exportLines, hb, if_true]
        exact hb1
      · simp only [documentBlocks, hb, if_true]
        exact hb2
    · have hb' : (trimmed line).isEmpty = false := by simpa using hb
      obtain ⟨hh, ht⟩ := h line (List.mem_cons_self _ _) hb'
      obtain ⟨b, hb1, hb2⟩ := ih blocks (block ++ [lineSyllables line]) hrest
      have hl : (lineSyllables line).isEmpty = false := by
        unfold lineSyllables
        cases hs : (split '[' line).tail with
        | nil => exact absurd hs ht
        | cons p ps => rfl
      refine ⟨b, ?_, ?_⟩
      · simp only [exportLines, hb', Bool.false_eq_true, if_false, hh, List.isEmpty_nil,
          Bool.not_true]
        rw [exportParts_line]
        simp only [List.nil_append]
        have e : curLyricAddEndOfLine ⟨blocks, block, lineSyllables line, 0, []⟩ =
            ⟨blocks, block ++ [lineSyllables line], [], 0, []⟩ := by
          unfold curLyricAddEndOfLine
          simp only [hl, Bool.false_eq_true, if_false]
        unfold lineSyllables at e
        rw [e]
        exact hb1
      · simp only [documentBlocks, hb', Bool.false_eq_true, if_false]
        exact hb2

/-- The tags and texts of a line whose fragments behind the first all contain a
`']'`. -/
theorem renderSyllables_fragments : ∀ parts : List QString, (∀ part ∈ parts, ']' ∈ part) →
    renderSyllables (parts.map fun part =>
      (left part (indexOf part ']'), midFrom part (indexOf part ']' + 1))) =
      (parts.map (fun part => '[' :: part)).flatten := by
  intro parts
  induction parts with
  | nil => intro _; rfl
  | cons part parts ih =>
    intro h
    obtain ⟨acc, r, e, hn⟩ := first_occurrence ']' part (h part (List.mem_cons_self _ _))
    simp only [List.map_cons, renderSyllables, List.flatten_cons, List.cons_append]
    rw [ih (fun p hp => h p (List.mem_cons_of_mem _ hp))]
    congr 1
    rw [e, left_indexOf_append _ _ _ hn, midFrom_indexOf_append _ _ _ hn]
    simp

/-- C20: for every document on which `validate` reports no error, in every line
that is not blank the first fragment of the split at `'['` is empty, every other
fragment contains a `']'` and its bracketed prefix decodes (`infoToMark` does
not return `-1`), and the line is `[t1]x1...[tk]xk` for well-formed tags `ti`
and texts `xi` without `'['`, with `k ≥ 1`, contributing the `k` syllables
`(infoToMark ti, xi)` in order; `exportLyrics` does not take its abort branch,
and the model it returns has these syllable lines, each blank line closing the
current block. -/
theorem exportLyrics_of_valid (ctx : Context) (text : QString) (h : validate ctx text = []) :
    (∀ line ∈ split '\n' text, (trimmed line).isEmpty = false →
      (split '[' line).headD [] = [] ∧
      (∀ part ∈ (split '[' line).tail,
        ']' ∈ part ∧ infoToMark (left part (indexOf part ']')) ≠ -1) ∧
      ∃ syls : List (QString × QString), syls ≠ [] ∧ line = renderSyllables syls ∧
        (∀ s ∈ syls, (rxtime s.1).isSome = true ∧ '[' ∉ s.2) ∧
        lineSyllables line = syls.map fun s => ⟨infoToMark s.1, s.2⟩) ∧
    (exportLines (split '\n' text) beginLyrics).isSome = true ∧
    exportLyrics ctx text = documentBlocks (split '\n' text) [] [] := by
  have hv : validateLines ctx (split '\n' text) 1
      { linesinblock := 0, last_time := 0, paragraphtext := [] } = [] := h
  have hline : ∀ line ∈ split '\n' text, (trimmed line).isEmpty = false →
      (split '[' line).headD [] = [] ∧ (split '[' line).tail ≠ [] ∧
      ∀ part ∈ (split '[' line).tail,
        ']' ∈ part ∧ (rxtime (left part (indexOf part ']'))).isSome = true := by
    intro line hl hb
    obtain ⟨m, st', hm⟩ := validateLines_nil_line ctx _ _ _ hv line hl hb
    exact validateTextLine_fragments ctx m line st' hm
  obtain ⟨b, hb1, hb2⟩ := exportLines_documentBlocks (split '\n' text) [] []
    (fun line hl hb => ⟨(hline line hl hb).1, (hline line hl hb).2.1⟩)
  refine ⟨?_, ?_, ?_⟩
  · intro line hl hb
    obtain ⟨h1, h2, h3⟩ := hline line hl hb
    refine ⟨h1, fun part hp => ⟨(h3 part hp).1, (infoToMark_ne_iff _).2 (h3 part hp).2⟩, ?_⟩
    have hsyl : ∀ s ∈ (split '[' line).tail.map (fun part =>
        (left part (indexOf part ']'), midFrom part (indexOf part ']' + 1))),
        (rxtime s.1).isSome = true ∧ '[' ∉ s.2 := by
      intro s hs
      obtain ⟨part, hp, rfl⟩ := List.mem_map.1 hs
      refine ⟨(h3 part hp).2, ?_⟩
      have hn : '[' ∉ part := not_mem_of_mem_split '[' line part (List.mem_of_mem_tail hp)
      intro hm
      exact hn (List.mem_of_mem_drop hm)
    have hrender : line = renderSyllables ((split '[' line).tail.map (fun part =>
        (left part (indexOf part ']'), midFrom part (indexOf part ']' + 1)))) := by
      rw [renderSyllables_fragments _ (fun part hp => (h3 part hp).1)]
      have := split_join '[' line
      rw [h1, List.nil_append] at this
      exact this
    refine ⟨_, ?_, hrender, hsyl, ?_⟩
    · intro e
      exact h2 (List.map_eq_nil_iff.1 e)
    · have := (lineSyllables_render _ (fun s hs =>
        ⟨(rxtime_no_bracket _ (hsyl s hs).1).1, (rxtime_no_bracket _ (hsyl s hs).1).2,
          (hsyl s hs).2⟩)).2
      rw [← hrender] at this
      exact this
  · change (exportLines (split '\n' text) ⟨[], [], [], 0, []⟩).isSome = true
    rw [hb1]; rfl
  · unfold exportLyrics validateOk
    rw [h]
    simp only [List.isEmpty_nil, Bool.not_true, Bool.false_eq_true, if_false]
    change (match exportLines (split '\n' text) ⟨[], [], [], 0, []⟩ with
      | none => []
      | some b => endLyrics b) = _
    rw [hb1]
    exact hb2

/-- C20 at the document `[00:01.00]la[00:02.00]` / `[00:03.00]x`: one block of
two lines, with the syllables `(1000, la)`, `(2000, )` and `(3000, x)`. -/
theorem exportLyrics_of_valid_witness :
    validate exampleContext validExample = [] ∧
    exportLyrics exampleContext validExample =
      [[[⟨1000, ['l', 'a']⟩, ⟨2000, []⟩], [⟨3000, ['x']⟩]]] ∧
    exportLyrics exampleContext validExample = documentBlocks (split '\n' validExample) [] [] :=
  ⟨by decide, by decide, (exportLyrics_of_valid exampleContext validExample (by decide)).2.2⟩

/-! ## Removal of extra white space -/

theorem join_split (sep : Char) : ∀ s : QString, join sep (split sep s) = s := by
  intro s
  induction s with
  | nil => rfl
  | cons c cs ih =>
    rw [split_cons_eq]
    cases hs : split sep cs with
    | nil => exact absurd hs (split_ne_nil sep cs)
    | cons p ps =>
      rw [hs] at ih
      by_cases h : c = sep
      · rw [if_pos h, join, ih, h]
        rfl
      · rw [if_neg h]
        simp only [List.headD_cons, List.tail_cons]
        cases ps with
        | nil =>
          simp only [join] at ih ⊢
          rw [ih]
        | cons q qs =>
          simp only [join] at ih ⊢
          rw [← ih]
          rfl

theorem trimLoop_lyrics : ∀ (elements : List QString) (st : TrimState),
    (trimLoop elements st).lyrics = st.lyrics := by
  intro elements
  induction elements with
  | nil => intro st; rfl
  | cons e rest ih => intro st; rw [trimLoop, ih]

/-- C23 fails on the code: for every text, `removeExtraWhitespace` sets the text
it read, unchanged; whenever trimming the lines would change the text, what it
sets is not the text of the trimmed lines. -/
theorem removeExtraWhitespace_unchanged (text : QString) :
    removeExtraWhitespace text = text ∧
      (trimmedLines text ≠ text → removeExtraWhitespace text ≠ trimmedLines text) := by
  have h : removeExtraWhitespace text = text := by
    unfold removeExtraWhitespace
    simp only [trimLoop_lyrics]
    exact join_split '\n' text
  refine ⟨h, fun hne => ?_⟩
  rw [h]
  exact fun e => hne e.symm

/-- C23 at the text ` a `: the claim asks for `a`, the text set is ` a `. -/
theorem removeExtraWhitespace_unchanged_witness :
    trimmedLines paddedExample = ['a'] ∧ trimmedLines paddedExample ≠ paddedExample ∧
    removeExtraWhitespace paddedExample = [' ', 'a', ' '] ∧
    removeExtraWhitespace paddedExample ≠ trimmedLines paddedExample :=
  ⟨by decide, by decide, by decide,
    (removeExtraWhitespace_unchanged paddedExample).2 (by decide)⟩

/-! ## The cursor scan ends and stays inside the text -/

/-- The cursor loop returns an offset between the start offset and the end of
the text: the start of a recorded word is never before the start offset. -/
theorem scanCursor_bounds (s : Settings) (start : Int) (h0 : 0 ≤ start) :
    ∀ (rest : QString) (curPos : Int) (v : CursorScan), start ≤ curPos →
    (v.word_start_offset = -1 ∨ (start ≤ v.word_start_offset ∧ v.word_start_offset ≤ curPos)) →
    start ≤ scanCursor s start rest curPos v ∧
      scanCursor s start rest curPos v ≤ curPos + (rest.length : Int) := by
  intro rest
  induction rest with
  | nil =>
    intro curPos v hle _
    simp only [scanCursor, List.length_nil]
    omega
  | cons c rest ih =>
    intro curPos v hle hw
    rw [scanCursor_cons]
    simp only [List.length_cons]
    push_cast
    rcases cursorStep_cases s start c rest curPos v with h | ⟨h, hne⟩ | ⟨_, v', h, hv'⟩
    · rw [h]; simp only; omega
    · rw [h]; simp only; omega
    · rw [h]
      simp only
      have := ih (curPos + 1) v' (by omega) (by omega)
      omega

/-- The loop by iterations is left within `text.length - curPos + 1` iterations,
with the value of the loop over the rest of the text. -/
theorem scanLoop_eq (s : Settings) (text : QString) (start : Int) :
    ∀ (fuel curPos : Nat) (v : CursorScan), text.length - curPos < fuel →
    scanLoop s text start fuel curPos v =
      some (scanCursor s start (text.drop curPos) curPos v) := by
  intro fuel
  induction fuel with
  | zero => intro curPos v h; omega
  | succ fuel ih =>
    intro curPos v h
    rw [scanLoop]
    cases hd : text.drop curPos with
    | nil => simp only [scanCursor]
    | cons c rest =>
      simp only
      rw [scanCursor_cons]
      have hlen : curPos < text.length := by
        by_contra hge
        have : text.drop curPos = [] := List.drop_eq_nil_of_le (by omega)
        rw [this] at hd
        cases hd
      cases hstep : cursorStep s start c rest (curPos : Int) v with
      | leave p => rfl
      | advance v' =>
        simp only
        rw [ih (curPos + 1) v' (by omega), drop_succ_of_drop text rest c curPos hd]
        rfl

/-- C21: for every buffer, every start offset within the buffer and every policy
configuration, the scan loop of `insertTimeTag` is left after at most
`length - start + 1` iterations, and the offset `r` it returns satisfies
`start ≤ r ≤ length`: the roll-back to the start of a word never moves the
cursor before the start offset, and the scan never runs past the end of the
text. -/
theorem cursorScan_total_bounded (s : Settings) (text : QString) (start : Nat)
    (h : start ≤ text.length) :
    ∃ r : Nat, scanLoop s text start (text.length - start + 1) start CursorScan.init =
        some (r : Int) ∧
      cursorScan s text start = (r : Int) ∧ start ≤ r ∧ r ≤ text.length := by
  have hb := scanCursor_bounds s start (by omega) (text.drop start) start CursorScan.init
    (le_refl _) (Or.inl rfl)
  have hl : ((text.drop start).length : Int) = (text.length : Int) - (start : Int) := by
    rw [List.length_drop]
    omega
  rw [hl] at hb
  have he := scanLoop_eq s text start (text.length - start + 1) start CursorScan.init (by omega)
  refine ⟨(cursorScan s text start).toNat, ?_, ?_, ?_, ?_⟩
  · rw [he]
    unfold cursorScan
    congr 1
    omega
  · unfold cursorScan; omega
  · unfold cursorScan; omega
  · unfold cursorScan; omega

/-- C21 at the buffer `hi longword more` scanned from offset 0 with at most 3
characters per short word: the loop is left within 17 iterations with offset 3,
after the roll-back from offset 11. -/
theorem cursorScan_total_bounded_witness :
    (0 : Nat) ≤ wordSkipExample.length ∧
    scanLoop wordSkipSettings wordSkipExample (0 : Nat) (wordSkipExample.length - 0 + 1) 0
      CursorScan.init = some 3 ∧
    ∃ r : Nat, scanLoop wordSkipSettings wordSkipExample (0 : Nat)
        (wordSkipExample.length - 0 + 1) 0 CursorScan.init = some (r : Int) ∧
      cursorScan wordSkipSettings wordSkipExample 0 = (r : Int) ∧ 0 ≤ r ∧
        r ≤ wordSkipExample.length :=
  ⟨by decide, by decide,
    cursorScan_total_bounded wordSkipSettings wordSkipExample 0 (by decide)⟩

/-! ## Double empty lines -/

theorem validateState_append (ctx : Context) : ∀ (a b : List QString) (n : Int) (st : DocState),
    validateState ctx (a ++ b) n st =
      validateState ctx b (n + a.length) (validateState ctx a n st) := by
  intro a
  induction a with
  | nil => intro b n st; simp [validateState]
  | cons l rest ih =>
    intro b n st
    have e : n + ((rest.length + 1 : Nat) : Int) = n + 1 + (rest.length : Int) := by
      push_cast; omega
    rw [List.cons_append]
    simp only [validateState, List.length_cons]
    rw [ih, e]

/-- Behind a blank line the text of the paragraph is empty. -/
theorem validateState_paragraph_empty (ctx : Context) : ∀ (pre : List QString) (n : Int)
    (st : DocState), st.paragraphtext = [] →
    (∀ l, pre.getLast? = some l → (trimmed l).isEmpty = true) →
    (validateState ctx pre n st).paragraphtext = [] := by
  intro pre
  induction pre with
  | nil => intro n st h _; exact h
  | cons l rest ih =>
    intro n st _ hlast
    cases rest with
    | nil =>
      have hl : (trimmed l).isEmpty = true := hlast l rfl
      simp only [validateState, validateLine, hl, if_true, validateEmptyLine_state]
    | cons l2 rest2 =>
      have hlast' : ∀ x, (l2 :: rest2).getLast? = some x → (trimmed x).isEmpty = true := by
        intro x hx
        apply hlast x
        rw [List.getLast?_cons_cons]
        exact hx
      rw [validateState]
      by_cases hl : (trimmed l).isEmpty = true
      · exact ih (n + 1) _ (by simp only [validateLine, hl, if_true, validateEmptyLine_state])
          hlast'
      · have key : ∀ st2 : DocState, (validateState ctx (l2 :: rest2) (n + 1) st2).paragraphtext
            = [] := by
          intro st2
          have e : l2 :: rest2 = (l2 :: rest2).dropLast ++ [(l2 :: rest2).getLast (by simp)] :=
            (List.dropLast_append_getLast (by simp)).symm
          have hb : (trimmed ((l2 :: rest2).getLast (by simp))).isEmpty = true :=
            hlast' _ (List.getLast?_eq_getLast _ (by simp))
          rw [e, validateState_append]
          simp only [validateState, validateLine, hb, if_true, validateEmptyLine_state]
        exact key _

/-- Behind lines that are not blank the text of the paragraph is not empty. -/
theorem validateState_paragraph_ne (ctx : Context) : ∀ (b : List QString) (n : Int)
    (st : DocState), b ≠ [] → (∀ l ∈ b, (trimmed l).isEmpty = false) →
    (validateState ctx b n st).paragraphtext ≠ [] := by
  intro b
  induction b with
  | nil => intro n st h _; exact absurd rfl h
  | cons l rest ih =>
    intro n st _ hne
    have hl : (trimmed l).isEmpty = false := hne l (List.mem_cons_self _ _)
    cases rest with
    | nil =>
      simp only [validateState, validateLine, hl, Bool.false_eq_true, if_false,
        validateTextLine]
      simp
    | cons l2 rest2 =>
      rw [validateState]
      exact ih (n + 1) _ (by simp) (fun x hx => hne x (List.mem_cons_of_mem _ hx))

/-- The errors of a blank line when blocks are supported. -/
theorem validateEmptyLine_doubleEmpty (ctx : Context) (n : Int) (st : DocState)
    (hb : ctx.settings.m_editorSupportBlocks = true) :
    (st.paragraphtext = [] →
      (validateEmptyLine ctx n st).1 = [⟨n, 0, .doubleEmptyLine⟩]) ∧
    (st.paragraphtext ≠ [] →
      ∀ e ∈ (validateEmptyLine ctx n st).1, e.error ≠ .doubleEmptyLine) := by
  unfold validateEmptyLine
  constructor
  · intro h
    simp [hb, h]
  · intro h e he
    have hp : st.paragraphtext.isEmpty = false := by
      cases hs : st.paragraphtext with
      | nil => exact absurd hs h
      | cons _ _ => rfl
    by_cases ht : ctx.type = LyricType.CDG
    · simp only [hb, hp, ht, Bool.not_true, Bool.false_eq_true, if_false, if_true,
        List.mem_map] at he
      obtain ⟨x, _, rfl⟩ := he
      simp
    · simp [hb, hp, ht] at he

/-- The double-empty-line errors of a blank line that follows the lines `a`, of
which the last is blank if there is one, and the lines `b`, none of them
blank. -/
theorem validateLines_doubleEmpty (ctx : Context)
    (hb : ctx.settings.m_editorSupportBlocks = true) (a b : List QString) (line : QString)
    (post : List QString) (ha : ∀ l, a.getLast? = some l → (trimmed l).isEmpty = true)
    (hbn : ∀ l ∈ b, (trimmed l).isEmpty = false) (hl : (trimmed line).isEmpty = true) :
    ((∃ e ∈ validateLines ctx (a ++ (b ++ line :: post)) 1
          { linesinblock := 0, last_time := 0, paragraphtext := [] },
        e.line = (a.length : Int) + (b.length : Int) + 1 ∧ e.error = .doubleEmptyLine) ↔
      b = []) ∧
    (b = [] → (⟨(a.length : Int) + 1, 0, .doubleEmptyLine⟩ : ValidatorError) ∈
      validateLines ctx (a ++ (b ++ line :: post)) 1
        { linesinblock := 0, last_time := 0, paragraphtext := [] }) := by
  have hA := validateState_paragraph_empty ctx a 1
    { linesinblock := 0, last_time := 0, paragraphtext := [] } rfl ha
  have hsplit : validateLines ctx (a ++ (b ++ line :: post)) 1
      { linesinblock := 0, last_time := 0, paragraphtext := [] } =
      validateLines ctx a 1 { linesinblock := 0, last_time := 0, paragraphtext := [] } ++
        (validateLines ctx b (1 + (a.length : Int))
            (validateState ctx a 1 { linesinblock := 0, last_time := 0, paragraphtext := [] }) ++
          ((validateEmptyLine ctx (1 + (a.length : Int) + (b.length : Int))
              (validateState ctx b (1 + (a.length : Int))
                (validateState ctx a 1
                  { linesinblock := 0, last_time := 0, paragraphtext := [] }))).1 ++
            validateLines ctx post (1 + (a.length : Int) + (b.length : Int) + 1)
              (validateEmptyLine ctx (1 + (a.length : Int) + (b.length : Int))
                (validateState ctx b (1 + (a.length : Int))
                  (validateState ctx a 1
                    { linesinblock := 0, last_time := 0, paragraphtext := [] }))).2)) := by
    rw [validateLines_append, validateLines_append]
    simp only [validateLines, validateLine, hl, if_true]
  rw [hsplit]
  constructor
  · constructor
    · rintro ⟨e, he, hline, hkind⟩
      by_contra hne
      simp only [List.mem_append] at he
      rcases he with he | he | he | he
      · rcases validateLines_mem ctx _ _ _ e he with h | ⟨_, m, h⟩
        · omega
        · rw [hkind] at h; cases h
      · rcases validateLines_mem ctx _ _ _ e he with h | ⟨_, m, h⟩
        · omega
        · rw [hkind] at h; cases h
      · have hB := validateState_paragraph_ne ctx b (1 + (a.length : Int))
          (validateState ctx a 1 { linesinblock := 0, last_time := 0, paragraphtext := [] })
          hne hbn
        exact (validateEmptyLine_doubleEmpty ctx _ _ hb).2 hB e he hkind
      · rcases validateLines_mem ctx _ _ _ e he with h | ⟨_, m, h⟩
        · omega
        · rw [hkind] at h; cases h
    · rintro rfl
      refine ⟨⟨1 + (a.length : Int) + ((([] : List QString).length : Nat) : Int), 0,
        .doubleEmptyLine⟩, ?_, ?_, rfl⟩
      · simp only [List.mem_append]
        right; right; left
        rw [(validateEmptyLine_doubleEmpty ctx _ _ hb).1 (by simpa [validateState] using hA)]
        exact List.mem_singleton.2 rfl
      · simp only [List.length_nil]
        push_cast
        omega
  · rintro rfl
    simp only [List.mem_append]
    right; right; left
    rw [(validateEmptyLine_doubleEmpty ctx _ _ hb).1 (by simpa [validateState] using hA)]
    apply List.mem_singleton.2
    simp only [List.length_nil]
    congr 1
    push_cast
    omega

/-- C22: with blocks supported, let a blank line follow the lines `a`, of which
the last is blank if there is one (the lines up to the previous blank line, or
no line at all), and the lines `b`, none of them blank (the lines between).
Then `validate` reports a double-empty-line error on that line if and only if
`b` is empty: no line that is not blank occurs between the blank line and the
previous blank line or the start of the document. Consequently a document whose
first line is blank, such as the empty document, has the error at line 1. -/
theorem validate_doubleEmptyLine (ctx : Context) (text : QString) (a b : List QString)
    (line : QString) (post : List QString)
    (hb : ctx.settings.m_editorSupportBlocks = true)
    (h : split '\n' text = a ++ (b ++ line :: post))
    (ha : ∀ l, a.getLast? = some l → (trimmed l).isEmpty = true)
    (hbn : ∀ l ∈ b, (trimmed l).isEmpty = false) (hl : (trimmed line).isEmpty = true) :
    ((∃ e ∈ validate ctx text,
        e.line = (a.length : Int) + (b.length : Int) + 1 ∧ e.error = .doubleEmptyLine) ↔
      b = []) ∧
    (b = [] →
      (⟨(a.length : Int) + 1, 0, .doubleEmptyLine⟩ : ValidatorError) ∈ validate ctx text) ∧
    (a = [] → b = [] → (⟨1, 0, .doubleEmptyLine⟩ : ValidatorError) ∈ validate ctx text) := by
  have key := validateLines_doubleEmpty ctx hb a b line post ha hbn hl
  rw [← h] at key
  refine ⟨key.1, key.2, ?_⟩
  intro ha0 hb0
  have := key.2 hb0
  rw [ha0] at this
  exact this

/-- C22 at the empty document, whose only line is blank: the error is at line 1;
and at the document `[00:01.00]a` followed by two empty lines: the first empty
line has no double-empty-line error, the second has one. -/
theorem validate_doubleEmptyLine_witness :
    exampleContext.settings.m_editorSupportBlocks = true ∧
    split '\n' ([] : QString) = [] ++ ([] ++ [] :: []) ∧
    (⟨1, 0, .doubleEmptyLine⟩ : ValidatorError) ∈ validate exampleContext [] ∧
    split '\n' doubleEmptyExample = [] ++ ([oneLineExample] ++ [] :: [[]]) ∧
    (¬ ∃ e ∈ validate exampleContext doubleEmptyExample,
      e.line = 2 ∧ e.error = .doubleEmptyLine) ∧
    split '\n' doubleEmptyExample = [oneLineExample, []] ++ ([] ++ [] :: []) ∧
    (⟨3, 0, .doubleEmptyLine⟩ : ValidatorError) ∈ validate exampleContext doubleEmptyExample :=
  ⟨rfl, by decide,
    (validate_doubleEmptyLine exampleContext [] [] [] [] [] rfl (by decide)
      (by simp) (by simp) (by decide)).2.2 rfl rfl,
    by decide,
    fun hex =>
      absurd ((validate_doubleEmptyLine exampleContext doubleEmptyExample [] [oneLineExample] []
        [[]] rfl (by decide) (by simp) (by decide) (by decide)).1.1 hex) (by simp),
    by decide,
    (validate_doubleEmptyLine exampleContext doubleEmptyExample [oneLineExample, []] [] [] []
      rfl (by decide) (by decide) (by simp) (by decide)).2.1 rfl⟩

/-! ## The order of the errors and the paragraph hook -/

/-- Along the lines, the errors that `validate` reports itself have line numbers
that do not decrease, whatever the profile. -/
theorem validateLines_pairwise_own (ctx : Context) :
    ∀ (lines : List QString) (n : Int) (st : DocState),
    List.Pairwise (fun a b : ValidatorError => a.line ≤ b.line)
      ((validateLines ctx lines n st).filter (fun e => !isParagraphError e.error)) := by
  intro lines
  induction lines with
  | nil => intro n st; simp [validateLines]
  | cons l rest ih =>
    intro n st
    have own : ∀ (e : ValidatorError), (!isParagraphError e.error) = true →
        ¬ ∃ m, e.error = .paragraph m := by
      rintro e he ⟨m, hm⟩
      rw [hm] at he
      simp [isParagraphError] at he
    simp only [validateLines, List.filter_append]
    rw [List.pairwise_append]
    refine ⟨?_, ih _ _, ?_⟩
    · rw [List.pairwise_iff_forall_sublist]
      intro a b hab
      have ha := List.mem_filter.1 (hab.subset (List.mem_cons_self _ _))
      have hb := List.mem_filter.1
        (hab.subset (List.mem_cons_of_mem _ (List.mem_singleton_self _)))
      rcases validateLine_mem ctx n l st a ha.1 with h1 | h1
      · rcases validateLine_mem ctx n l st b hb.1 with h2 | h2
        · omega
        · exact absurd h2.2 (own b hb.2)
      · exact absurd h1.2 (own a ha.2)
    · intro a ha b hb
      have ha := List.mem_filter.1 ha
      have hb := List.mem_filter.1 hb
      rcases validateLine_mem ctx n l st a ha.1 with h1 | h1
      · rcases validateLines_mem ctx rest (n + 1) _ b hb.1 with h2 | h2
        · omega
        · exact absurd h2.2 (own b hb.2)
      · exact absurd h1.2 (own a ha.2)

/-- Lines that are not blank count up the lines of the block. -/
theorem validateState_count (ctx : Context) : ∀ (b : List QString) (n : Int) (st : DocState),
    (∀ l ∈ b, (trimmed l).isEmpty = false) →
    (validateState ctx b n st).linesinblock = st.linesinblock + (b.length : Int) := by
  intro b
  induction b with
  | nil => intro n st _; simp [validateState]
  | cons l rest ih =>
    intro n st hne
    have hl : (trimmed l).isEmpty = false := hne l (List.mem_cons_self _ _)
    rw [validateState, ih _ _ (fun x hx => hne x (List.mem_cons_of_mem _ hx))]
    simp only [validateLine, hl, Bool.false_eq_true, if_false, validateTextLine_linesinblock,
      List.length_cons]
    push_cast
    omega

/-- The errors of the blank line that closes a block under CDG: those of the
paragraph hook, moved by the line number of the blank line less the number of
lines of the block. -/
theorem validateEmptyLine_cdg (ctx : Context) (n : Int) (st : DocState)
    (hb : ctx.settings.m_editorSupportBlocks = true) (ht : ctx.type = LyricType.CDG)
    (hp : st.paragraphtext ≠ []) :
    (validateEmptyLine ctx n st).1 =
      (ctx.validateParagraph st.paragraphtext).map fun err =>
        ⟨wrap32 (err.line + (n - st.linesinblock)), err.column, .paragraph err.message⟩ := by
  have hp' : st.paragraphtext.isEmpty = false := by
    cases hs : st.paragraphtext with
    | nil => exact absurd hs hp
    | cons _ _ => rfl
  unfold validateEmptyLine
  simp only [hb, hp', ht, Bool.not_true, Bool.false_eq_true, if_false, if_true]

/-- The error list of a document in which a blank line closes a block. -/
theorem validateLines_cdg_block (ctx : Context)
    (hb : ctx.settings.m_editorSupportBlocks = true) (ht : ctx.type = LyricType.CDG)
    (a b : List QString) (line : QString) (post : List QString)
    (ha : ∀ l, a.getLast? = some l → (trimmed l).isEmpty = true)
    (hb0 : b ≠ []) (hbn : ∀ l ∈ b, (trimmed l).isEmpty = false)
    (hl : (trimmed line).isEmpty = true) :
    validateLines ctx (a ++ (b ++ line :: post)) 1 ⟨0, 0, []⟩ =
      validateLines ctx (a ++ b) 1 ⟨0, 0, []⟩ ++
        ((ctx.validateParagraph (validateState ctx (a ++ b) 1 ⟨0, 0, []⟩).paragraphtext).map
            (fun err => (⟨wrap32 (err.line + ((a.length : Int) + 1)), err.column,
              .paragraph err.message⟩ : ValidatorError)) ++
          validateLines ctx post ((a.length : Int) + (b.length : Int) + 2)
            ⟨0, (validateState ctx (a ++ b) 1 ⟨0, 0, []⟩).last_time, []⟩) := by
  have hA : (validateState ctx a 1 ⟨0, 0, []⟩).linesinblock = 0 :=
    validateState_linesinblock ctx a 1 ⟨0, 0, []⟩ rfl
      (fun l hl => ha l (by simpa using hl))
  have hS : validateState ctx (a ++ b) 1 ⟨0, 0, []⟩ =
      validateState ctx b (1 + (a.length : Int)) (validateState ctx a 1 ⟨0, 0, []⟩) :=
    validateState_append ctx a b 1 _
  have hcount : (validateState ctx (a ++ b) 1 ⟨0, 0, []⟩).linesinblock = (b.length : Int) := by
    rw [hS, validateState_count ctx b _ _ hbn, hA]
    omega
  have hpar : (validateState ctx (a ++ b) 1 ⟨0, 0, []⟩).paragraphtext ≠ [] := by
    rw [hS]
    exact validateState_paragraph_ne ctx b _ _ hb0 hbn
  have e : a ++ (b ++ line :: post) = (a ++ b) ++ line :: post := by simp
  rw [e, validateLines_append]
  congr 1
  simp only [validateLines, validateLine, hl, if_true]
  rw [validateEmptyLine_cdg ctx _ _ hb ht hpar, validateEmptyLine_state, hcount]
  have e1 : (1 : Int) + ((a ++ b).length : Int) - (b.length : Int) = (a.length : Int) + 1 := by
    rw [List.length_append]; push_cast; omega
  have e2 : (1 : Int) + ((a ++ b).length : Int) + 1 = (a.length : Int) + (b.length : Int) + 2 := by
    rw [List.length_append]; push_cast; omega
  rw [e1, e2]

/-- C16, as amended: for every document and policy, (1) for every profile other
than CDG the line numbers are non-decreasing along the error list of
`validate`, so the first error, the one the pass/fail wrapper reports, has the
smallest line number of all; (2) for every profile the errors that `validate`
reports itself, the paragraph hook's set aside, have non-decreasing line
numbers along the list; (3) under CDG with blocks supported, where a blank line
closes the block of the lines `b` that follow the lines `a`, the error list is
made of the errors of the lines `a` and `b`, then the errors that the hook
returns for the text of the block, each with the number of the first line of
the block added to its line number, then the errors of the lines behind the
blank line. -/
theorem validate_ordered (ctx : Context) (text : QString) :
    (ctx.type ≠ LyricType.CDG →
      List.Pairwise (fun a b : ValidatorError => a.line ≤ b.line) (validate ctx text) ∧
      List.Chain' (· ≤ ·) ((validate ctx text).map (fun e => e.line)) ∧
      (∀ first ∈ (validate ctx text).head?, ∀ e ∈ validate ctx text, first.line ≤ e.line)) ∧
    List.Chain' (· ≤ ·)
      (((validate ctx text).filter (fun e => !isParagraphError e.error)).map
        (fun e => e.line)) ∧
    (∀ (a b : List QString) (line : QString) (post : List QString),
      ctx.settings.m_editorSupportBlocks = true → ctx.type = LyricType.CDG →
      split '\n' text = a ++ (b ++ line :: post) →
      (∀ l, a.getLast? = some l → (trimmed l).isEmpty = true) →
      b ≠ [] → (∀ l ∈ b, (trimmed l).isEmpty = false) → (trimmed line).isEmpty = true →
      validate ctx text =
          validateLines ctx (a ++ b) 1 ⟨0, 0, []⟩ ++
            ((ctx.validateParagraph
                (validateState ctx (a ++ b) 1 ⟨0, 0, []⟩).paragraphtext).map
                (fun err => (⟨wrap32 (err.line + ((a.length : Int) + 1)), err.column,
                  .paragraph err.message⟩ : ValidatorError)) ++
              validateLines ctx post ((a.length : Int) + (b.length : Int) + 2)
                ⟨0, (validateState ctx (a ++ b) 1 ⟨0, 0, []⟩).last_time, []⟩) ∧
        (∀ e ∈ validateLines ctx (a ++ b) 1 ⟨0, 0, []⟩, isParagraphError e.error = false →
          1 ≤ e.line ∧ e.line ≤ (a.length : Int) + (b.length : Int)) ∧
        (∀ e ∈ validateLines ctx post ((a.length : Int) + (b.length : Int) + 2)
            ⟨0, (validateState ctx (a ++ b) 1 ⟨0, 0, []⟩).last_time, []⟩,
          isParagraphError e.error = false → (a.length : Int) + (b.length : Int) + 2 ≤ e.line)) := by
  refine ⟨?_, ?_, ?_⟩
  · intro ht
    have hp := validateLines_pairwise ctx ht (split '\n' text) 1
      { linesinblock := 0, last_time := 0, paragraphtext := [] }
    have hp' : List.Pairwise (fun a b : ValidatorError => a.line ≤ b.line) (validate ctx text) :=
      hp
    refine ⟨hp', ?_, ?_⟩
    · apply List.Pairwise.chain'
      rw [List.pairwise_map]
      exact hp'
    · intro first hf e he
      cases hv : validate ctx text with
      | nil => rw [hv] at he; simp at he
      | cons x xs =>
        rw [hv] at hf he hp'
        simp only [List.head?_cons, Option.mem_def, Option.some.injEq] at hf
        subst hf
        rcases List.mem_cons.1 he with h | h
        · rw [h]
        · exact (List.pairwise_cons.1 hp').1 e h
  · apply List.Pairwise.chain'
    rw [List.pairwise_map]
    exact validateLines_pairwise_own ctx (split '\n' text) 1
      { linesinblock := 0, last_time := 0, paragraphtext := [] }
  · intro a b line post hb ht hsplit ha hb0 hbn hl
    have own : ∀ e : ValidatorError, isParagraphError e.error = false →
        ¬ ∃ m, e.error = .paragraph m := by
      rintro e he ⟨m, hm⟩
      rw [hm] at he
      simp [isParagraphError] at he
    refine ⟨?_, ?_, ?_⟩
    · have := validateLines_cdg_block ctx hb ht a b line post ha hb0 hbn hl
      rw [← hsplit] at this
      exact this
    · intro e he hown
      rcases validateLines_mem ctx _ _ _ e he with h | h
      · rw [List.length_append] at h
        push_cast at h
        omega
      · exact absurd h.2 (own e hown)
    · intro e he hown
      rcases validateLines_mem ctx _ _ _ e he with h | h
      · omega
      · exact absurd h.2 (own e hown)

/-- C16 at the three-line document and the context of the examples (LRC1), with
blocks of at most 0 lines so that every line has an error; and at the CDG
document `[00:01.00]a[00:02.00]` / `x[00:03.00]` / empty line, where the hook's
error for the first line of the block comes behind the error of line 2. -/
theorem validate_ordered_witness :
    (zeroBlockContext.type ≠ LyricType.CDG ∧
      List.Pairwise (fun a b : ValidatorError => a.line ≤ b.line)
        (validate zeroBlockContext threeLineExample) ∧
      List.Chain' (· ≤ ·) ((validate zeroBlockContext threeLineExample).map (fun e => e.line)) ∧
      (∀ first ∈ (validate zeroBlockContext threeLineExample).head?,
        ∀ e ∈ validate zeroBlockContext threeLineExample, first.line ≤ e.line)) ∧
    (cdgContext.settings.m_editorSupportBlocks = true ∧ cdgContext.type = LyricType.CDG ∧
      split '\n' cdgExample = [] ++ ((split '\n' cdgExample).take 2 ++ [] :: []) ∧
      validateLines cdgContext ([] ++ (split '\n' cdgExample).take 2) 1 ⟨0, 0, []⟩ =
        [⟨2, 0, .missingOpening⟩] ∧
      validate cdgContext cdgExample =
        validateLines cdgContext ([] ++ (split '\n' cdgExample).take 2) 1 ⟨0, 0, []⟩ ++
          ((cdgContext.validateParagraph
              (validateState cdgContext ([] ++ (split '\n' cdgExample).take 2) 1
                ⟨0, 0, []⟩).paragraphtext).map
              (fun err => (⟨wrap32 (err.line + ((([] : List QString).length : Int) + 1)),
                err.column, .paragraph err.message⟩ : ValidatorError)) ++
            validateLines cdgContext []
              ((([] : List QString).length : Int) +
                (((split '\n' cdgExample).take 2).length : Int) + 2)
              ⟨0, (validateState cdgContext ([] ++ (split '\n' cdgExample).take 2) 1
                ⟨0, 0, []⟩).last_time, []⟩)) :=
  ⟨⟨by decide, (validate_ordered zeroBlockContext threeLineExample).1 (by decide)⟩,
    rfl, rfl, by decide, by decide,
    ((validate_ordered cdgContext cdgExample).2.2 [] ((split '\n' cdgExample).take 2) [] []
      rfl rfl (by decide) (by simp) (by decide) (by decide) (by decide)).1⟩

/-- C16, as stated, fails for CDG: the error of the paragraph hook for the first
line of a block is appended when the empty line that closes the block is
reached, behind the errors of the lines of the block. Here the first error is
on line 2 and the second on line 1. -/
theorem validate_ordered_counterexample :
    validate cdgContext cdgExample =
        [⟨2, 0, .missingOpening⟩, ⟨1, 0, .paragraph ['c', 'd', 'g']⟩] ∧
      ¬ List.Chain' (· ≤ ·) ((validate cdgContext cdgExample).map (fun e => e.line)) := by
  have h : validate cdgContext cdgExample =
      [⟨2, 0, .missingOpening⟩, ⟨1, 0, .paragraph ['c', 'd', 'g']⟩] := by decide
  refine ⟨h, ?_⟩
  rw [h]
  simp

end Karlyriceditor
